import Mathlib

/-!
# aischedule: the task scheduler over the cron engine, and the WebSocket hub

A shallow embedding of `backend/internal/scheduler/scheduler.go` and of the parts of the
cron engine it drives (`github.com/robfig/cron/v3`: `parser.go`, `spec.go`,
`constantdelay.go`, `cron.go`), of `backend/internal/websocket/manager.go` (the hub's
operations one at a time, and the loop with the goroutines that send to it), of the
interleavings of `Stop` with the fires in flight, and of the paging of the list handlers
(`backend/internal/handlers`), followed by theorems about them.

Conventions of the embedding.

* Go strings are lists of characters (`List Char`), that is, valid UTF-8; the few
  `strings`/`strconv` functions the parser calls are defined below on such lists.
* Go's `int`, `uint` and `int64` are `Int`/`Nat` (`int` is 64 bits wide); where the
  source can overflow the wrap-around is written out (`wrapInt64`).
* An instant (`time.Time`) is an `Int`: nanoseconds since 0001-01-01 00:00:00 UTC, so
  Go's zero `time.Time` is `0`.  Time zones are fixed offsets from UTC.
* `*models.Task` is an address (`Ptr`) into a heap of task records, and `*Client` an
  address (`CPtr`) into a heap of client objects.
* Go maps are association lists with one pair per key; a `range` over a map takes the
  pairs in the order of the list.
* What the scheduler obtains from outside (the zone database, `time.ParseDuration`) is
  a `Host` parameter; clock readings and the executor's behaviour are arguments of the
  operation that consumes them.
-/

set_option autoImplicit false
set_option linter.dupNamespace false

namespace GoStr

/-- Go's `unicode.IsSpace`: the white-space characters `strings.Fields` and
`strings.TrimSpace` split and trim on. -/
def isSpace (c : Char) : Bool :=
  let n := c.toNat
  n == 0x09 || n == 0x0A || n == 0x0B || n == 0x0C || n == 0x0D || n == 0x20 ||
  n == 0x85 || n == 0xA0 || n == 0x1680 || (0x2000 ≤ n && n ≤ 0x200A) ||
  n == 0x2028 || n == 0x2029 || n == 0x202F || n == 0x205F || n == 0x3000

/-- Worker of `fieldsFunc`: `cur` is the field being read, in reverse. -/
def fieldsAux (sep : Char → Bool) : List Char → List Char → List (List Char)
  | [], cur => if cur.isEmpty then [] else [cur.reverse]
  | c :: cs, cur =>
    if sep c then
      if cur.isEmpty then fieldsAux sep cs [] else cur.reverse :: fieldsAux sep cs []
    else fieldsAux sep cs (c :: cur)

/-- Go's `strings.FieldsFunc`: the maximal runs of characters not satisfying `sep`
(empty fields are dropped). -/
def fieldsFunc (sep : Char → Bool) (s : List Char) : List (List Char) :=
  fieldsAux sep s []

/-- Go's `strings.Fields`. -/
def fields (s : List Char) : List (List Char) := fieldsFunc isSpace s

/-- Worker of `split`. -/
def splitAux (sep : Char) : List Char → List Char → List (List Char)
  | [], cur => [cur.reverse]
  | c :: cs, cur =>
    if c = sep then cur.reverse :: splitAux sep cs [] else splitAux sep cs (c :: cur)

/-- Go's `strings.Split` for a one-character separator: `n` separators give `n + 1`
pieces, empty ones included. -/
def split (sep : Char) (s : List Char) : List (List Char) := splitAux sep s []

/-- Go's `strings.HasPrefix`. -/
def hasPrefix (s p : List Char) : Bool := p.isPrefixOf s

/-- Go's `strings.Index` for a one-character needle (`none` is Go's `-1`). -/
def index (c : Char) : List Char → Option Nat
  | [] => none
  | d :: ds => if d = c then some 0 else (index c ds).map (· + 1)

/-- Go's `strings.TrimSpace`. -/
def trimSpace (s : List Char) : List Char :=
  ((s.dropWhile isSpace).reverse.dropWhile isSpace).reverse

/-- Go's `unicode.ToLower` as far as `parseIntOrName` can observe it: the result is
compared with ASCII names only, and the characters whose lower case is an ASCII
letter are `A`..`Z`, U+0130 (to `i`) and U+212A (to `k`).  Every other character is
left as it is. -/
def toLowerChar (c : Char) : Char :=
  if 65 ≤ c.toNat ∧ c.toNat ≤ 90 then Char.ofNat (c.toNat + 32)
  else if c.toNat = 0x130 then 'i'
  else if c.toNat = 0x212A then 'k'
  else c

/-- Go's `strings.ToLower` (see `toLowerChar`). -/
def toLower (s : List Char) : List Char := s.map toLowerChar

/-- The value of a run of decimal digits (`0` is character 48, `9` is 57), `none` if a
character is not a digit. -/
def digitsVal : List Char → Nat → Option Nat
  | [], acc => some acc
  | c :: cs, acc =>
    if 48 ≤ c.toNat ∧ c.toNat ≤ 57 then digitsVal cs (acc * 10 + (c.toNat - 48)) else none

/-- Go's `strconv.Atoi` on a 64-bit platform: an optional sign, then one or more
decimal digits; `none` stands for both of its errors (syntax, out of `int` range). -/
def atoi (s : List Char) : Option Int :=
  match s with
  | [] => none
  | c :: cs =>
    let neg := c = '-'
    let ds := if c = '-' ∨ c = '+' then cs else c :: cs
    if ds.isEmpty then none
    else
      match digitsVal ds 0 with
      | none => none
      | some v =>
        if neg then (if v ≤ 2 ^ 63 then some (-(v : Int)) else none)
        else (if v < 2 ^ 63 then some (v : Int) else none)

end GoStr

/-! ## The cron engine: schedules and the expression parser (`robfig/cron/v3`) -/

namespace Cron

/-- An instant: nanoseconds since 0001-01-01 00:00:00 UTC (Go's zero `time.Time` is 0). -/
abbrev Time := Int

/-- A `time.Duration`: nanoseconds. -/
abbrev Duration := Int

/-- A `*time.Location`: the process's local zone (`time.Local`) or a named zone, taken
to be a fixed offset in seconds east of UTC. -/
inductive Location where
  | Local
  | fixed (name : String) (offset : Int)
  deriving DecidableEq, Repr

/-- What the process the scheduler runs in supplies: `time.LoadLocation` (which reads
the host's zone database), `time.ParseDuration`, and the offset of the local zone. -/
structure Host where
  loadLocation : List Char → Option Location
  parseDuration : List Char → Option Duration
  localOffset : Int

/-- Go wraps 64-bit signed arithmetic. -/
def wrapInt64 (x : Int) : Int := (x + 2 ^ 63) % 2 ^ 64 - 2 ^ 63

/-- The `ParseOption` bits of `parser.go`. -/
def Second : Nat := 1
def SecondOptional : Nat := 2
def Minute : Nat := 4
def Hour : Nat := 8
def Dom : Nat := 16
def Month : Nat := 32
def Dow : Nat := 64
def DowOptional : Nat := 128
def Descriptor : Nat := 256

/-- The `places` table of `parser.go`. -/
def places : List Nat := [Second, Minute, Hour, Dom, Month, Dow]

/-- The `defaults` table of `parser.go`. -/
def defaults : List (List Char) := [['0'], ['0'], ['0'], ['*'], ['*'], ['*']]

/-- The `bounds` of a field (`spec.go`): least and greatest value, and the names that
may stand for values. -/
structure Bounds where
  min : Nat
  max : Nat
  names : List (List Char × Nat)

def seconds : Bounds := ⟨0, 59, []⟩
def minutes : Bounds := ⟨0, 59, []⟩
def hours : Bounds := ⟨0, 23, []⟩
def dom : Bounds := ⟨1, 31, []⟩
def months : Bounds := ⟨1, 12,
  [("jan".toList, 1), ("feb".toList, 2), ("mar".toList, 3), ("apr".toList, 4),
   ("may".toList, 5), ("jun".toList, 6), ("jul".toList, 7), ("aug".toList, 8),
   ("sep".toList, 9), ("oct".toList, 10), ("nov".toList, 11), ("dec".toList, 12)]⟩
def dow : Bounds := ⟨0, 6,
  [("sun".toList, 0), ("mon".toList, 1), ("tue".toList, 2), ("wed".toList, 3),
   ("thu".toList, 4), ("fri".toList, 5), ("sat".toList, 6)]⟩

/-- The `starBit` of `spec.go`: set when a field was written `*` or `?`. -/
def starBit : Nat := 2 ^ 63

/-- A `SpecSchedule`: one bit set per permitted value of each field. -/
structure SpecSchedule where
  Second : Nat
  Minute : Nat
  Hour : Nat
  Dom : Nat
  Month : Nat
  Dow : Nat
  Location : Location
  deriving DecidableEq, Repr

/-- A `cron.Schedule`: a `SpecSchedule` or a `ConstantDelaySchedule` (its `Delay`). -/
inductive Schedule where
  | spec (s : SpecSchedule)
  | every (delay : Duration)
  deriving DecidableEq, Repr

/-- The errors `Parser.Parse` returns, by the `fmt.Errorf` that builds them. -/
inductive ParseError where
  | emptySpec
  | badLocation
  | descriptorsNotAccepted
  | multipleOptionals
  | fieldCount (min max count : Nat)
  | unknownOptional
  | parseInt
  | negativeNumber
  | tooManyHyphens
  | tooManySlashes
  | belowMinimum
  | aboveMaximum
  | beyondEnd
  | zeroStep
  | badDuration
  | unrecognizedDescriptor
  deriving DecidableEq, Repr

/-- What a call of the parser does: return a value, return an error, or panic. -/
inductive Result (α : Type) where
  | ok (a : α)
  | error (e : ParseError)
  | panic
  deriving DecidableEq, Repr

/-- The loop of `getBits` for a step other than 1; `fuel` bounds the iterations. -/
def getBitsLoop (max step : Nat) : Nat → Nat → Nat → Nat
  | 0, _, bits => bits
  | fuel + 1, i, bits =>
    if i ≤ max then getBitsLoop max step fuel (i + step) (bits ||| (1 <<< i)) else bits

/-- The `getBits` of `parser.go`: the bits `min`, `min + step`, ... up to `max`, in a
`uint64`.  It is called with `step > 0` only, so `max + 1` iterations are enough. -/
def getBits (min max step : Nat) : Nat :=
  if step = 1 then
    (2 ^ 64 - 1 - ((2 ^ 64 - 1) <<< (max + 1)) % 2 ^ 64) &&& (((2 ^ 64 - 1) <<< min) % 2 ^ 64)
  else getBitsLoop max step (max + 1) min 0

/-- The `all` of `parser.go`. -/
def all (r : Bounds) : Nat := getBits r.min r.max 1 ||| starBit

/-- The `mustParseInt` of `parser.go`. -/
def mustParseInt (expr : List Char) : Except ParseError Nat :=
  match GoStr.atoi expr with
  | none => .error .parseInt
  | some num => if num < 0 then .error .negativeNumber else .ok num.toNat

/-- The `parseIntOrName` of `parser.go` (a `nil` name table is the empty list). -/
def parseIntOrName (expr : List Char) (names : List (List Char × Nat)) : Except ParseError Nat :=
  match names.lookup (GoStr.toLower expr) with
  | some namedInt => .ok namedInt
  | none => mustParseInt expr

/-- The first block of `getRange`: start, end and the star bit of the part before the
step, `lowAndHigh` being that part split at the hyphens. -/
def rangeEnds (lowAndHigh : List (List Char)) (r : Bounds) :
    Except ParseError (Nat × Nat × Nat) :=
  if lowAndHigh.headD [] = ['*'] ∨ lowAndHigh.headD [] = ['?'] then
    .ok (r.min, r.max, starBit)
  else
    match parseIntOrName (lowAndHigh.headD []) r.names with
    | .error e => .error e
    | .ok start =>
      match lowAndHigh with
      | [_] => .ok (start, start, 0)
      | [_, high] =>
        match parseIntOrName high r.names with
        | .error e => .error e
        | .ok endv => .ok (start, endv, 0)
      | _ => .error .tooManyHyphens

/-- The second block of `getRange`: the step, and the end and star bit it changes
("N/step" means "N-max/step"; a step above 1 clears the star bit). -/
def rangeStep (rangeAndStep : List (List Char)) (singleDigit : Bool) (r : Bounds)
    (endv extra : Nat) : Except ParseError (Nat × Nat × Nat) :=
  match rangeAndStep with
  | [_] => .ok (1, endv, extra)
  | [_, stepText] =>
    match mustParseInt stepText with
    | .error e => .error e
    | .ok step => .ok (step, if singleDigit then r.max else endv, if step > 1 then 0 else extra)
  | _ => .error .tooManySlashes

/-- The `getRange` of `parser.go`: the bits of `number | number "-" number [ "/" number ]`. -/
def getRange (expr : List Char) (r : Bounds) : Except ParseError Nat :=
  let rangeAndStep := GoStr.split '/' expr
  let lowAndHigh := GoStr.split '-' (rangeAndStep.headD [])
  let singleDigit := lowAndHigh.length == 1
  match rangeEnds lowAndHigh r with
  | .error e => .error e
  | .ok (start, endv, extra) =>
    match rangeStep rangeAndStep singleDigit r endv extra with
    | .error e => .error e
    | .ok (step, endv, extra) =>
      if start < r.min then .error .belowMinimum
      else if endv > r.max then .error .aboveMaximum
      else if start > endv then .error .beyondEnd
      else if step = 0 then .error .zeroStep
      else .ok (getBits start endv step ||| extra)

/-- The loop of `getField` over the comma-separated ranges. -/
def getFieldLoop (r : Bounds) : List (List Char) → Nat → Except ParseError Nat
  | [], bits => .ok bits
  | expr :: rest, bits =>
    match getRange expr r with
    | .error e => .error e
    | .ok bit => getFieldLoop r rest (bits ||| bit)

/-- The `getField` of `parser.go`. -/
def getField (field : List Char) (r : Bounds) : Except ParseError Nat :=
  getFieldLoop r (GoStr.fieldsFunc (· = ',') field) 0

/-- The last loop of `normalizeFields`: a field of `fields` for every place in
`options`, the default for the others. -/
def expandFields (options : Nat) :
    List Nat → List (List Char) → List (List Char) → List (List Char)
  | place :: ps, d :: ds, fields =>
    if options &&& place > 0 then fields.headD [] :: expandFields options ps ds fields.tail
    else d :: expandFields options ps ds fields
  | _, _, _ => []

/-- The `normalizeFields` of `parser.go`. -/
def normalizeFields (fields : List (List Char)) (options : Nat) :
    Except ParseError (List (List Char)) :=
  let secondOpt := options &&& SecondOptional > 0
  let dowOpt := options &&& DowOptional > 0
  let options := if secondOpt then options ||| Second else options
  let options := if dowOpt then options ||| Dow else options
  let optionals := (if secondOpt then 1 else 0) + (if dowOpt then 1 else 0)
  if optionals > 1 then .error .multipleOptionals
  else
    let max := (places.filter (fun place => options &&& place > 0)).length
    let min := max - optionals
    let count := fields.length
    if count < min ∨ count > max then .error (.fieldCount min max count)
    else
      let filled : Except ParseError (List (List Char)) :=
        if min < max ∧ fields.length = min then
          if dowOpt then .ok (fields ++ [defaults.getD 5 []])
          else if secondOpt then .ok (defaults.getD 0 [] :: fields)
          else .error .unknownOptional
        else .ok fields
      match filled with
      | .error e => .error e
      | .ok fields => .ok (expandFields options places defaults fields)

/-- The `Every` of `constantdelay.go`: delays are at least a second and whole seconds. -/
def Every (duration : Duration) : Schedule :=
  let duration := if duration < 1000000000 then 1000000000 else duration
  .every (duration - Int.tmod duration 1000000000)

/-- The `parseDescriptor` of `parser.go`. -/
def parseDescriptor (host : Host) (descriptor : List Char) (loc : Location) :
    Except ParseError Schedule :=
  if descriptor = "@yearly".toList ∨ descriptor = "@annually".toList then
    .ok (.spec ⟨1 <<< seconds.min, 1 <<< minutes.min, 1 <<< hours.min, 1 <<< dom.min,
      1 <<< months.min, all dow, loc⟩)
  else if descriptor = "@monthly".toList then
    .ok (.spec ⟨1 <<< seconds.min, 1 <<< minutes.min, 1 <<< hours.min, 1 <<< dom.min,
      all months, all dow, loc⟩)
  else if descriptor = "@weekly".toList then
    .ok (.spec ⟨1 <<< seconds.min, 1 <<< minutes.min, 1 <<< hours.min, all dom,
      all months, 1 <<< dow.min, loc⟩)
  else if descriptor = "@daily".toList ∨ descriptor = "@midnight".toList then
    .ok (.spec ⟨1 <<< seconds.min, 1 <<< minutes.min, 1 <<< hours.min, all dom,
      all months, all dow, loc⟩)
  else if descriptor = "@hourly".toList then
    .ok (.spec ⟨1 <<< seconds.min, 1 <<< minutes.min, all hours, all dom,
      all months, all dow, loc⟩)
  else if GoStr.hasPrefix descriptor "@every ".toList then
    match host.parseDuration (descriptor.drop 7) with
    | none => .error .badDuration
    | some duration => .ok (Every duration)
  else .error .unrecognizedDescriptor

/-- The six `field(...)` calls of `Parser.Parse`: the first error is the one returned. -/
def parseFields (fields : List (List Char)) (loc : Location) : Except ParseError Schedule := do
  let second ← getField (fields.getD 0 []) seconds
  let minute ← getField (fields.getD 1 []) minutes
  let hour ← getField (fields.getD 2 []) hours
  let dayofmonth ← getField (fields.getD 3 []) dom
  let month ← getField (fields.getD 4 []) months
  let dayofweek ← getField (fields.getD 5 []) dow
  pure (.spec ⟨second, minute, hour, dayofmonth, month, dayofweek, loc⟩)

/-- `Parser.Parse` after the time zone has been taken off the front of the spec. -/
def parseBody (host : Host) (options : Nat) (spec : List Char) (loc : Location) :
    Except ParseError Schedule :=
  if GoStr.hasPrefix spec ['@'] then
    if options &&& Descriptor = 0 then .error .descriptorsNotAccepted
    else parseDescriptor host spec loc
  else
    match normalizeFields (GoStr.fields spec) options with
    | .error e => .error e
    | .ok fields => parseFields fields loc

/-- Turn an `Except` into a `Result` that did not panic. -/
def Result.ofExcept {α : Type} : Except ParseError α → Result α
  | .ok a => .ok a
  | .error e => .error e

/-- The `Parser.Parse` of `parser.go`, for a parser built with `options`.  With a
`TZ=`/`CRON_TZ=` prefix and no space in the spec, the slice `spec[eq+1 : i]` has
`i = -1` and the call panics. -/
def Parse (host : Host) (options : Nat) (spec : List Char) : Result Schedule :=
  if spec.length = 0 then .error .emptySpec
  else if GoStr.hasPrefix spec "TZ=".toList ∨ GoStr.hasPrefix spec "CRON_TZ=".toList then
    match GoStr.index ' ' spec, GoStr.index '=' spec with
    | some i, some eq =>
      match host.loadLocation ((spec.take i).drop (eq + 1)) with
      | none => .error .badLocation
      | some loc => .ofExcept (parseBody host options (GoStr.trimSpace (spec.drop i)) loc)
    | _, _ => .panic
  else .ofExcept (parseBody host options spec .Local)

/-- The options of `standardParser`. -/
def standardOptions : Nat := Minute ||| Hour ||| Dom ||| Month ||| Dow ||| Descriptor

/-- The options of the parser `cron.WithSeconds()` installs. -/
def withSecondsOptions : Nat :=
  Second ||| Minute ||| Hour ||| Dom ||| Month ||| Dow ||| Descriptor

/-- The `ParseStandard` of `parser.go`. -/
def ParseStandard (host : Host) (standardSpec : List Char) : Result Schedule :=
  Parse host standardOptions standardSpec


/-! ### Calendar arithmetic (`time` package, fixed-offset zones) -/

def nsPerSecond : Int := 1000000000

/-- Go's `isLeap`. -/
def isLeap (year : Int) : Bool := year % 4 = 0 ∧ (year % 100 ≠ 0 ∨ year % 400 = 0)

/-- Go's `daysBefore` table: days of a non-leap year before each month. -/
def daysBefore : List Int := [0, 31, 59, 90, 120, 151, 181, 212, 243, 273, 304, 334, 365]

/-- Days from 0001-01-01 to the first of January of `year`. -/
def daysSinceEpoch (year : Int) : Int :=
  let y := year - 1
  365 * y + y / 4 - y / 100 + y / 400

/-- Go's `time.Date` in a zone `off` seconds east of UTC: the month overflows into the
year, and a day, hour, minute or second out of range overflows into the next unit. -/
def date (year month day hour min sec nsec off : Int) : Time :=
  let m := month - 1
  let year := year + m / 12
  let m := m % 12
  let d := daysSinceEpoch year + daysBefore.getD m.toNat 0 +
    (if isLeap year ∧ m + 1 ≥ 3 then 1 else 0) + (day - 1)
  (d * 86400 + hour * 3600 + min * 60 + sec - off) * nsPerSecond + nsec

/-- Seconds since 0001-01-01 00:00:00 on the wall clock of the zone. -/
def wallSeconds (off : Int) (t : Time) : Int := t / nsPerSecond + off

/-- Go's `absDate`: year, month and day of the month of a day count from 0001-01-01. -/
def civil (days : Int) : Int × Int × Int :=
  let n400 := days / 146097
  let d := days % 146097
  let n100 := d / 36524
  let n100 := n100 - n100 / 4
  let d := d - 36524 * n100
  let n4 := d / 1461
  let d := d - 1461 * n4
  let n1 := d / 365
  let n1 := n1 - n1 / 4
  let d := d - 365 * n1
  let year := 400 * n400 + 100 * n100 + 4 * n4 + n1 + 1
  if isLeap year ∧ d = 31 + 29 - 1 then (year, 2, 29)
  else
    let day := if isLeap year ∧ d > 31 + 29 - 1 then d - 1 else d
    let month := day / 31
    let stop := daysBefore.getD (month + 1).toNat 0
    if day ≥ stop then (year, month + 2, day - stop + 1)
    else (year, month + 1, day - daysBefore.getD month.toNat 0 + 1)

def yearOf (off : Int) (t : Time) : Int := (civil (wallSeconds off t / 86400)).1
def monthOf (off : Int) (t : Time) : Int := (civil (wallSeconds off t / 86400)).2.1
def dayOf (off : Int) (t : Time) : Int := (civil (wallSeconds off t / 86400)).2.2
def hourOf (off : Int) (t : Time) : Int := wallSeconds off t % 86400 / 3600
def minuteOf (off : Int) (t : Time) : Int := wallSeconds off t % 3600 / 60
def secondOf (off : Int) (t : Time) : Int := wallSeconds off t % 60
def nanosecondOf (t : Time) : Int := t % nsPerSecond

/-- Go's `Time.Weekday`, Sunday being 0 (0001-01-01 was a Monday). -/
def weekdayOf (off : Int) (t : Time) : Int := (wallSeconds off t / 86400 + 1) % 7

/-- Go's `Time.AddDate`. -/
def addDate (off : Int) (t : Time) (years months days : Int) : Time :=
  date (yearOf off t + years) (monthOf off t + months) (dayOf off t + days)
    (hourOf off t) (minuteOf off t) (secondOf off t) (nanosecondOf t) off

/-- Whether bit `i` of the field mask `bits` is set (`1<<uint(i)&bits != 0`). -/
def bitSet (i : Int) (bits : Nat) : Bool := (1 <<< i.toNat) &&& bits ≠ 0

/-- The `dayMatches` of `spec.go`. -/
def dayMatches (s : SpecSchedule) (off : Int) (t : Time) : Bool :=
  let domMatch := bitSet (dayOf off t) s.Dom
  let dowMatch := bitSet (weekdayOf off t) s.Dow
  if s.Dom &&& starBit > 0 ∨ s.Dow &&& starBit > 0 then domMatch && dowMatch
  else domMatch || dowMatch

/-- The label and the five loops of `SpecSchedule.Next`. -/
inductive NextPhase where
  | wrap | month | day | hour | minute | second
  deriving DecidableEq, Repr

/-- The search of `SpecSchedule.Next` from the label `WRAP` on: `added` is the flag of
the source, `off` the zone offset the calendar fields are read in.  `none`: the fuel
ran out.  The zero time is the source's answer when no time is found within five years. -/
def nextLoop (s : SpecSchedule) (off yearLimit : Int) :
    Nat → NextPhase → Time → Bool → Option Time
  | 0, _, _, _ => none
  | fuel + 1, .wrap, t, added =>
    if yearOf off t > yearLimit then some 0 else nextLoop s off yearLimit fuel .month t added
  | fuel + 1, .month, t, added =>
    if !bitSet (monthOf off t) s.Month then
      let t := if !added then date (yearOf off t) (monthOf off t) 1 0 0 0 0 off else t
      let t := addDate off t 0 1 0
      if monthOf off t = 1 then nextLoop s off yearLimit fuel .wrap t true
      else nextLoop s off yearLimit fuel .month t true
    else nextLoop s off yearLimit fuel .day t added
  | fuel + 1, .day, t, added =>
    if !dayMatches s off t then
      let t := if !added then
        date (yearOf off t) (monthOf off t) (dayOf off t) 0 0 0 0 off else t
      let t := addDate off t 0 0 1
      let t := if hourOf off t ≠ 0 then
          (if hourOf off t > 12 then t + (24 - hourOf off t) * 3600 * nsPerSecond
           else t + (-(hourOf off t)) * 3600 * nsPerSecond)
        else t
      if dayOf off t = 1 then nextLoop s off yearLimit fuel .wrap t true
      else nextLoop s off yearLimit fuel .day t true
    else nextLoop s off yearLimit fuel .hour t added
  | fuel + 1, .hour, t, added =>
    if !bitSet (hourOf off t) s.Hour then
      let t := if !added then
        date (yearOf off t) (monthOf off t) (dayOf off t) (hourOf off t) 0 0 0 off else t
      let t := t + 3600 * nsPerSecond
      if hourOf off t = 0 then nextLoop s off yearLimit fuel .wrap t true
      else nextLoop s off yearLimit fuel .hour t true
    else nextLoop s off yearLimit fuel .minute t added
  | fuel + 1, .minute, t, added =>
    if !bitSet (minuteOf off t) s.Minute then
      let t := if !added then t - t % (60 * nsPerSecond) else t
      let t := t + 60 * nsPerSecond
      if minuteOf off t = 0 then nextLoop s off yearLimit fuel .wrap t true
      else nextLoop s off yearLimit fuel .minute t true
    else nextLoop s off yearLimit fuel .second t added
  | fuel + 1, .second, t, added =>
    if !bitSet (secondOf off t) s.Second then
      let t := if !added then t - t % nsPerSecond else t
      let t := t + nsPerSecond
      if secondOf off t = 0 then nextLoop s off yearLimit fuel .wrap t true
      else nextLoop s off yearLimit fuel .second t true
    else some t

/-- Iterations allowed to `nextLoop`: after its first pass every iteration moves the
time forward by a second or more, and the search ends once the year is past the limit,
less than seven years of seconds away. -/
def nextFuel : Nat := 7 * 366 * 86400

/-- The zone a schedule's fields are read in: its own, or the zone of the time passed
in, which is the local zone for the times the engine passes. -/
def zoneOffset (host : Host) : Location → Int
  | .Local => host.localOffset
  | .fixed _ offset => offset

/-- The `SpecSchedule.Next` of `spec.go`: the first instant after `t` the schedule
matches, the zero time if there is none within five years. -/
def SpecSchedule.Next (host : Host) (s : SpecSchedule) (t : Time) : Time :=
  let off := zoneOffset host s.Location
  let t := t + (nsPerSecond - nanosecondOf t)
  (nextLoop s off (yearOf off t + 5) nextFuel .wrap t false).getD 0

/-- The `Schedule.Next` of a schedule; for a `ConstantDelaySchedule` it is
`t.Add(Delay - t.Nanosecond())`. -/
def Schedule.Next (host : Host) : Schedule → Time → Time
  | .spec s, t => s.Next host t
  | .every delay, t => t + (delay - nanosecondOf t)

/-! ### The engine (`cron.go`)

The engine is generic in what a job is.  Its `entries` are kept in insertion order: the
run loop re-sorts them by next activation time, which shows only in the order of
`Entries()`; every operation below finds an entry by its ID. -/

/-- An `Entry` of `cron.go`.  `Schedule` and `Job` are `none` in the zero `Entry{}`. -/
structure Entry (J : Type) where
  ID : Int
  Schedule : Option Schedule
  Next : Time
  Prev : Time
  Job : Option J
  deriving DecidableEq, Repr

/-- The state of a `Cron`: its entries, the last ID handed out, whether the run loop
is running, and the options of its parser. -/
structure Cron (J : Type) where
  entries : List (Entry J)
  nextID : Int
  running : Bool
  parser : Nat
  deriving DecidableEq, Repr

/-- The `cron.New(cron.WithSeconds())` of the scheduler's constructor. -/
def NewWithSeconds (J : Type) : Cron J := ⟨[], 0, false, withSecondsOptions⟩

/-- The `Cron.Schedule` of `cron.go`: a fresh ID; a stopped engine only appends the
entry, a running one (its run loop, at time `now`) also computes the entry's `Next`. -/
def Cron.Schedule {J : Type} (host : Host) (now : Time) (c : Cron J) (schedule : Schedule)
    (cmd : J) : Cron J × Int :=
  let id := wrapInt64 (c.nextID + 1)
  let next := if c.running then schedule.Next host now else 0
  ({ c with nextID := id, entries := c.entries ++ [⟨id, some schedule, next, 0, some cmd⟩] }, id)

/-- The `Cron.AddFunc` (`AddJob`) of `cron.go`: nothing changes when the spec does not
parse. -/
def Cron.AddFunc {J : Type} (host : Host) (now : Time) (c : Cron J) (spec : List Char)
    (cmd : J) : Cron J × Result Int :=
  match Parse host c.parser spec with
  | .error e => (c, .error e)
  | .panic => (c, .panic)
  | .ok schedule =>
    let r := c.Schedule host now schedule cmd
    (r.1, .ok r.2)

/-- The `Cron.Remove` (`removeEntry`) of `cron.go`. -/
def Cron.Remove {J : Type} (c : Cron J) (id : Int) : Cron J :=
  { c with entries := c.entries.filter (fun e => e.ID ≠ id) }

/-- The zero `Entry{}`. -/
def Entry.zero (J : Type) : Entry J := ⟨0, none, 0, 0, none⟩

/-- The `Cron.Entry` of `cron.go`: the entry with the ID, the zero entry if none has it. -/
def Cron.Entry {J : Type} (c : Cron J) (id : Int) : Entry J :=
  (c.entries.find? (fun e => id = e.ID)).getD (Entry.zero J)

/-- The `Cron.Start` of `cron.go`: the run loop starts by computing every entry's
`Next` from the current time. -/
def Cron.Start {J : Type} (host : Host) (now : Time) (c : Cron J) : Cron J :=
  if c.running then c
  else
    { c with
      running := true
      entries := c.entries.map (fun e =>
        { e with Next := match e.Schedule with
                         | some sch => sch.Next host now
                         | none => e.Next }) }

/-- The `Cron.Stop` of `cron.go`. -/
def Cron.Stop {J : Type} (c : Cron J) : Cron J := { c with running := false }

/-- Whether the run loop, woken at `now`, runs the entry: its `Next` is neither after
`now` nor zero. -/
def Entry.due {J : Type} (now : Time) (e : Entry J) : Bool := !(e.Next > now || e.Next = 0)

/-- The timer case of the run loop at time `now`: every due entry's job is started
and the entry's `Prev` and `Next` are advanced.  Returns the jobs started. -/
def Cron.tick {J : Type} (host : Host) (now : Time) (c : Cron J) : Cron J × List J :=
  if !c.running then (c, [])
  else
    ({ c with entries := c.entries.map (fun e =>
        if e.due now then
          { e with Prev := e.Next
                   Next := match e.Schedule with
                           | some sch => sch.Next host now
                           | none => e.Next }
        else e) },
     (c.entries.filter (fun e => e.due now)).filterMap (fun e => e.Job))

end Cron

/-! ## The scheduler (`internal/scheduler/scheduler.go`) -/

namespace Scheduler

open Cron

/-- A `primitive.ObjectID`: twelve bytes, here the number they spell; the scheduler
only compares IDs. -/
abbrev ObjectID := Nat

/-- A `*models.Task`. -/
abbrev Ptr := Nat

/-- The `models.CronConfig`. -/
structure CronConfig where
  Expression : String
  Timezone : String
  deriving DecidableEq, Repr

/-- The fields of `models.AgentConfig` the scheduler reads. -/
structure AgentConfig where
  Timeout : Int
  Retries : Int
  deriving DecidableEq, Repr

/-- The fields of `models.Task` the scheduler reads or writes. -/
structure Task where
  ID : ObjectID
  Name : String
  Status : String
  CronConfig : CronConfig
  NextRun : Option Time
  LastRun : Option Time
  AgentConfig : AgentConfig
  ExecutionCount : Int
  SuccessCount : Int
  FailureCount : Int
  deriving DecidableEq, Repr

/-- The task records behind the `*models.Task` pointers. -/
abbrev Heap := Ptr → Task

/-- A `ScheduledTask`. -/
structure ScheduledTask where
  Task : Ptr
  EntryID : Int
  NextRun : Time
  deriving DecidableEq, Repr

/-- The Go map `tasks`, as an association list with one pair per key. -/
abbrev Registry := List (ObjectID × ScheduledTask)

/-- Map read `m[k]`. -/
def Registry.get (m : Registry) (k : ObjectID) : Option ScheduledTask := m.lookup k

/-- Map `delete(m, k)`. -/
def Registry.delete (m : Registry) (k : ObjectID) : Registry := m.filter (fun p => p.1 ≠ k)

/-- Map write `m[k] = v`. -/
def Registry.set (m : Registry) (k : ObjectID) (v : ScheduledTask) : Registry :=
  (k, v) :: m.delete k

end Scheduler

/-- The `Scheduler` struct.  A cron job is the closure `func() { s.executeTask(task) }`,
represented by the task pointer it captured.  `executor` says whether the executor
field is non-nil; what the executor answers is an argument of `executeTask`.  The
mutex is not represented: operations are taken one at a time. -/
structure Scheduler where
  cron : Cron.Cron Scheduler.Ptr
  tasks : Scheduler.Registry
  executor : Bool
  running : Bool
  deriving DecidableEq, Repr

namespace Scheduler

open Cron

/-- The constructor `New`. -/
def New : Scheduler := ⟨NewWithSeconds Ptr, [], false, false⟩

/-- The method `SetExecutor`, for a non-nil executor. -/
def SetExecutor (s : Scheduler) : Scheduler := { s with executor := true }

/-- The method `Start`; `now` is the clock when the cron run loop starts. -/
def Start (host : Host) (now : Time) (s : Scheduler) : Scheduler :=
  if s.running then s else { s with cron := s.cron.Start host now, running := true }

/-- The method `Stop`. -/
def Stop (s : Scheduler) : Scheduler :=
  if !s.running then s else { s with cron := s.cron.Stop, running := false }

/-- Lines 92 to 94 of `AddTask`: an entry already registered under the ID is removed
from the cron engine. -/
def removeExisting (s : Scheduler) (taskID : ObjectID) : Cron Ptr :=
  match s.tasks.get taskID with
  | some existingTask => s.cron.Remove existingTask.EntryID
  | none => s.cron

/-- The method `AddTask`; `now` is the clock of the cron run loop when it receives the
new entry.  Returns the new state and what the call returned: `ok` is a nil error. -/
def AddTask (host : Host) (now : Time) (heap : Heap) (s : Scheduler) (task : Ptr) :
    Scheduler × Result Unit :=
  match (s.removeExisting (heap task).ID).AddFunc host now
      (heap task).CronConfig.Expression.toList task with
  | (cron2, .error e) => ({ s with cron := cron2 }, .error e)
  | (cron2, .panic) => ({ s with cron := cron2 }, .panic)
  | (cron2, .ok entryID) =>
    let nextRun := (cron2.Entry entryID).Next
    ({ s with cron := cron2, tasks := s.tasks.set (heap task).ID ⟨task, entryID, nextRun⟩ },
     .ok ())

/-- The method `RemoveTask`. -/
def RemoveTask (s : Scheduler) (taskID : ObjectID) : Scheduler :=
  match s.tasks.get taskID with
  | some scheduledTask =>
    { s with cron := s.cron.Remove scheduledTask.EntryID, tasks := s.tasks.delete taskID }
  | none => s

/-- The method `PauseTask`. -/
def PauseTask (s : Scheduler) (taskID : ObjectID) : Scheduler := s.RemoveTask taskID

/-- The method `ResumeTask`. -/
def ResumeTask (host : Host) (now : Time) (heap : Heap) (s : Scheduler) (task : Ptr) :
    Scheduler × Result Unit :=
  s.AddTask host now heap task

/-- The method `GetTaskNextRun` (`none` is the nil pointer). -/
def GetTaskNextRun (s : Scheduler) (taskID : ObjectID) : Option Time :=
  (s.tasks.get taskID).map (fun scheduledTask => scheduledTask.NextRun)

/-- The method `IsTaskScheduled`. -/
def IsTaskScheduled (s : Scheduler) (taskID : ObjectID) : Bool := (s.tasks.get taskID).isSome

/-- The method `IsRunning`. -/
def IsRunning (s : Scheduler) : Bool := s.running

/-- The method `GetActiveJobCount`. -/
def GetActiveJobCount (s : Scheduler) : Nat := s.tasks.length

/-- The method `ValidateCronExpression`. -/
def ValidateCronExpression (host : Host) (expression : String) : Result Unit :=
  match ParseStandard host expression.toList with
  | .ok _ => .ok ()
  | .error e => .error e
  | .panic => .panic

/-- A `context.Context` made by `context.WithTimeout` over `context.Background()`: its
deadline, and whether it was already cancelled when `WithTimeout` returned. -/
structure Context where
  deadline : Option Time
  expired : Bool
  deriving DecidableEq, Repr

/-- Go's `context.WithTimeout(context.Background(), timeout)`: the deadline is the
clock `ctxNow` plus the timeout, and the context is cancelled at once when the
deadline is not after the clock `ctxCheck` read next (`time.Until(d) <= 0`). -/
def WithTimeout (ctxNow ctxCheck : Time) (timeout : Duration) : Context :=
  ⟨some (ctxNow + timeout), decide (ctxNow + timeout - ctxCheck ≤ 0)⟩

/-- The clock readings of one `executeTask`: at its start, and the two inside
`context.WithTimeout`. -/
structure Clock where
  now : Time
  ctxNow : Time
  ctxCheck : Time
  deriving DecidableEq, Repr

/-- What `executeTask` did: the new scheduler state and heap, and the context it
handed to `Execute` (`none` when no executor is set and `Execute` is not called). -/
structure Execution where
  sched : Scheduler
  heap : Heap
  ctx : Option Context

/-- Lines 206 to 221 of `executeTask`: with an executor set, `Execute` is called under
a context built from the task's timeout and its outcome is counted on the task.
`execute ctx` is what `Execute` returns for the context it is given: `true` for an
error. -/
def callExecutor (s : Scheduler) (clock : Clock) (execute : Context → Bool) (t : Task) :
    Task × Option Context :=
  if s.executor then
    let ctx := WithTimeout clock.ctxNow clock.ctxCheck
      (wrapInt64 (wrapInt64 t.AgentConfig.Timeout * 1000000000))
    if execute ctx then ({ t with FailureCount := wrapInt64 (t.FailureCount + 1) }, some ctx)
    else ({ t with SuccessCount := wrapInt64 (t.SuccessCount + 1) }, some ctx)
  else (t, none)

/-- The task record when `executeTask` reaches its last block: `LastRun` is set, the
executor's outcome is counted and `ExecutionCount` is one up. -/
def executedTask (s : Scheduler) (clock : Clock) (execute : Context → Bool) (t : Task) : Task :=
  let t1 := (callExecutor s clock execute { t with LastRun := some clock.now }).1
  { t1 with ExecutionCount := wrapInt64 (t1.ExecutionCount + 1) }

/-- The method `executeTask`, taken as one step.  The pointer `task.NextRun` the source
aims at the registry entry's `NextRun` is the value stored there at that moment. -/
def executeTask (s : Scheduler) (heap : Heap) (clock : Clock) (execute : Context → Bool)
    (task : Ptr) : Execution :=
  let t := executedTask s clock execute (heap task)
  let ctx := (callExecutor s clock execute { heap task with LastRun := some clock.now }).2
  match s.tasks.get t.ID with
  | some scheduledTask =>
    let nextRun := (s.cron.Entry scheduledTask.EntryID).Next
    ⟨{ s with tasks := s.tasks.map (fun p =>
          if p.1 = t.ID then (p.1, { p.2 with NextRun := nextRun }) else p) },
     Function.update heap task { t with NextRun := some nextRun }, ctx⟩
  | none => ⟨s, Function.update heap task t, ctx⟩

/-- The method `ExecuteTaskNow`, when the goroutine it starts has run to its end. -/
def ExecuteTaskNow (s : Scheduler) (heap : Heap) (clock : Clock) (execute : Context → Bool)
    (task : Ptr) : Execution :=
  executeTask s heap clock execute task

/-- The method `GetStats`: total_scheduled_tasks, running_tasks, scheduler_running,
cron_entries. -/
def GetStats (s : Scheduler) (heap : Heap) : Nat × Nat × Bool × Nat :=
  (s.tasks.length,
   (s.tasks.filter (fun p => (heap p.2.Task).Status = "active")).length,
   s.running,
   s.cron.entries.length)

end Scheduler

/-! ## Worked data: a host, a heap of tasks and a clock -/

namespace Scheduler

open Cron

/-- A host for the worked examples: UTC is its local zone and the only zone in its
database.  No example contains a `@every` descriptor, the one place where the duration
parser is asked, so that component is left empty. -/
def exampleHost : Host :=
  ⟨fun name => if name = "UTC".toList then some (.fixed "UTC" 0) else none, fun _ => none, 0⟩

/-- A task record with the given ID, schedule expression and timeout. -/
def taskWith (id : ObjectID) (expression : String) (timeout : Int) : Task :=
  ⟨id, "", "inactive", ⟨expression, ""⟩, none, none, ⟨timeout, 0⟩, 0, 0, 0⟩

/-- Task records: 1 and 2 carry the same ID; 1 has a six-field expression, 2 a
five-field one; 3 has a six-field expression and no timeout; every other pointer holds
a record whose expression is not a cron expression. -/
def exampleHeap : Heap := fun p =>
  if p = 1 then taskWith 7 "0 * * * * *" 30
  else if p = 2 then taskWith 7 "* * * * *" 30
  else if p = 3 then taskWith 8 "*/5 * * * * *" 0
  else taskWith 9 "not a cron" 0

/-- The instant 2024-01-15 12:00:30 UTC. -/
def noon : Time := date 2024 1 15 12 0 30 0 0

/-- A started scheduler in which task 1 (ID 7) has been scheduled. -/
def scheduledOnce : Scheduler :=
  (AddTask exampleHost noon exampleHeap (Start exampleHost noon New) 1).1

/-- A scheduler in which task 1 was added before `Start`. -/
def addedThenStarted : Scheduler :=
  Start exampleHost noon (AddTask exampleHost noon exampleHeap New 1).1

/-- Clock readings of an execution that begins at `noon`. -/
def exampleClock : Clock := ⟨noon, noon + 5, noon + 10⟩

/-! ## Invariants and reachable states -/

/-- The cron entries whose job runs a task with the ID `taskID`. -/
def liveEntries (s : Scheduler) (heap : Heap) (taskID : ObjectID) : List (Entry Ptr) :=
  s.cron.entries.filter (fun e =>
    match e.Job with
    | some p => decide ((heap p).ID = taskID)
    | none => false)

/-- Every cron entry is the one the registry holds for its task's ID. -/
def NoOrphan (s : Scheduler) (heap : Heap) : Prop :=
  ∀ e ∈ s.cron.entries, ∀ p, e.Job = some p →
    ∃ st, s.tasks.get (heap p).ID = some st ∧ st.EntryID = e.ID

/-- The states the scheduler reaches from `New` by its operations, the cron run loop's
timer (`tick`) and writes to task records that leave their IDs alone. -/
inductive Reachable (host : Host) : Scheduler → Heap → Prop where
  | init (heap : Heap) : Reachable host New heap
  | setExecutor {s : Scheduler} {heap : Heap} :
      Reachable host s heap → Reachable host s.SetExecutor heap
  | start {s : Scheduler} {heap : Heap} (now : Time) :
      Reachable host s heap → Reachable host (s.Start host now) heap
  | stop {s : Scheduler} {heap : Heap} : Reachable host s heap → Reachable host s.Stop heap
  | addTask {s : Scheduler} {heap : Heap} (now : Time) (task : Ptr) :
      Reachable host s heap → Reachable host (s.AddTask host now heap task).1 heap
  | removeTask {s : Scheduler} {heap : Heap} (taskID : ObjectID) :
      Reachable host s heap → Reachable host (s.RemoveTask taskID) heap
  | tick {s : Scheduler} {heap : Heap} (now : Time) :
      Reachable host s heap → Reachable host { s with cron := (s.cron.tick host now).1 } heap
  | execute {s : Scheduler} {heap : Heap} (clock : Clock) (execute : Context → Bool)
      (task : Ptr) : Reachable host s heap →
      Reachable host (s.executeTask heap clock execute task).sched
        (s.executeTask heap clock execute task).heap
  | write {s : Scheduler} {heap : Heap} (heap' : Heap) :
      Reachable host s heap → (∀ p, (heap' p).ID = (heap p).ID) → Reachable host s heap'

end Scheduler

/-! ## Vocabulary for statements about expressions -/

namespace Cron

/-- The expression carries no `TZ=`/`CRON_TZ=` prefix and is not a `@` descriptor: it
is a list of fields. -/
def PlainFields (spec : List Char) : Prop :=
  GoStr.hasPrefix spec "TZ=".toList = false ∧ GoStr.hasPrefix spec "CRON_TZ=".toList = false ∧
  GoStr.hasPrefix spec ['@'] = false

/-- The part of a spec its fields are read from: the whole spec, or, behind a
`TZ=`/`CRON_TZ=` prefix, what follows the first space, trimmed.  `none`: such a prefix
with no space after it. -/
def specBody (spec : List Char) : Option (List Char) :=
  if GoStr.hasPrefix spec "TZ=".toList ∨ GoStr.hasPrefix spec "CRON_TZ=".toList then
    (GoStr.index ' ' spec).map (fun i => GoStr.trimSpace (spec.drop i))
  else some spec

/-- The spec is the list of fields `fs`, possibly behind a time zone prefix, and not a
`@` descriptor. -/
def FieldsOf (spec : List Char) (fs : List (List Char)) : Prop :=
  ∃ body, specBody spec = some body ∧ GoStr.hasPrefix body ['@'] = false ∧
    GoStr.fields body = fs

/-- The bounds of the fields of a five-field expression, in order: minute, hour, day
of month, month, day of week. -/
def standardBounds : Nat → Bounds
  | 0 => minutes
  | 1 => hours
  | 2 => dom
  | 3 => months
  | _ => dow

/-- Every name of the table starts with a lower-case letter or a later character. -/
def namesStartWithLetter (names : List (List Char × Nat)) : Bool :=
  names.all (fun p =>
    match p.1 with
    | h :: _ => decide (97 ≤ h.toNat)
    | [] => false)

/-- The text `ds` is a decimal numeral with the value `v`. -/
def IsNumeral (ds : List Char) (v : Nat) : Prop := ds ≠ [] ∧ GoStr.digitsVal ds 0 = some v

/-- The endpoints of a range item: its text before the step, split at the hyphens. -/
def endpoints (item : List Char) : List (List Char) :=
  GoStr.split '-' ((GoStr.split '/' item).headD [])

/-- The item gives a value out of range: it does not start with `*` or `?`, and one of
its endpoints is a numeral below the least or above the greatest value of the field. -/
def OutOfRange (item : List Char) (r : Bounds) : Prop :=
  (endpoints item).headD [] ≠ ['*'] ∧ (endpoints item).headD [] ≠ ['?'] ∧
  ∃ ds ∈ endpoints item, ∃ v, IsNumeral ds v ∧ (v < r.min ∨ r.max < v)

end Cron

/-! ## Vocabulary for statements about the registry and the engine's IDs -/

namespace Scheduler

open Cron

/-- The association list is a map: no key occurs twice. -/
def Registry.WellFormed (m : Registry) : Prop := (m.map Prod.fst).Nodup

/-- The ID the engine hands out next is borne by no entry.  It holds until the engine
has handed out `2 ^ 64` IDs. -/
def FreshNextID (s : Scheduler) : Prop :=
  ∀ e ∈ s.cron.entries, e.ID ≠ wrapInt64 (s.cron.nextID + 1)

end Scheduler

namespace Cron

/-- The schedule of the expression `0 * * * * *`: second 0 of every minute, in the
local zone. -/
def everyMinute : SpecSchedule :=
  ⟨1, all minutes, all hours, all dom, all months, all dow, .Local⟩

end Cron

/-! ## The WebSocket hub (`internal/websocket/manager.go`)

The manager's coordinating loop (`Start`) and the methods that publish are taken one at
a time.  Client objects live in a heap indexed by their pointers; the three channels of
the manager are unbuffered, so what the loop receives is given to its cases as an
argument. -/

namespace Websocket

open Cron

/-- A value held in an `interface{}`: what `ReadJSON` decodes, and the payload of a
message.  Numbers, arrays and objects are kept as their JSON text. -/
inductive Value where
  | null
  | bool (b : Bool)
  | number (json : String)
  | str (s : String)
  | array (json : String)
  | object (json : String)
  deriving DecidableEq, Repr

/-- A `Message`; `Type_` is its field `Type`. -/
structure Message where
  Type_ : String
  Timestamp : Int
  Data : Value
  deriving DecidableEq, Repr

/-- A `chan Message` with a buffer: the messages buffered, oldest first, and whether
the channel has been closed. -/
structure Chan where
  buf : List Message
  closed : Bool
  deriving DecidableEq, Repr

/-- The capacity of a client's `Send` channel: `make(chan Message, 256)`. -/
def sendCap : Nat := 256

/-- The capacity of the manager's `broadcast` channel: `make(chan Message)`. -/
def broadcastCap : Nat := 0

/-- A `*Client`. -/
abbrev CPtr := Nat

/-- A `Client`; of its `Conn` the model keeps whether `Close` has been called. -/
structure Client where
  ID : String
  connClosed : Bool
  Send : Chan
  Topics : List (String × Bool)
  deriving DecidableEq, Repr

/-- Map read `m[k]` of a Go map with string keys, kept as an association list. -/
def mapGet {β : Type} (m : List (String × β)) (k : String) : Option β := m.lookup k

/-- Map `delete(m, k)`. -/
def mapDelete {β : Type} (m : List (String × β)) (k : String) : List (String × β) :=
  m.filter (fun p => p.1 ≠ k)

/-- Map write `m[k] = v`. -/
def mapSet {β : Type} (m : List (String × β)) (k : String) (v : β) : List (String × β) :=
  (k, v) :: mapDelete m k

/-- The `Manager` with the client objects its pointers refer to: `clients` is the map
of the struct, `heap` the client objects, `allocated` the number of client objects
made so far (the next pointer). -/
structure Manager where
  clients : List (String × CPtr)
  heap : CPtr → Client
  allocated : Nat

/-- The client object made by `HandleConnection`. -/
def newClient (clientID : String) : Client := ⟨clientID, false, ⟨[], false⟩, []⟩

/-- The constructor `NewManager`; no client object exists yet. -/
def NewManager : Manager := ⟨[], fun _ => newClient "", 0⟩

/-- What a `select` with one send case and a `default` does. -/
inductive SendResult where
  | sent (ch : Chan)
  | full
  | panic
  deriving DecidableEq, Repr

/-- The statement `select { case ch <- message: default: }`: a send on a closed channel
panics; the send proceeds when the buffer has room (a receiver can only be waiting
while the buffer is empty). -/
def Chan.trySend (ch : Chan) (message : Message) : SendResult :=
  if ch.closed then .panic
  else if ch.buf.length < sendCap then .sent { ch with buf := ch.buf ++ [message] }
  else .full

/-- The helper `getCurrentTimestamp`: `time.Now().Unix() * 1000` in `int64`. -/
def getCurrentTimestamp (unixNow : Int) : Int := wrapInt64 (unixNow * 1000)

/-- The decimal digits of `n`, padded with zeros to `width` places. -/
def pad (width : Nat) (n : Int) : String :=
  "".pushn '0' (width - (toString n.toNat).length) ++ toString n.toNat

/-- The helper `generateClientID`: `"client_"` and the local time in the layout
`20060102150405`. -/
def generateClientID (off : Int) (now : Time) : String :=
  "client_" ++ pad 4 (yearOf off now) ++ pad 2 (monthOf off now) ++ pad 2 (dayOf off now) ++
    pad 2 (hourOf off now) ++ pad 2 (minuteOf off now) ++ pad 2 (secondOf off now)

namespace Manager

/-- The `register` case of the loop in `Start`. -/
def register (m : Manager) (client : CPtr) : Manager :=
  { m with clients := mapSet m.clients (m.heap client).ID client }

/-- The object a client becomes by `close(client.Send)` and `client.Conn.Close()`. -/
def closeClient (c : Client) : Client :=
  { c with Send := { c.Send with closed := true }, connClosed := true }

/-- The `unregister` case of the loop in `Start`; `none` is the panic of closing a
closed channel. -/
def unregister (m : Manager) (client : CPtr) : Option Manager :=
  match mapGet m.clients (m.heap client).ID with
  | some _ =>
    if (m.heap client).Send.closed then none
    else
      some { m with
        clients := mapDelete m.clients (m.heap client).ID
        heap := Function.update m.heap client (closeClient (m.heap client)) }
  | none => some m

/-- The `range m.clients` of the `broadcast` case over the keys not yet visited: a key
deleted meanwhile is not produced; a client whose buffer is full is deleted from the
map and closed.  `none` is the panic of a send on a closed channel. -/
def broadcastLoop (message : Message) : List String → Manager → Option Manager
  | [], m => some m
  | k :: rest, m =>
    match mapGet m.clients k with
    | none => broadcastLoop message rest m
    | some client =>
      match (m.heap client).Send.trySend message with
      | .sent ch =>
        broadcastLoop message rest
          { m with heap := Function.update m.heap client { m.heap client with Send := ch } }
      | .full =>
        broadcastLoop message rest
          { m with
            clients := mapDelete m.clients (m.heap client).ID
            heap := Function.update m.heap client (closeClient (m.heap client)) }
      | .panic => none

/-- The `broadcast` case of the loop in `Start`, the keys taken in the order of the
list. -/
def broadcast (m : Manager) (message : Message) : Option Manager :=
  broadcastLoop message (m.clients.map Prod.fst) m

/-- The method `HandleConnection` up to the start of the client's goroutines, with the
loop's `register` case that receives the client: `upgraded` says whether the upgrade
succeeded, `queryID` is the `client_id` of the request.  Returns the pointer of the new
client, if any. -/
def HandleConnection (m : Manager) (upgraded : Bool) (queryID : String) (off : Int)
    (now : Time) : Manager × Option CPtr :=
  if !upgraded then (m, none)
  else
    let clientID := if queryID = "" then generateClientID off now else queryID
    let client := m.allocated
    (register
      { m with heap := Function.update m.heap client (newClient clientID)
               allocated := m.allocated + 1 } client, some client)

/-- One receive of `handleClientWrite` from the client's `Send` channel: the oldest
buffered message leaves the buffer. -/
def write (m : Manager) (client : CPtr) : Manager :=
  { m with
    heap := Function.update m.heap client
      { m.heap client with
        Send := { (m.heap client).Send with buf := (m.heap client).Send.buf.tail } } }

end Manager

/-- A decoded inbound message, `map[string]interface{}`. -/
abbrev Inbound := List (String × Value)

/-- The type assertion `v.(string)` on a map read. -/
def asString : Option Value → Option String
  | some (.str s) => some s
  | _ => none

/-- The method `handleClientMessage`, on the client object. -/
def handleClientMessage (client : Client) (msg : Inbound) : Client :=
  match asString (mapGet msg "type") with
  | none => client
  | some msgType =>
    if msgType = "subscribe" then
      match asString (mapGet msg "topic") with
      | some topic => { client with Topics := mapSet client.Topics topic true }
      | none => client
    else if msgType = "unsubscribe" then
      match asString (mapGet msg "topic") with
      | some topic => { client with Topics := mapDelete client.Topics topic }
      | none => client
    else client

/-- The map read `client.Topics[topic]`: false for a missing key. -/
def subscribed (client : Client) (topic : String) : Bool :=
  (mapGet client.Topics topic).getD false

namespace Manager

/-- The method `handleClientMessage` for the client behind a pointer. -/
def handleClientMessage (m : Manager) (client : CPtr) (msg : Inbound) : Manager :=
  { m with heap := Function.update m.heap client (Websocket.handleClientMessage (m.heap client) msg) }

/-- What a call of `BroadcastMessage` did with its message. -/
inductive Submission where
  | accepted (message : Message)
  | dropped
  deriving DecidableEq, Repr

/-- The method `BroadcastMessage`: `unixNow` is the clock in seconds, `buffered` the
number of messages in the buffer of `m.broadcast`, `receiving` whether the loop is
blocked in its `select`.  The send case of a `select` is ready when a receiver waits
or the buffer has room. -/
def BroadcastMessage (m : Manager) (unixNow : Int) (buffered : Nat) (receiving : Bool)
    (msgType : String) (data : Value) : Manager × Submission :=
  let message : Message := ⟨msgType, getCurrentTimestamp unixNow, data⟩
  if receiving ∨ buffered < broadcastCap then (m, .accepted message) else (m, .dropped)

/-- The method `SendToClient`; `none` is the panic of a send on a closed channel. -/
def SendToClient (m : Manager) (unixNow : Int) (clientID : String) (msgType : String)
    (data : Value) : Option Manager :=
  match mapGet m.clients clientID with
  | none => some m
  | some client =>
    match (m.heap client).Send.trySend ⟨msgType, getCurrentTimestamp unixNow, data⟩ with
    | .sent ch =>
      some { m with heap := Function.update m.heap client { m.heap client with Send := ch } }
    | .full => some m
    | .panic => none

/-- The `range m.clients` of `SendToTopic` over the entries not yet visited. -/
def sendToTopicLoop (topic : String) (message : Message) :
    List (String × CPtr) → (CPtr → Client) → Option (CPtr → Client)
  | [], heap => some heap
  | (_, client) :: rest, heap =>
    if subscribed (heap client) topic then
      match (heap client).Send.trySend message with
      | .sent ch =>
        sendToTopicLoop topic message rest
          (Function.update heap client { heap client with Send := ch })
      | .full => sendToTopicLoop topic message rest heap
      | .panic => none
    else sendToTopicLoop topic message rest heap

/-- The method `SendToTopic`, the entries taken in the order of the list; `none` is the
panic of a send on a closed channel. -/
def SendToTopic (m : Manager) (unixNow : Int) (topic : String) (msgType : String)
    (data : Value) : Option Manager :=
  (sendToTopicLoop topic ⟨msgType, getCurrentTimestamp unixNow, data⟩ m.clients m.heap).map
    (fun heap => { m with heap := heap })

/-- The method `GetConnectedClients`. -/
def GetConnectedClients (m : Manager) : Nat := m.clients.length

/-- The method `GetClientList`, in the order of the list. -/
def GetClientList (m : Manager) : List String := m.clients.map Prod.fst

end Manager

/-- The states the hub reaches from `NewManager`: connections are made, the loop
processes `unregister` messages for clients that exist and `broadcast` messages,
publishers send to topics and clients, clients send control messages, and the writers
take messages from the buffers.  A step that panics ends the program and reaches no
state. -/
inductive Reachable : Manager → Prop where
  | init : Reachable NewManager
  | connect {m : Manager} (upgraded : Bool) (queryID : String) (off : Int) (now : Time) :
      Reachable m → Reachable (m.HandleConnection upgraded queryID off now).1
  | unregister {m m2 : Manager} (client : CPtr) :
      Reachable m → client < m.allocated → m.unregister client = some m2 → Reachable m2
  | broadcast {m m2 : Manager} (message : Message) :
      Reachable m → m.broadcast message = some m2 → Reachable m2
  | sendToTopic {m m2 : Manager} (unixNow : Int) (topic msgType : String) (data : Value) :
      Reachable m → m.SendToTopic unixNow topic msgType data = some m2 → Reachable m2
  | sendToClient {m m2 : Manager} (unixNow : Int) (clientID msgType : String) (data : Value) :
      Reachable m → m.SendToClient unixNow clientID msgType data = some m2 → Reachable m2
  | clientMessage {m : Manager} (client : CPtr) (msg : Inbound) :
      Reachable m → client < m.allocated → Reachable (m.handleClientMessage client msg)
  | write {m : Manager} (client : CPtr) :
      Reachable m → client < m.allocated → Reachable (m.write client)

/-- The registry is a map from the IDs of open, existing clients to those clients: no
key occurs twice, and every entry's client bears the key as its ID and has an open
`Send` channel. -/
def WellFormed (m : Manager) : Prop :=
  (m.clients.map Prod.fst).Nodup ∧
  ∀ k c, mapGet m.clients k = some c →
    (m.heap c).ID = k ∧ (m.heap c).Send.closed = false ∧ c < m.allocated

/-- The client with `message` appended to the buffer of its `Send` channel. -/
def enqueue (message : Message) (c : Client) : Client :=
  { c with Send := { c.Send with buf := c.Send.buf ++ [message] } }

/-- The client behind `client` is registered: the registry holds it under its ID. -/
def Registered (m : Manager) (client : CPtr) : Prop :=
  mapGet m.clients (m.heap client).ID = some client

instance (m : Manager) (client : CPtr) : Decidable (Registered m client) := by
  unfold Registered
  infer_instance

/-- The control message asks to subscribe to `topic`. -/
def IsSubscribe (msg : Inbound) (topic : String) : Prop :=
  asString (mapGet msg "type") = some "subscribe" ∧ asString (mapGet msg "topic") = some topic

/-- The control message asks to unsubscribe from `topic`. -/
def IsUnsubscribe (msg : Inbound) (topic : String) : Prop :=
  asString (mapGet msg "type") = some "unsubscribe" ∧
  asString (mapGet msg "topic") = some topic

/-- A message to fill buffers with in the worked examples. -/
def filler : Message := ⟨"log", 0, .null⟩

/-- A hub with two registered clients: `a` (pointer 0), subscribed to `jobs`, with a
full buffer, and `b` (pointer 1), subscribed to `logs`, with an empty buffer. -/
def twoClients : Manager :=
  ⟨[("a", 0), ("b", 1)],
   fun p =>
     if p = 0 then ⟨"a", false, ⟨List.replicate 256 filler, false⟩, [("jobs", true)]⟩
     else if p = 1 then ⟨"b", false, ⟨[], false⟩, [("logs", true)]⟩
     else newClient "",
   2⟩

end Websocket

/-! ## Stop, the fires in flight and the lock

The steps of the scheduler's goroutines that take or wait for `s.mutex`, interleaved:
the fires the cron engine starts (each a job goroutine running `executeTask`), one
call of `Stop` at a time (the lock serialises the calls of `Stop`), and the calls that
hold the lock for their whole body. -/

namespace Interleaving

/-- Where a fire is in `executeTask`. -/
inductive JobPc where
  /-- Before `s.mutex.Lock()`: the executor's `Execute` call and the counters. -/
  | executing
  /-- Blocked in `s.mutex.Lock()`. -/
  | waitLock
  /-- Holding the lock: the next run is stored. -/
  | locked
  /-- Returned; the engine's `jobWaiter` has been told. -/
  | finished
  deriving DecidableEq, Repr

/-- Where the call of `Stop` is. -/
inductive StopPc where
  /-- No call has been made. -/
  | idle
  /-- Blocked in `s.mutex.Lock()`. -/
  | waitLock
  /-- Holding the lock, after `s.cron.Stop()`, blocked in `<-ctx.Done()`. -/
  | draining
  /-- Returned. -/
  | returned
  deriving DecidableEq, Repr

/-- Who holds `s.mutex`. -/
inductive Holder where
  | job (i : Nat)
  | stop
  deriving DecidableEq, Repr

/-- The state of the goroutines: the holder of `s.mutex`, the field `s.running`,
whether the cron engine's run loop is running, the fires started so far, and the call
of `Stop`. -/
structure Threads where
  mutex : Option Holder
  running : Bool
  cronRunning : Bool
  jobs : List JobPc
  stop : StopPc
  deriving DecidableEq, Repr

/-- A step of one goroutine. -/
inductive Action where
  /-- A call of `Start`, which holds the lock for its whole body. -/
  | start
  /-- The engine's run loop starts a job goroutine. -/
  | fire
  /-- The `Execute` call of fire `i` returns; the fire reaches `s.mutex.Lock()`. -/
  | executeReturns (i : Nat)
  /-- Fire `i` takes the lock. -/
  | jobLock (i : Nat)
  /-- Fire `i` stores the next run, releases the lock and returns. -/
  | jobUnlock (i : Nat)
  /-- `Stop` is called. -/
  | stopCall
  /-- `Stop` takes the lock: it returns at once when the scheduler is not running, and
  otherwise stops the engine and starts to wait for the fires in flight. -/
  | stopLock
  /-- The fires in flight have all returned: `Stop` sets `running` to false, releases
  the lock and returns. -/
  | stopReturn
  /-- A call of `AddTask`, `RemoveTask` or a query, which holds the lock (the queries
  the read lock) for its whole body. -/
  | lockedCall
  deriving DecidableEq, Repr

/-- The state before any goroutine has run: the scheduler made by `New`. -/
def init : Threads := ⟨none, false, false, [], .idle⟩

/-- The step of the action, `none` when the action is not enabled: its goroutine is
not at that point, or is blocked. -/
def step (σ : Threads) : Action → Option Threads
  | .start =>
    if σ.mutex ≠ none then none
    else if σ.running then some σ
    else some { σ with running := true, cronRunning := true }
  | .fire =>
    if σ.cronRunning then some { σ with jobs := σ.jobs ++ [.executing] } else none
  | .executeReturns i =>
    if σ.jobs.get? i = some .executing then some { σ with jobs := σ.jobs.set i .waitLock }
    else none
  | .jobLock i =>
    if σ.jobs.get? i = some .waitLock ∧ σ.mutex = none then
      some { σ with jobs := σ.jobs.set i .locked, mutex := some (.job i) }
    else none
  | .jobUnlock i =>
    if σ.jobs.get? i = some .locked then
      some { σ with jobs := σ.jobs.set i .finished, mutex := none }
    else none
  | .stopCall =>
    if σ.stop = .idle ∨ σ.stop = .returned then some { σ with stop := .waitLock } else none
  | .stopLock =>
    if σ.stop = .waitLock ∧ σ.mutex = none then
      if !σ.running then some { σ with stop := .returned }
      else some { σ with mutex := some .stop, cronRunning := false, stop := .draining }
    else none
  | .stopReturn =>
    if σ.stop = .draining ∧ σ.jobs.all (fun pc => pc = .finished) then
      some { σ with running := false, mutex := none, stop := .returned }
    else none
  | .lockedCall => if σ.mutex ≠ none then none else some σ

/-- The steps of a list of actions in turn; `none` when one of them is not enabled. -/
def run : Threads → List Action → Option Threads
  | σ, [] => some σ
  | σ, a :: rest => (step σ a).bind (fun σ2 => run σ2 rest)

/-- The states the goroutines reach. -/
def Reachable (σ : Threads) : Prop := ∃ acts, run init acts = some σ

/-- What holds in every reachable state: outside of a waiting `Stop` the field
`running` tells whether the engine runs; while the engine does not run and `Stop` is
not waiting, every fire has returned; a waiting `Stop` holds the lock and has stopped
the engine; a fire in its locked section holds the lock. -/
def Inv (σ : Threads) : Prop :=
  (σ.stop ≠ .draining → σ.running = σ.cronRunning) ∧
  (σ.cronRunning = false → σ.stop ≠ .draining → ∀ pc ∈ σ.jobs, pc = .finished) ∧
  (σ.stop = .draining → σ.cronRunning = false ∧ σ.running = true ∧ σ.mutex = some .stop) ∧
  (∀ i, σ.jobs.get? i = some .locked → σ.mutex = some (.job i))

end Interleaving

/-! ## Vocabulary for statements about runs of the hub -/

namespace Websocket

open Cron

/-- What happens at the hub: a connection is made, the loop processes an `unregister`
or a `broadcast` message, a publisher sends to a topic or to a client, a client's
control message is handled, the writer of a client takes a message from the buffer. -/
inductive Event where
  | connect (upgraded : Bool) (queryID : String) (off : Int) (now : Time)
  | unregister (client : CPtr)
  | broadcast (message : Message)
  | sendToTopic (unixNow : Int) (topic msgType : String) (data : Value)
  | sendToClient (unixNow : Int) (clientID msgType : String) (data : Value)
  | clientMessage (client : CPtr) (msg : Inbound)
  | write (client : CPtr)

namespace Manager

/-- The state after the event; `none` when the event panics or names a client that
does not exist. -/
def step (m : Manager) : Event → Option Manager
  | .connect upgraded queryID off now => some (m.HandleConnection upgraded queryID off now).1
  | .unregister client => if client < m.allocated then m.unregister client else none
  | .broadcast message => m.broadcast message
  | .sendToTopic unixNow topic msgType data => m.SendToTopic unixNow topic msgType data
  | .sendToClient unixNow clientID msgType data => m.SendToClient unixNow clientID msgType data
  | .clientMessage client msg =>
    if client < m.allocated then some (m.handleClientMessage client msg) else none
  | .write client => if client < m.allocated then some (m.write client) else none

/-- The state after the events, in turn. -/
def run : Manager → List Event → Option Manager
  | m, [] => some m
  | m, e :: rest => (m.step e).bind (fun m2 => run m2 rest)

/-- The message a receive of `handleClientWrite` yields, which it writes to the
connection: the oldest one buffered. -/
def received (m : Manager) (client : CPtr) : Option Message := (m.heap client).Send.buf.head?

end Manager

/-- The messages the writer of `client` takes from the buffer during the event. -/
def writtenAt (client : CPtr) (m : Manager) : Event → List Message
  | .write c => if c = client then (m.received client).toList else []
  | _ => []

/-- The messages the writer of `client` takes from the buffer, and writes to the
connection, during the events, in order. -/
def written (client : CPtr) : Manager → List Event → List Message
  | _, [] => []
  | m, e :: rest =>
    writtenAt client m e ++
      (match m.step e with
       | some m2 => written client m2 rest
       | none => [])

/-- The message the event publishes, if it publishes one. -/
def publishedAt : Event → List Message
  | .broadcast message => [message]
  | .sendToTopic unixNow _ msgType data => [⟨msgType, getCurrentTimestamp unixNow, data⟩]
  | .sendToClient unixNow _ msgType data => [⟨msgType, getCurrentTimestamp unixNow, data⟩]
  | _ => []

/-- The messages the events publish, in order. -/
def published : List Event → List Message
  | [] => []
  | e :: rest => publishedAt e ++ published rest

end Websocket

/-! ## Vocabulary for statements about timestamps -/

namespace Websocket

open Cron

/-- Seconds from 0001-01-01 00:00:00 UTC to the Unix epoch. -/
def unixEpochSeconds : Int := 62135596800

/-- Go's `Time.Unix`: the whole seconds elapsed since the Unix epoch. -/
def unixSeconds (now : Time) : Int := now / nsPerSecond - unixEpochSeconds

/-- Go's `Time.UnixMilli`: the whole milliseconds elapsed since the Unix epoch. -/
def unixMilli (now : Time) : Int := now / 1000000 - unixEpochSeconds * 1000

/-- The instant 1970-01-01 00:00:01.5 UTC. -/
def epochPlusOneAndAHalf : Time := date 1970 1 1 0 0 1 500000000 0

end Websocket

/-! ## The list handlers (`internal/handlers`): page and limit

Of `GetTasks`, `GetWorkflows` and `GetExecutionLogs` the model keeps what they do with
the `page` and `limit` that `strconv.Atoi` returned: the skip and the limit they pass
to the database, and the pagination they report. -/

namespace Handlers

open Cron

/-- The `models.Pagination` of a response, without its `Total`. -/
structure Pagination where
  Page : Int
  Limit : Int
  deriving DecidableEq, Repr

/-- What a list handler asks of the database, `SetSkip(int64(skip))` and
`SetLimit(int64(limit))`, and the pagination of its response. -/
structure ListQuery where
  skip : Int
  limit : Int
  pagination : Pagination
  deriving DecidableEq, Repr

/-- The handler `TaskHandler.GetTasks`, for the `page` and `limit` parsed. -/
def GetTasks (page limit : Int) : ListQuery :=
  let page := if page < 1 then 1 else page
  let limit := if limit < 1 ∨ limit > 100 then 10 else limit
  let skip := wrapInt64 ((page - 1) * limit)
  ⟨skip, limit, ⟨page, limit⟩⟩

/-- The handler `WorkflowHandler.GetWorkflows`, for the `page` and `limit` parsed. -/
def GetWorkflows (page limit : Int) : ListQuery :=
  let page := if page < 1 then 1 else page
  let limit := if limit < 1 ∨ limit > 100 then 10 else limit
  let skip := wrapInt64 ((page - 1) * limit)
  ⟨skip, limit, ⟨page, limit⟩⟩

/-- The handler `ExecutionLogHandler.GetExecutionLogs`, for the `page` and `limit`
parsed. -/
def GetExecutionLogs (page limit : Int) : ListQuery :=
  let page := if page < 1 then 1 else page
  let limit := if limit < 1 ∨ limit > 100 then 20 else limit
  let skip := wrapInt64 ((page - 1) * limit)
  ⟨skip, limit, ⟨page, limit⟩⟩

/-- The page and the limit a handler works with: a page below 1 is 1, a limit below 1
or above 100 is the handler's default. -/
def effective (defaultLimit page limit : Int) : Int × Int :=
  (if page < 1 then 1 else page, if limit < 1 ∨ limit > 100 then defaultLimit else limit)

end Handlers

/-! ## The loop and the goroutines that send to it

The channels `register`, `unregister` and `broadcast` of the manager are unbuffered: a
send completes when the loop of `Start`, blocked in its `select`, receives.  A plain
send waits for that; the `select` with `default` of `BroadcastMessage` does not. -/

namespace Websocket

open Cron

/-- What the `select` of the loop received. -/
inductive Received where
  | register (client : CPtr)
  | unregister (client : CPtr)
  | broadcast (message : Message)
  deriving DecidableEq, Repr

/-- Where the loop of `Start` is: blocked in its `select`, or in the case of what it
received. -/
inductive LoopPc where
  | selecting
  | handling (r : Received)
  deriving DecidableEq, Repr

/-- The hub with its loop. -/
structure System where
  manager : Manager
  loop : LoopPc

/-- A step of a goroutine that talks to the loop, or of the loop. -/
inductive Call where
  /-- A call of `BroadcastMessage`. -/
  | BroadcastMessage (unixNow : Int) (msgType : String) (data : Value)
  /-- A call of `HandleConnection` whose upgrade succeeded: the client object is made and
  sent on `register`. -/
  | HandleConnection (queryID : String) (off : Int) (now : Time)
  /-- The deferred `m.unregister <- client` of a client's reader or writer. -/
  | unregisterSend (client : CPtr)
  /-- The loop runs the case of what it received and returns to its `select`. -/
  | loopFinish

namespace System

/-- The step of the call, `none` when it cannot be taken: the sender is blocked because
the loop is not in its `select`, the loop has received nothing, or the loop's case
panics.  Nothing is ever buffered in `m.broadcast`. -/
def step (σ : System) : Call → Option System
  | .BroadcastMessage unixNow msgType data =>
    match σ.manager.BroadcastMessage unixNow 0 (decide (σ.loop = .selecting)) msgType data with
    | (m, .accepted message) => some ⟨m, .handling (.broadcast message)⟩
    | (m, .dropped) => some ⟨m, σ.loop⟩
  | .HandleConnection queryID off now =>
    if σ.loop = .selecting then
      some ⟨{ σ.manager with
              heap := Function.update σ.manager.heap σ.manager.allocated
                (newClient (if queryID = "" then generateClientID off now else queryID))
              allocated := σ.manager.allocated + 1 },
            .handling (.register σ.manager.allocated)⟩
    else none
  | .unregisterSend client =>
    if σ.loop = .selecting ∧ client < σ.manager.allocated then
      some ⟨σ.manager, .handling (.unregister client)⟩
    else none
  | .loopFinish =>
    match σ.loop with
    | .selecting => none
    | .handling (.register client) => some ⟨σ.manager.register client, .selecting⟩
    | .handling (.unregister client) =>
      (σ.manager.unregister client).map (fun m => ⟨m, .selecting⟩)
    | .handling (.broadcast message) =>
      (σ.manager.broadcast message).map (fun m => ⟨m, .selecting⟩)

/-- The steps of the calls in turn. -/
def run : System → List Call → Option System
  | σ, [] => some σ
  | σ, c :: rest => (σ.step c).bind (fun σ2 => run σ2 rest)

/-- The broadcast message the loop has received and not yet handled. -/
def pending (σ : System) : List Message :=
  match σ.loop with
  | .handling (.broadcast message) => [message]
  | _ => []

end System

/-- The message the call gets accepted, if it is a call of `BroadcastMessage` that
does. -/
def acceptedAt (σ : System) : Call → List Message
  | .BroadcastMessage unixNow msgType data =>
    match (σ.manager.BroadcastMessage unixNow 0 (decide (σ.loop = .selecting)) msgType data).2 with
    | .accepted message => [message]
    | .dropped => []
  | _ => []

/-- The messages the calls of `BroadcastMessage` in the run get accepted, in order. -/
def acceptedIn : System → List Call → List Message
  | _, [] => []
  | σ, c :: rest =>
    acceptedAt σ c ++
      (match σ.step c with
       | some σ2 => acceptedIn σ2 rest
       | none => [])

/-- The broadcast message whose case the loop runs at the call, if any. -/
def handledAt (σ : System) : Call → List Message
  | .loopFinish => σ.pending
  | _ => []

/-- The broadcast messages whose case the loop runs during the run, in order. -/
def handledIn : System → List Call → List Message
  | _, [] => []
  | σ, c :: rest =>
    handledAt σ c ++
      (match σ.step c with
       | some σ2 => handledIn σ2 rest
       | none => [])

end Websocket

/-! ## Theorems -/

namespace Scheduler

open Cron

/-! ### The registry as a map -/

theorem Registry.get_delete_self (m : Registry) (k : ObjectID) :
    Registry.get (Registry.delete m k) k = none := by
  induction m with
  | nil => rfl
  | cons p m ih =>
    obtain ⟨a, b⟩ := p
    by_cases h : a = k
    · simpa [Registry.delete, Registry.get, List.filter, h] using ih
    · have hk : (k == a) = false := by simpa using fun h' => h h'.symm
      simpa [Registry.delete, Registry.get, List.filter, h, List.lookup, hk] using ih

theorem Registry.get_delete_of_ne (m : Registry) (k j : ObjectID) (h : j ≠ k) :
    Registry.get (Registry.delete m k) j = Registry.get m j := by
  induction m with
  | nil => rfl
  | cons p m ih =>
    obtain ⟨a, b⟩ := p
    by_cases ha : a = k
    · subst ha
      have hj : (j == a) = false := by simpa using h
      simpa [Registry.delete, Registry.get, List.filter, List.lookup, hj] using ih
    · by_cases hja : j = a
      · simp [Registry.delete, Registry.get, List.filter, ha, List.lookup, hja]
      · have hj : (j == a) = false := by simpa using hja
        simpa [Registry.delete, Registry.get, List.filter, ha, List.lookup, hj] using ih

theorem Registry.get_set_self (m : Registry) (k : ObjectID) (v : ScheduledTask) :
    Registry.get (Registry.set m k v) k = some v := by
  simp [Registry.set, Registry.get, List.lookup]

theorem Registry.get_set_of_ne (m : Registry) (k j : ObjectID) (v : ScheduledTask)
    (h : j ≠ k) : Registry.get (Registry.set m k v) j = Registry.get m j := by
  have hj : (j == k) = false := by simpa using h
  have := Registry.get_delete_of_ne m k j h
  simpa [Registry.set, Registry.get, List.lookup, hj] using this

theorem Registry.get_map_update (m : Registry) (k j : ObjectID)
    (g : ScheduledTask → ScheduledTask) :
    Registry.get (m.map (fun p => if p.1 = k then (p.1, g p.2) else p)) j =
      if j = k then (Registry.get m j).map g else Registry.get m j := by
  induction m with
  | nil => by_cases h : j = k <;> simp [Registry.get, h]
  | cons p m ih =>
    obtain ⟨a, b⟩ := p
    simp only [Registry.get] at ih ⊢
    rw [List.map_cons]
    by_cases hak : a = k
    · have e : (if (a, b).1 = k then ((a, b).1, g (a, b).2) else (a, b)) = (a, g b) :=
        if_pos hak
      rw [e]
      by_cases hja : j = a
      · subst hja
        simp [List.lookup, hak]
      · have hj : (j == a) = false := by simpa using hja
        simp only [List.lookup, hj]
        exact ih
    · have e : (if (a, b).1 = k then ((a, b).1, g (a, b).2) else (a, b)) = (a, b) :=
        if_neg hak
      rw [e]
      by_cases hja : j = a
      · subst hja
        simp [List.lookup, hak]
      · have hj : (j == a) = false := by simpa using hja
        simp only [List.lookup, hj]
        exact ih

/-! ### AddTask and the validation of expressions -/

/-- C1 (the code at the failing input): task 1 is scheduled under ID 7 with a live cron
entry.  Task 2 has the same ID and the expression "* * * * *", which
`ValidateCronExpression` accepts and the engine's parser rejects.  `AddTask` of task 2
returns the parser's error and leaves the registry as it was, but the cron engine has
lost the entry: ID 7 is still reported as scheduled and has no timer. -/
theorem AddTask_rejected_removes_live_entry :
    scheduledOnce.cron.entries.map (fun e => e.ID) = [1] ∧
    scheduledOnce.IsTaskScheduled 7 = true ∧
    ValidateCronExpression exampleHost (exampleHeap 2).CronConfig.Expression = .ok () ∧
    (scheduledOnce.AddTask exampleHost noon exampleHeap 2).2 = .error (.fieldCount 6 6 5) ∧
    (scheduledOnce.AddTask exampleHost noon exampleHeap 2).1.tasks = scheduledOnce.tasks ∧
    (scheduledOnce.AddTask exampleHost noon exampleHeap 2).1.IsTaskScheduled 7 = true ∧
    (scheduledOnce.AddTask exampleHost noon exampleHeap 2).1.cron.entries = [] := by
  decide

/-- C3 (the code at the failing inputs): the five-field expression "* * * * *" passes
`ValidateCronExpression` and is refused by `AddTask`, and the six-field expression
"*/5 * * * * *" is refused by `ValidateCronExpression` and accepted by `AddTask`. -/
theorem validate_and_AddTask_disagree :
    (exampleHeap 2).CronConfig.Expression = "* * * * *" ∧
    ValidateCronExpression exampleHost "* * * * *" = .ok () ∧
    ((Start exampleHost noon New).AddTask exampleHost noon exampleHeap 2).2 =
      .error (.fieldCount 6 6 5) ∧
    (exampleHeap 3).CronConfig.Expression = "*/5 * * * * *" ∧
    ValidateCronExpression exampleHost "*/5 * * * * *" = .error (.fieldCount 5 5 6) ∧
    ((Start exampleHost noon New).AddTask exampleHost noon exampleHeap 3).2 = .ok () := by
  decide

/-- C4 (the code at the failing input): `ValidateCronExpression` returns the error
"expected exactly 5 fields, found 6" on the six-field expression "*/5 * * * * *". -/
theorem validate_rejects_six_fields :
    ValidateCronExpression exampleHost "*/5 * * * * *" = .error (.fieldCount 5 5 6) := by
  decide

/-! ### RemoveTask, PauseTask, ResumeTask -/

/-- C6: `RemoveTask` of an ID that is not in the registry changes nothing (registry,
cron entries and the rest of the state), and removing an ID twice gives the state
that removing it once gives.  `RemoveTask` has no error to return. -/
theorem RemoveTask_unknown_id_and_idempotent (s : Scheduler) (taskID : ObjectID) :
    (s.IsTaskScheduled taskID = false → s.RemoveTask taskID = s) ∧
    (s.RemoveTask taskID).RemoveTask taskID = s.RemoveTask taskID := by
  constructor
  · intro h
    unfold IsTaskScheduled at h
    unfold RemoveTask
    cases hg : Registry.get s.tasks taskID with
    | none => rfl
    | some st => simp [hg] at h
  · unfold RemoveTask
    cases hg : Registry.get s.tasks taskID with
    | none => simp [hg]
    | some st => simp [Registry.get_delete_self]

/-- C6 at the freshly constructed scheduler and ID 7. -/
theorem RemoveTask_unknown_id_and_idempotent_witness :
    New.RemoveTask 7 = New ∧ (New.RemoveTask 7).RemoveTask 7 = New.RemoveTask 7 :=
  ⟨(RemoveTask_unknown_id_and_idempotent New 7).1 (by decide),
   (RemoveTask_unknown_id_and_idempotent New 7).2⟩

/-- C7: `PauseTask` gives the state `RemoveTask` gives, and `ResumeTask` gives the
state and the result `AddTask` gives. -/
theorem PauseTask_ResumeTask_delegate (host : Host) (now : Time) (heap : Heap)
    (s : Scheduler) (taskID : ObjectID) (task : Ptr) :
    s.PauseTask taskID = s.RemoveTask taskID ∧
    s.ResumeTask host now heap task = s.AddTask host now heap task :=
  ⟨rfl, rfl⟩

/-! ### executeTask -/

theorem executedTask_ID (s : Scheduler) (clock : Clock) (execute : Context → Bool) (t : Task) :
    (executedTask s clock execute t).ID = t.ID := by
  unfold executedTask callExecutor
  by_cases h : s.executor = true
  · by_cases he : execute (WithTimeout clock.ctxNow clock.ctxCheck
        (wrapInt64 (wrapInt64 t.AgentConfig.Timeout * 1000000000))) = true <;> simp [h, he]
  · simp [h]

/-- C8 (counterexample): task 1 was added before `Start`, so the registry stores the
zero time as its next run while the started engine holds 12:01:00 for its entry;
after `ExecuteTaskNow` of the task the registry stores 12:01:00. -/
theorem ExecuteTaskNow_rewrites_stored_next_run :
    addedThenStarted.GetTaskNextRun 7 = some 0 ∧
    (addedThenStarted.ExecuteTaskNow exampleHeap exampleClock (fun _ => false) 1).sched.GetTaskNextRun
      7 = some (date 2024 1 15 12 1 0 0 0) := by
  decide

/-- C8 (amended): `ExecuteTaskNow` leaves the cron engine, the running flag and the
executor as they were, and the registry keeps its task IDs, task pointers and timer
handles in place; the stored next run of every other ID is unchanged, and that of the
executed task's ID, when it is scheduled, becomes the engine's `Next` for its handle.
When the task's ID is not scheduled the scheduler state is unchanged. -/
theorem ExecuteTaskNow_frame (s : Scheduler) (heap : Heap) (clock : Clock)
    (execute : Context → Bool) (task : Ptr) :
    (s.ExecuteTaskNow heap clock execute task).sched.cron = s.cron ∧
    (s.ExecuteTaskNow heap clock execute task).sched.running = s.running ∧
    (s.ExecuteTaskNow heap clock execute task).sched.executor = s.executor ∧
    (s.ExecuteTaskNow heap clock execute task).sched.tasks.map
        (fun p => (p.1, p.2.Task, p.2.EntryID)) =
      s.tasks.map (fun p => (p.1, p.2.Task, p.2.EntryID)) ∧
    (∀ id, id ≠ (heap task).ID →
      (s.ExecuteTaskNow heap clock execute task).sched.GetTaskNextRun id =
        s.GetTaskNextRun id) ∧
    (∀ st, Registry.get s.tasks (heap task).ID = some st →
      (s.ExecuteTaskNow heap clock execute task).sched.GetTaskNextRun (heap task).ID =
        some (s.cron.Entry st.EntryID).Next) ∧
    (s.IsTaskScheduled (heap task).ID = false →
      (s.ExecuteTaskNow heap clock execute task).sched = s) := by
  unfold ExecuteTaskNow executeTask
  simp only [executedTask_ID]
  cases hg : Registry.get s.tasks (heap task).ID with
  | none =>
    simp [hg, IsTaskScheduled]
  | some st0 =>
    have hg' : s.tasks.get (heap task).ID = some st0 := hg
    simp only [hg']
    refine ⟨trivial, trivial, trivial, ?_, ?_, ?_, ?_⟩
    · rw [List.map_map]
      apply List.map_congr_left
      intro p _
      by_cases hp : p.1 = (heap task).ID <;> simp [hp]
    · intro id hid
      unfold GetTaskNextRun
      have := Registry.get_map_update s.tasks (heap task).ID id
        (fun st => { st with NextRun := (s.cron.Entry st0.EntryID).Next })
      simp only [hid, if_false] at this
      show Option.map _ (Registry.get _ id) = Option.map _ (Registry.get _ id)
      rw [this]
    · intro st hst
      unfold GetTaskNextRun
      have := Registry.get_map_update s.tasks (heap task).ID (heap task).ID
        (fun st => { st with NextRun := (s.cron.Entry st0.EntryID).Next })
      simp only [if_true] at this
      show Option.map _ (Registry.get _ _) = _
      rw [this, hg]
      simp only [Option.some.injEq] at hst
      subst hst
      rfl
    · intro h
      simp [IsTaskScheduled, hg'] at h

/-- C8 (amended) at the scheduler of the counterexample and a task that is not
scheduled: the state is unchanged. -/
theorem ExecuteTaskNow_frame_witness :
    (addedThenStarted.ExecuteTaskNow exampleHeap exampleClock (fun _ => false) 3).sched =
      addedThenStarted :=
  (ExecuteTaskNow_frame addedThenStarted exampleHeap exampleClock (fun _ => false) 3).2.2.2.2.2.2
    (by decide)

theorem wrapInt64_of_inRange (x : Int) (h1 : -2 ^ 63 ≤ x) (h2 : x < 2 ^ 63) :
    wrapInt64 x = x := by
  unfold wrapInt64
  omega

theorem executeTask_ctx (s : Scheduler) (heap : Heap) (clock : Clock)
    (execute : Context → Bool) (task : Ptr) :
    (s.executeTask heap clock execute task).ctx =
      (callExecutor s clock execute { heap task with LastRun := some clock.now }).2 := by
  unfold executeTask
  simp only []
  split <;> rfl

theorem executeTask_heap_counts (s : Scheduler) (heap : Heap) (clock : Clock)
    (execute : Context → Bool) (task : Ptr) :
    ((s.executeTask heap clock execute task).heap task).SuccessCount =
        (executedTask s clock execute (heap task)).SuccessCount ∧
    ((s.executeTask heap clock execute task).heap task).FailureCount =
        (executedTask s clock execute (heap task)).FailureCount := by
  unfold executeTask
  simp only []
  split <;> simp

theorem executeTask_executor (s : Scheduler) (heap : Heap) (clock : Clock)
    (execute : Context → Bool) (task : Ptr) :
    (s.executeTask heap clock execute task).sched.executor = s.executor := by
  unfold executeTask
  simp only []
  split <;> rfl

/-- C9 (counterexample): task 3 has timeout 0; with an executor set, `executeTask`
hands `Execute` a context that has a deadline, the instant the context was created,
and is already expired. -/
theorem executeTask_zero_timeout_expired :
    (exampleHeap 3).AgentConfig.Timeout = 0 ∧
    ((Start exampleHost noon New).SetExecutor.executeTask exampleHeap exampleClock
      (fun _ => false) 3).ctx = some ⟨some exampleClock.ctxNow, true⟩ := by
  decide

/-- C9 (amended): with an executor set, for a task whose timeout is `t` seconds with
`0 ≤ t ≤ 9223372036`, the context `executeTask` hands to `Execute` has the deadline
"instant the context was created plus `t` seconds" and is already expired exactly
when that deadline is not after the clock read next; for `t = 0` (a missing timeout)
the deadline is the creation instant and the context is expired. -/
theorem executeTask_deadline (s : Scheduler) (heap : Heap) (clock : Clock)
    (execute : Context → Bool) (task : Ptr) (hexec : s.executor = true)
    (hclock : clock.ctxNow ≤ clock.ctxCheck)
    (h0 : 0 ≤ (heap task).AgentConfig.Timeout)
    (hmax : (heap task).AgentConfig.Timeout ≤ 9223372036) :
    (s.executeTask heap clock execute task).ctx =
      some ⟨some (clock.ctxNow + (heap task).AgentConfig.Timeout * 1000000000),
        decide (clock.ctxNow + (heap task).AgentConfig.Timeout * 1000000000 ≤ clock.ctxCheck)⟩ ∧
    ((heap task).AgentConfig.Timeout = 0 →
      (s.executeTask heap clock execute task).ctx = some ⟨some clock.ctxNow, true⟩) := by
  have hw : wrapInt64 (wrapInt64 (heap task).AgentConfig.Timeout * 1000000000) =
      (heap task).AgentConfig.Timeout * 1000000000 := by
    have hi : wrapInt64 (heap task).AgentConfig.Timeout = (heap task).AgentConfig.Timeout :=
      wrapInt64_of_inRange _ (by omega) (by omega)
    rw [hi]
    exact wrapInt64_of_inRange _ (by omega) (by omega)
  have hctx : (s.executeTask heap clock execute task).ctx =
      some (WithTimeout clock.ctxNow clock.ctxCheck
        ((heap task).AgentConfig.Timeout * 1000000000)) := by
    rw [executeTask_ctx]
    unfold callExecutor
    simp only [hexec, if_true, hw]
    split <;> rfl
  constructor
  · rw [hctx]
    have hiff : clock.ctxNow + (heap task).AgentConfig.Timeout * 1000000000 - clock.ctxCheck ≤ 0 ↔
        clock.ctxNow + (heap task).AgentConfig.Timeout * 1000000000 ≤ clock.ctxCheck := by
      simp only [Time] at *
      omega
    simp only [WithTimeout, hiff]
  · intro hz
    rw [hctx, hz]
    have hiff : clock.ctxNow + 0 * 1000000000 - clock.ctxCheck ≤ 0 := by
      simp only [Time] at *
      omega
    simpa [WithTimeout] using hiff

/-- C9 (amended) at task 1 of the examples, whose timeout is 30 seconds. -/
theorem executeTask_deadline_witness :
    ((Start exampleHost noon New).SetExecutor.executeTask exampleHeap exampleClock
      (fun _ => false) 1).ctx =
      some ⟨some (exampleClock.ctxNow + (exampleHeap 1).AgentConfig.Timeout * 1000000000),
        decide (exampleClock.ctxNow + (exampleHeap 1).AgentConfig.Timeout * 1000000000
          ≤ exampleClock.ctxCheck)⟩ :=
  (executeTask_deadline (Start exampleHost noon New).SetExecutor exampleHeap exampleClock
    (fun _ => false) 1 (by decide) (by decide) (by decide) (by decide)).1

/-- C10 (counterexample): no executor is set in a scheduler built by `New`; an
execution of task 1 then raises `ExecutionCount` and leaves both `SuccessCount` and
`FailureCount` at 0. -/
theorem executeTask_without_executor_counts_nothing :
    (exampleHeap 1).SuccessCount = 0 ∧ (exampleHeap 1).FailureCount = 0 ∧
    (((Start exampleHost noon New).executeTask exampleHeap exampleClock
      (fun _ => false) 1).heap 1).SuccessCount = 0 ∧
    (((Start exampleHost noon New).executeTask exampleHeap exampleClock
      (fun _ => false) 1).heap 1).FailureCount = 0 ∧
    (((Start exampleHost noon New).executeTask exampleHeap exampleClock
      (fun _ => false) 1).heap 1).ExecutionCount = 1 := by
  decide

theorem executedTask_counts (s : Scheduler) (clock : Clock) (execute : Context → Bool)
    (t : Task) (hexec : s.executor = true) (hS : -2 ^ 63 ≤ t.SuccessCount)
    (hS' : t.SuccessCount + 1 < 2 ^ 63) (hF : -2 ^ 63 ≤ t.FailureCount)
    (hF' : t.FailureCount + 1 < 2 ^ 63) :
    ∃ ctx, (callExecutor s clock execute { t with LastRun := some clock.now }).2 = some ctx ∧
      (execute ctx = true →
        (executedTask s clock execute t).FailureCount = t.FailureCount + 1 ∧
        (executedTask s clock execute t).SuccessCount = t.SuccessCount) ∧
      (execute ctx = false →
        (executedTask s clock execute t).SuccessCount = t.SuccessCount + 1 ∧
        (executedTask s clock execute t).FailureCount = t.FailureCount) := by
  refine ⟨WithTimeout clock.ctxNow clock.ctxCheck
    (wrapInt64 (wrapInt64 t.AgentConfig.Timeout * 1000000000)), ?_, ?_, ?_⟩
  · unfold callExecutor
    simp only [hexec, if_true]
    split <;> rfl
  · intro he
    have hw := wrapInt64_of_inRange (t.FailureCount + 1) (by omega) (by omega)
    simp [executedTask, callExecutor, hexec, he, hw]
  · intro he
    have hw := wrapInt64_of_inRange (t.SuccessCount + 1) (by omega) (by omega)
    simp [executedTask, callExecutor, hexec, he, hw]

/-- C10 (amended): without an executor an execution changes neither `SuccessCount`
nor `FailureCount`.  With an executor set and both counters at least two below the
`int` maximum, an execution raises exactly one of them by one, `FailureCount` exactly
when `Execute` returned an error, and leaves the other; a second execution of the
same task after it brings `SuccessCount + FailureCount` to two more than at first. -/
theorem executeTask_counts_one_outcome (s : Scheduler) (heap : Heap) (clock clock2 : Clock)
    (execute execute2 : Context → Bool) (task : Ptr) :
    (s.executor = false →
      ((s.executeTask heap clock execute task).heap task).SuccessCount =
          (heap task).SuccessCount ∧
      ((s.executeTask heap clock execute task).heap task).FailureCount =
          (heap task).FailureCount) ∧
    (s.executor = true →
      -2 ^ 63 ≤ (heap task).SuccessCount → (heap task).SuccessCount + 2 < 2 ^ 63 →
      -2 ^ 63 ≤ (heap task).FailureCount → (heap task).FailureCount + 2 < 2 ^ 63 →
      (∃ ctx, (s.executeTask heap clock execute task).ctx = some ctx ∧
        (execute ctx = true →
          ((s.executeTask heap clock execute task).heap task).FailureCount =
              (heap task).FailureCount + 1 ∧
          ((s.executeTask heap clock execute task).heap task).SuccessCount =
              (heap task).SuccessCount) ∧
        (execute ctx = false →
          ((s.executeTask heap clock execute task).heap task).SuccessCount =
              (heap task).SuccessCount + 1 ∧
          ((s.executeTask heap clock execute task).heap task).FailureCount =
              (heap task).FailureCount)) ∧
      (((s.executeTask heap clock execute task).sched.executeTask
            (s.executeTask heap clock execute task).heap clock2 execute2 task).heap
          task).SuccessCount +
        (((s.executeTask heap clock execute task).sched.executeTask
            (s.executeTask heap clock execute task).heap clock2 execute2 task).heap
          task).FailureCount =
        (heap task).SuccessCount + (heap task).FailureCount + 2) := by
  constructor
  · intro hexec
    have h := executeTask_heap_counts s heap clock execute task
    rw [h.1, h.2]
    unfold executedTask callExecutor
    simp [hexec]
  · intro hexec hS hS' hF hF'
    have h := executeTask_heap_counts s heap clock execute task
    obtain ⟨ctx, hctx, ht, hf⟩ := executedTask_counts s clock execute (heap task) hexec hS
      (by omega) hF (by omega)
    have first : ((s.executeTask heap clock execute task).heap task).SuccessCount +
        ((s.executeTask heap clock execute task).heap task).FailureCount =
        (heap task).SuccessCount + (heap task).FailureCount + 1 ∧
        (heap task).SuccessCount ≤
          ((s.executeTask heap clock execute task).heap task).SuccessCount ∧
        ((s.executeTask heap clock execute task).heap task).SuccessCount ≤
          (heap task).SuccessCount + 1 ∧
        (heap task).FailureCount ≤
          ((s.executeTask heap clock execute task).heap task).FailureCount ∧
        ((s.executeTask heap clock execute task).heap task).FailureCount ≤
          (heap task).FailureCount + 1 := by
      rw [h.1, h.2]
      cases he : execute ctx with
      | true => have := ht he; omega
      | false => have := hf he; omega
    refine ⟨⟨ctx, ?_, ?_, ?_⟩, ?_⟩
    · rw [executeTask_ctx]; exact hctx
    · intro he; rw [h.1, h.2]; exact ht he
    · intro he; rw [h.1, h.2]; exact hf he
    · have hexec2 := (executeTask_executor s heap clock execute task).trans hexec
      have h2 := executeTask_heap_counts (s.executeTask heap clock execute task).sched
        (s.executeTask heap clock execute task).heap clock2 execute2 task
      obtain ⟨ctx2, _, ht2, hf2⟩ := executedTask_counts
        (s.executeTask heap clock execute task).sched clock2 execute2
        ((s.executeTask heap clock execute task).heap task) hexec2
        (by omega) (by omega) (by omega) (by omega)
      rw [h2.1, h2.2]
      cases he : execute2 ctx2 with
      | true => have := ht2 he; omega
      | false => have := hf2 he; omega

/-- C10 (amended) at task 1 of the examples with an executor set: an execution that
fails followed by one that succeeds raises `SuccessCount + FailureCount` by two. -/
theorem executeTask_counts_one_outcome_witness :
    ((((Start exampleHost noon New).SetExecutor.executeTask exampleHeap exampleClock
            (fun _ => true) 1).sched.executeTask
          ((Start exampleHost noon New).SetExecutor.executeTask exampleHeap exampleClock
            (fun _ => true) 1).heap exampleClock (fun _ => false) 1).heap 1).SuccessCount +
      ((((Start exampleHost noon New).SetExecutor.executeTask exampleHeap exampleClock
            (fun _ => true) 1).sched.executeTask
          ((Start exampleHost noon New).SetExecutor.executeTask exampleHeap exampleClock
            (fun _ => true) 1).heap exampleClock (fun _ => false) 1).heap 1).FailureCount =
      (exampleHeap 1).SuccessCount + (exampleHeap 1).FailureCount + 2 :=
  ((executeTask_counts_one_outcome (Start exampleHost noon New).SetExecutor exampleHeap
    exampleClock exampleClock (fun _ => true) (fun _ => false) 1).2
    (by decide) (by decide) (by decide) (by decide) (by decide)).2

/-! ### One cron entry per task ID -/

theorem AddFunc_of_ok {J : Type} (host : Host) (now : Time) (c : Cron J) (spec : List Char)
    (cmd : J) (sch : Schedule) (h : Parse host c.parser spec = .ok sch) :
    c.AddFunc host now spec cmd =
      ({ c with
          nextID := wrapInt64 (c.nextID + 1)
          entries := c.entries ++ [⟨wrapInt64 (c.nextID + 1), some sch,
            if c.running then sch.Next host now else 0, 0, some cmd⟩] },
       .ok (wrapInt64 (c.nextID + 1))) := by
  unfold Cron.AddFunc
  simp only [h]
  rfl

theorem AddFunc_of_not_ok {J : Type} (host : Host) (now : Time) (c : Cron J)
    (spec : List Char) (cmd : J) (h : ∀ sch, Parse host c.parser spec ≠ .ok sch) :
    (c.AddFunc host now spec cmd).1 = c ∧ ∀ id, (c.AddFunc host now spec cmd).2 ≠ .ok id := by
  unfold Cron.AddFunc
  cases hp : Parse host c.parser spec with
  | ok sch => exact absurd hp (h sch)
  | error e => simp
  | panic => simp

theorem removeExisting_entries_subset (s : Scheduler) (taskID : ObjectID) :
    ∀ e ∈ (s.removeExisting taskID).entries, e ∈ s.cron.entries := by
  intro e he
  unfold removeExisting at he
  cases hg : Registry.get s.tasks taskID with
  | none =>
    have hg' : s.tasks.get taskID = none := hg
    simpa [hg'] using he
  | some st =>
    have hg' : s.tasks.get taskID = some st := hg
    simp only [hg', Cron.Remove] at he
    exact (List.mem_filter.mp he).1

theorem removeExisting_of_get (s : Scheduler) (taskID : ObjectID) (st : ScheduledTask)
    (h : Registry.get s.tasks taskID = some st) :
    s.removeExisting taskID = s.cron.Remove st.EntryID := by
  have h' : s.tasks.get taskID = some st := h
  unfold removeExisting
  rw [h']

theorem removeExisting_fields (s : Scheduler) (taskID : ObjectID) :
    (s.removeExisting taskID).parser = s.cron.parser ∧
    (s.removeExisting taskID).nextID = s.cron.nextID ∧
    (s.removeExisting taskID).running = s.cron.running := by
  unfold removeExisting
  cases hg : Registry.get s.tasks taskID with
  | none =>
    have hg' : s.tasks.get taskID = none := hg
    simp [hg']
  | some st =>
    have hg' : s.tasks.get taskID = some st := hg
    simp [hg', Cron.Remove]

theorem removeExisting_no_live (s : Scheduler) (heap : Heap) (taskID : ObjectID)
    (h : NoOrphan s heap) :
    ∀ e ∈ (s.removeExisting taskID).entries, ∀ p, e.Job = some p → (heap p).ID ≠ taskID := by
  intro e he p hp hid
  have hmem := removeExisting_entries_subset s taskID e he
  obtain ⟨st, hst, hst'⟩ := h e hmem p hp
  rw [hid] at hst
  unfold removeExisting at he
  simp only [hst, Cron.Remove] at he
  have := (List.mem_filter.mp he).2
  simp [hst'] at this

theorem AddTask_of_ok (host : Host) (now : Time) (heap : Heap) (s : Scheduler) (task : Ptr)
    (sch : Schedule)
    (h : Parse host s.cron.parser (heap task).CronConfig.Expression.toList = .ok sch) :
    ∃ (e : Entry Ptr) (nextRun : Time),
      e.ID = wrapInt64 (s.cron.nextID + 1) ∧ e.Job = some task ∧ e.Schedule = some sch ∧
      s.AddTask host now heap task =
        ({ s with
            cron := { s.removeExisting (heap task).ID with
              nextID := e.ID
              entries := (s.removeExisting (heap task).ID).entries ++ [e] }
            tasks := Registry.set s.tasks (heap task).ID ⟨task, e.ID, nextRun⟩ },
         .ok ()) := by
  obtain ⟨hpar, hnext, _⟩ := removeExisting_fields s (heap task).ID
  have h' : Parse host (s.removeExisting (heap task).ID).parser
      (heap task).CronConfig.Expression.toList = .ok sch := by rw [hpar]; exact h
  have hadd := AddFunc_of_ok host now (s.removeExisting (heap task).ID)
    (heap task).CronConfig.Expression.toList task sch h'
  refine ⟨⟨wrapInt64 (s.cron.nextID + 1), some sch,
    if (s.removeExisting (heap task).ID).running then sch.Next host now else 0, 0, some task⟩,
    (Cron.Cron.Entry { s.removeExisting (heap task).ID with
      nextID := wrapInt64 (s.cron.nextID + 1)
      entries := (s.removeExisting (heap task).ID).entries ++
        [(⟨wrapInt64 (s.cron.nextID + 1), some sch,
          if (s.removeExisting (heap task).ID).running then sch.Next host now else 0,
          0, some task⟩ : Entry Ptr)] } (wrapInt64 (s.cron.nextID + 1))).Next,
    rfl, rfl, rfl, ?_⟩
  unfold AddTask
  rw [hadd, hnext]

theorem AddTask_of_not_ok (host : Host) (now : Time) (heap : Heap) (s : Scheduler) (task : Ptr)
    (h : ∀ sch, Parse host s.cron.parser (heap task).CronConfig.Expression.toList ≠ .ok sch) :
    (s.AddTask host now heap task).1 = { s with cron := s.removeExisting (heap task).ID } ∧
    (s.AddTask host now heap task).2 ≠ .ok () := by
  obtain ⟨hpar, _, _⟩ := removeExisting_fields s (heap task).ID
  have h' : ∀ sch, Parse host (s.removeExisting (heap task).ID).parser
      (heap task).CronConfig.Expression.toList ≠ .ok sch := by rw [hpar]; exact h
  have hadd := AddFunc_of_not_ok host now (s.removeExisting (heap task).ID)
    (heap task).CronConfig.Expression.toList task h'
  unfold AddTask
  revert hadd
  cases (s.removeExisting (heap task).ID).AddFunc host now
      (heap task).CronConfig.Expression.toList task with
  | mk c r =>
    intro hadd
    cases r with
    | ok id => exact absurd rfl (hadd.2 id)
    | error e => simp at hadd ⊢; rw [hadd]
    | panic => simp at hadd ⊢; rw [hadd]

theorem NoOrphan_mono (s s' : Scheduler) (heap heap' : Heap)
    (hE : ∀ e ∈ s'.cron.entries, ∃ e0 ∈ s.cron.entries, e0.ID = e.ID ∧ e0.Job = e.Job)
    (hT : ∀ k st, Registry.get s.tasks k = some st →
      ∃ st', Registry.get s'.tasks k = some st' ∧ st'.EntryID = st.EntryID)
    (hH : ∀ p, (heap' p).ID = (heap p).ID) (h : NoOrphan s heap) : NoOrphan s' heap' := by
  intro e he p hp
  obtain ⟨e0, he0, hid, hjob⟩ := hE e he
  obtain ⟨st, hst, hst'⟩ := h e0 he0 p (hjob.trans hp)
  obtain ⟨st', hget, heq⟩ := hT _ st hst
  exact ⟨st', by rw [hH]; exact hget, by rw [heq, hst', hid]⟩

theorem NoOrphan_AddTask (host : Host) (now : Time) (heap : Heap) (s : Scheduler)
    (task : Ptr) (h : NoOrphan s heap) : NoOrphan (s.AddTask host now heap task).1 heap := by
  cases hp : Parse host s.cron.parser (heap task).CronConfig.Expression.toList with
  | ok sch =>
    obtain ⟨e, nextRun, _, hjob, _, heq⟩ := AddTask_of_ok host now heap s task sch hp
    rw [heq]
    intro e' he' p' hp'
    simp only [List.mem_append, List.mem_singleton] at he'
    rcases he' with he' | he'
    · have hne := removeExisting_no_live s heap (heap task).ID h e' he' p' hp'
      obtain ⟨st, hst, hst'⟩ := h e' (removeExisting_entries_subset s _ e' he') p' hp'
      exact ⟨st, by
        show Registry.get (Registry.set s.tasks _ _) _ = _
        rw [Registry.get_set_of_ne _ _ _ _ hne]; exact hst, hst'⟩
    · subst he'
      rw [hjob] at hp'
      cases hp'
      exact ⟨_, Registry.get_set_self _ _ _, rfl⟩
  | error err =>
    have hno : ∀ sch, Parse host s.cron.parser (heap task).CronConfig.Expression.toList ≠
        .ok sch := by intro sch; rw [hp]; simp
    rw [(AddTask_of_not_ok host now heap s task hno).1]
    exact NoOrphan_mono s _ heap heap
      (fun e he => ⟨e, removeExisting_entries_subset s _ e he, rfl, rfl⟩)
      (fun k st hst => ⟨st, hst, rfl⟩) (fun _ => rfl) h
  | panic =>
    have hno : ∀ sch, Parse host s.cron.parser (heap task).CronConfig.Expression.toList ≠
        .ok sch := by intro sch; rw [hp]; simp
    rw [(AddTask_of_not_ok host now heap s task hno).1]
    exact NoOrphan_mono s _ heap heap
      (fun e he => ⟨e, removeExisting_entries_subset s _ e he, rfl, rfl⟩)
      (fun k st hst => ⟨st, hst, rfl⟩) (fun _ => rfl) h

theorem NoOrphan_RemoveTask (heap : Heap) (s : Scheduler) (taskID : ObjectID)
    (h : NoOrphan s heap) : NoOrphan (s.RemoveTask taskID) heap := by
  unfold RemoveTask
  cases hg : Registry.get s.tasks taskID with
  | none =>
    have hg' : s.tasks.get taskID = none := hg
    simpa [hg'] using h
  | some st =>
    have hg' : s.tasks.get taskID = some st := hg
    simp only [hg']
    intro e he p hp
    simp only [Cron.Remove] at he
    obtain ⟨hmem, hfilter⟩ := List.mem_filter.mp he
    obtain ⟨st', hst, hst'⟩ := h e hmem p hp
    have hne : (heap p).ID ≠ taskID := by
      intro hid
      rw [hid, hg] at hst
      cases hst
      simp [hst'] at hfilter
    exact ⟨st', by
      show Registry.get (Registry.delete s.tasks _) _ = _
      rw [Registry.get_delete_of_ne _ _ _ hne]; exact hst, hst'⟩

theorem AddTask_parser_unchanged (host : Host) (now : Time) (heap : Heap) (s : Scheduler)
    (task : Ptr) :
    (s.AddTask host now heap task).1.cron.parser = s.cron.parser := by
  cases hp : Parse host s.cron.parser (heap task).CronConfig.Expression.toList with
  | ok sch =>
    obtain ⟨e, nextRun, _, _, _, heq⟩ := AddTask_of_ok host now heap s task sch hp
    rw [heq]
    exact (removeExisting_fields s _).1
  | error err =>
    have hno : ∀ sch, Parse host s.cron.parser (heap task).CronConfig.Expression.toList ≠
        .ok sch := by intro sch; rw [hp]; simp
    rw [(AddTask_of_not_ok host now heap s task hno).1]
    exact (removeExisting_fields s _).1
  | panic =>
    have hno : ∀ sch, Parse host s.cron.parser (heap task).CronConfig.Expression.toList ≠
        .ok sch := by intro sch; rw [hp]; simp
    rw [(AddTask_of_not_ok host now heap s task hno).1]
    exact (removeExisting_fields s _).1

theorem executeTask_sched (s : Scheduler) (heap : Heap) (clock : Clock)
    (execute : Context → Bool) (task : Ptr) :
    (s.executeTask heap clock execute task).sched.cron = s.cron ∧
    (∀ k st, Registry.get s.tasks k = some st →
      ∃ st', Registry.get (s.executeTask heap clock execute task).sched.tasks k = some st' ∧
        st'.EntryID = st.EntryID) ∧
    ∀ p, ((s.executeTask heap clock execute task).heap p).ID = (heap p).ID := by
  unfold executeTask
  simp only [executedTask_ID]
  cases hg : Registry.get s.tasks (heap task).ID with
  | none =>
    have hg' : s.tasks.get (heap task).ID = none := hg
    simp only [hg']
    refine ⟨trivial, fun k st hst => ⟨st, hst, rfl⟩, ?_⟩
    intro p
    by_cases hp : p = task
    · subst hp; simp [executedTask_ID]
    · simp [Function.update, hp]
  | some st0 =>
    have hg' : s.tasks.get (heap task).ID = some st0 := hg
    simp only [hg']
    refine ⟨trivial, ?_, ?_⟩
    · intro k st hst
      have := Registry.get_map_update s.tasks (heap task).ID k
        (fun st => { st with NextRun := (s.cron.Entry st0.EntryID).Next })
      by_cases hk : k = (heap task).ID
      · simp only [hk, if_true] at this
        rw [hk] at hst
        have hst2 : Registry.get s.tasks (heap task).ID = some st := hst
        exact ⟨{ st with NextRun := (s.cron.Entry st0.EntryID).Next },
          by rw [hk, this, hst2]; rfl, rfl⟩
      · simp only [hk, if_false] at this
        exact ⟨st, this.trans hst, rfl⟩
    · intro p
      by_cases hp : p = task
      · subst hp; simp [executedTask_ID]
      · simp [Function.update, hp]

/-- From `New` on, every cron entry is the one registered for its task's ID, and the
engine's parser is the six-field one. -/
theorem reachable_invariant (host : Host) (s : Scheduler) (heap : Heap)
    (h : Reachable host s heap) : NoOrphan s heap ∧ s.cron.parser = withSecondsOptions := by
  induction h with
  | init heap =>
    exact ⟨by intro e he; simp [New, NewWithSeconds] at he, rfl⟩
  | setExecutor _ ih => exact ih
  | @start s heap now _ ih =>
    unfold Start
    by_cases hr : s.running = true
    · simpa [hr] using ih
    · simp only [hr, if_false]
      refine ⟨NoOrphan_mono s _ heap heap ?_ (fun k st hst => ⟨st, hst, rfl⟩) (fun _ => rfl) ih.1,
        ?_⟩
      · intro e he
        simp only [Cron.Start] at he
        by_cases hc : s.cron.running = true
        · simp only [hc, if_true] at he
          exact ⟨e, he, rfl, rfl⟩
        · simp only [hc, if_false] at he
          obtain ⟨e0, he0, rfl⟩ := List.mem_map.mp he
          exact ⟨e0, he0, rfl, rfl⟩
      · simp only [Cron.Start]
        by_cases hc : s.cron.running = true
        · simpa [hc] using ih.2
        · simpa [hc] using ih.2
  | @stop s heap _ ih =>
    unfold Stop
    by_cases hr : s.running = true
    · simp only [hr, Bool.not_true, if_false]
      exact ⟨NoOrphan_mono s _ heap heap (fun e he => ⟨e, he, rfl, rfl⟩)
        (fun k st hst => ⟨st, hst, rfl⟩) (fun _ => rfl) ih.1, ih.2⟩
    · simpa [hr] using ih
  | @addTask s heap now task _ ih =>
    exact ⟨NoOrphan_AddTask host now heap s task ih.1,
      (AddTask_parser_unchanged host now heap s task).trans ih.2⟩
  | @removeTask s heap taskID _ ih =>
    refine ⟨NoOrphan_RemoveTask heap s taskID ih.1, ?_⟩
    unfold RemoveTask
    cases hg : Registry.get s.tasks taskID with
    | none =>
      have hg' : s.tasks.get taskID = none := hg
      simpa [hg'] using ih.2
    | some st =>
      have hg' : s.tasks.get taskID = some st := hg
      simpa [hg', Cron.Remove] using ih.2
  | @tick s heap now _ ih =>
    refine ⟨NoOrphan_mono s _ heap heap ?_ (fun k st hst => ⟨st, hst, rfl⟩) (fun _ => rfl) ih.1,
      ?_⟩
    · intro e he
      simp only [Cron.tick] at he
      by_cases hc : s.cron.running = true
      · simp only [hc, Bool.not_true, if_false] at he
        obtain ⟨e0, he0, rfl⟩ := List.mem_map.mp he
        refine ⟨e0, he0, ?_, ?_⟩ <;> by_cases hd : e0.due now = true <;> simp [hd]
      · simp only [hc, Bool.not_false, if_true] at he
        exact ⟨e, he, rfl, rfl⟩
    · simp only [Cron.tick]
      by_cases hc : s.cron.running = true
      · simpa [hc] using ih.2
      · simpa [hc] using ih.2
  | @execute s heap clock execute task _ ih =>
    obtain ⟨hc, hT, hH⟩ := executeTask_sched s heap clock execute task
    exact ⟨NoOrphan_mono s _ heap _ (fun e he => ⟨e, by rw [← hc]; exact he, rfl, rfl⟩) hT hH ih.1,
      by rw [hc]; exact ih.2⟩
  | @write s heap heap' _ hH ih =>
    exact ⟨NoOrphan_mono s s heap heap' (fun e he => ⟨e, he, rfl, rfl⟩)
      (fun k st hst => ⟨st, hst, rfl⟩) hH ih.1, ih.2⟩

theorem wrapInt64_succ_ne (x : Int) : wrapInt64 (wrapInt64 x + 1) ≠ wrapInt64 x := by
  unfold wrapInt64
  omega

theorem Registry.count_set (m : Registry) (k : ObjectID) (v : ScheduledTask) :
    ((Registry.set m k v).filter (fun p => p.1 = k)).length = 1 := by
  have h : (Registry.delete m k).filter (fun p => decide (p.1 = k)) = [] := by
    rw [List.filter_eq_nil_iff]
    intro p hp
    have := (List.mem_filter.mp hp).2
    simpa using this
  simp [Registry.set, List.filter, h]

theorem liveEntries_removeExisting (s : Scheduler) (heap : Heap) (taskID : ObjectID)
    (h : NoOrphan s heap) (q : Entry Ptr → Bool) :
    ((s.removeExisting taskID).entries.filter q).filter (fun e =>
      match e.Job with
      | some p => decide ((heap p).ID = taskID)
      | none => false) = [] := by
  rw [List.filter_eq_nil_iff]
  intro e he
  have he' := (List.mem_filter.mp he).1
  cases hj : e.Job with
  | none => simp
  | some p =>
    have := removeExisting_no_live s heap taskID h e he' p hj
    simp [this]

/-- C2: from any reachable state, two `AddTask` calls for tasks with the same ID and
expressions the engine's parser accepts both succeed, and afterwards the cron engine
holds exactly one entry whose job runs a task with that ID: the entry of the second
call.  The entry the first call installed is no longer among the engine's entries,
and the registry holds one pair for the ID, with the second task and the new entry's
handle. -/
theorem AddTask_twice_one_live_entry (host : Host) (now1 now2 : Time) (heap : Heap)
    (s : Scheduler) (task1 task2 : Ptr) (sch1 sch2 : Schedule)
    (hreach : Reachable host s heap) (hid : (heap task2).ID = (heap task1).ID)
    (h1 : Parse host withSecondsOptions (heap task1).CronConfig.Expression.toList = .ok sch1)
    (h2 : Parse host withSecondsOptions (heap task2).CronConfig.Expression.toList = .ok sch2) :
    (s.AddTask host now1 heap task1).2 = .ok () ∧
    ((s.AddTask host now1 heap task1).1.AddTask host now2 heap task2).2 = .ok () ∧
    ∃ e1 e2 : Entry Ptr,
      liveEntries (s.AddTask host now1 heap task1).1 heap (heap task1).ID = [e1] ∧
      e1.Job = some task1 ∧
      liveEntries ((s.AddTask host now1 heap task1).1.AddTask host now2 heap task2).1 heap
        (heap task1).ID = [e2] ∧
      e2.Job = some task2 ∧ e2.Schedule = some sch2 ∧
      (∀ e ∈ ((s.AddTask host now1 heap task1).1.AddTask host now2 heap task2).1.cron.entries,
        e.ID ≠ e1.ID) ∧
      (((s.AddTask host now1 heap task1).1.AddTask host now2 heap task2).1.tasks.filter
        (fun p => p.1 = (heap task1).ID)).length = 1 ∧
      ∃ nextRun,
        Registry.get ((s.AddTask host now1 heap task1).1.AddTask host now2 heap task2).1.tasks
          (heap task1).ID = some ⟨task2, e2.ID, nextRun⟩ := by
  obtain ⟨hno, hpar⟩ := reachable_invariant host s heap hreach
  obtain ⟨e1, nr1, he1id, he1job, _, heq1⟩ :=
    AddTask_of_ok host now1 heap s task1 sch1 (by rw [hpar]; exact h1)
  have hno1 : NoOrphan (s.AddTask host now1 heap task1).1 heap :=
    NoOrphan_AddTask host now1 heap s task1 hno
  have hpar1 : (s.AddTask host now1 heap task1).1.cron.parser = withSecondsOptions :=
    (AddTask_parser_unchanged host now1 heap s task1).trans hpar
  obtain ⟨e2, nr2, he2id, he2job, he2sch, heq2⟩ :=
    AddTask_of_ok host now2 heap (s.AddTask host now1 heap task1).1 task2 sch2
      (by rw [hpar1]; exact h2)
  have hlive1 : liveEntries (s.AddTask host now1 heap task1).1 heap (heap task1).ID = [e1] := by
    have hrem := liveEntries_removeExisting s heap (heap task1).ID hno (fun _ => true)
    simp only [List.filter_true] at hrem
    rw [heq1]
    simp only [liveEntries, List.filter_append, hrem, List.nil_append]
    simp [List.filter, he1job]
  have hget1 : Registry.get (s.AddTask host now1 heap task1).1.tasks (heap task1).ID =
      some ⟨task1, e1.ID, nr1⟩ := by
    rw [heq1]
    exact Registry.get_set_self _ _ _
  have hrem1 : ((s.AddTask host now1 heap task1).1.removeExisting (heap task2).ID).entries =
      (s.removeExisting (heap task1).ID).entries.filter (fun e => e.ID ≠ e1.ID) := by
    rw [hid, removeExisting_of_get _ _ _ hget1]
    simp only [Cron.Remove]
    rw [heq1]
    simp [List.filter_append, List.filter]
  have hnext1 : (s.AddTask host now1 heap task1).1.cron.nextID = e1.ID := by
    rw [heq1]
  have hne : e2.ID ≠ e1.ID := by
    rw [he2id, hnext1, he1id]
    exact wrapInt64_succ_ne _
  refine ⟨by rw [heq1], by rw [heq2], e1, e2, hlive1, he1job, ?_, he2job, he2sch, ?_, ?_, ?_⟩
  · have hrem := liveEntries_removeExisting s heap (heap task1).ID hno (fun e => e.ID ≠ e1.ID)
    rw [heq2]
    simp only [liveEntries, List.filter_append, hrem1, hrem, List.nil_append]
    simp [List.filter, he2job, hid]
  · intro e he
    rw [heq2] at he
    simp only [hrem1, List.mem_append, List.mem_filter, List.mem_singleton] at he
    rcases he with ⟨_, hf⟩ | rfl
    · simpa using hf
    · exact hne
  · rw [heq2, hid]
    exact Registry.count_set _ _ _
  · refine ⟨nr2, ?_⟩
    rw [heq2, hid]
    exact Registry.get_set_self _ _ _

/-- C2 at the started example scheduler: task 1 is added twice. -/
theorem AddTask_twice_one_live_entry_witness :
    ((Start exampleHost noon New).AddTask exampleHost noon exampleHeap 1).2 = .ok () ∧
    (((Start exampleHost noon New).AddTask exampleHost noon exampleHeap 1).1.AddTask exampleHost
      noon exampleHeap 1).2 = .ok () :=
  have h := AddTask_twice_one_live_entry exampleHost noon noon exampleHeap
    (Start exampleHost noon New) 1 1 _ _ (Reachable.start noon (Reachable.init exampleHeap)) rfl
    (show Parse exampleHost withSecondsOptions (exampleHeap 1).CronConfig.Expression.toList =
      .ok (.spec ⟨1, 10376293541461622783, 9223372036871553023, 9223372041149743102,
        9223372036854783998, 9223372036854775935, .Local⟩) by decide)
    (show Parse exampleHost withSecondsOptions (exampleHeap 1).CronConfig.Expression.toList =
      .ok (.spec ⟨1, 10376293541461622783, 9223372036871553023, 9223372041149743102,
        9223372036854783998, 9223372036854775935, .Local⟩) by decide)
  ⟨h.1, h.2.1⟩

end Scheduler

namespace Cron

/-! ### What the parser rejects -/

theorem digitsVal_cons_digit (c : Char) (cs : List Char) (acc v : Nat)
    (h : GoStr.digitsVal (c :: cs) acc = some v) : 48 ≤ c.toNat ∧ c.toNat ≤ 57 := by
  unfold GoStr.digitsVal at h
  by_cases hc : 48 ≤ c.toNat ∧ c.toNat ≤ 57
  · exact hc
  · simp [hc] at h

theorem atoi_of_digits (c : Char) (cs : List Char) (v : Nat)
    (h : GoStr.digitsVal (c :: cs) 0 = some v) :
    GoStr.atoi (c :: cs) = if v < 2 ^ 63 then some (v : Int) else none := by
  have hc := digitsVal_cons_digit c cs 0 v h
  have h1 : c ≠ '-' := by
    intro e
    rw [e] at hc
    exact absurd hc (by decide)
  have h2 : c ≠ '+' := by
    intro e
    rw [e] at hc
    exact absurd hc (by decide)
  simp [GoStr.atoi, h1, h2, h]

theorem mustParseInt_of_digits (c : Char) (cs : List Char) (v : Nat)
    (h : GoStr.digitsVal (c :: cs) 0 = some v) :
    mustParseInt (c :: cs) = if v < 2 ^ 63 then .ok v else .error .parseInt := by
  unfold mustParseInt
  rw [atoi_of_digits c cs v h]
  by_cases hv : v < 2 ^ 63
  · rw [if_pos hv, if_pos hv]
    simp
  · rw [if_neg hv, if_neg hv]

theorem lookup_of_digit_head (names : List (List Char × Nat)) (c : Char) (cs : List Char)
    (hc : c.toNat ≤ 57) (hn : namesStartWithLetter names = true) :
    names.lookup (c :: cs) = none := by
  induction names with
  | nil => rfl
  | cons p rest ih =>
    obtain ⟨k, n⟩ := p
    simp only [namesStartWithLetter, List.all_cons, Bool.and_eq_true] at hn
    have hrest : namesStartWithLetter rest = true := hn.2
    cases k with
    | nil => simp at hn
    | cons h t =>
      have hh : 97 ≤ h.toNat := by simpa using hn.1
      have hne : c ≠ h := by
        intro e
        rw [e] at hc
        omega
      have hb : ((c :: cs) == (h :: t)) = false := by
        simp [hne]
      simp only [List.lookup, hb]
      exact ih hrest

theorem toLowerChar_of_digit (c : Char) (hc : 48 ≤ c.toNat ∧ c.toNat ≤ 57) :
    GoStr.toLowerChar c = c := by
  unfold GoStr.toLowerChar
  have h1 : ¬ (65 ≤ c.toNat ∧ c.toNat ≤ 90) := by omega
  have h2 : ¬ c.toNat = 0x130 := by omega
  have h3 : ¬ c.toNat = 0x212A := by omega
  simp [h1, h2, h3]

theorem parseIntOrName_of_digits (names : List (List Char × Nat)) (c : Char) (cs : List Char)
    (v n : Nat) (hn : namesStartWithLetter names = true)
    (h : GoStr.digitsVal (c :: cs) 0 = some v)
    (hp : parseIntOrName (c :: cs) names = .ok n) : n = v := by
  have hc := digitsVal_cons_digit c cs 0 v h
  unfold parseIntOrName at hp
  have hl : names.lookup (GoStr.toLower (c :: cs)) = none := by
    simp only [GoStr.toLower, List.map_cons, toLowerChar_of_digit c hc]
    exact lookup_of_digit_head names c _ hc.2 hn
  rw [hl] at hp
  simp only at hp
  rw [mustParseInt_of_digits c cs v h] at hp
  by_cases hv : v < 2 ^ 63
  · rw [if_pos hv] at hp
    exact (Except.ok.inj hp).symm
  · rw [if_neg hv] at hp
    cases hp

theorem rangeEnds_ok (lh : List (List Char)) (r : Bounds) (start endv extra : Nat)
    (h : rangeEnds lh r = .ok (start, endv, extra))
    (hstar : lh.headD [] ≠ ['*']) (hq : lh.headD [] ≠ ['?']) :
    (∃ x, lh = [x] ∧ parseIntOrName x r.names = .ok start ∧ endv = start) ∨
    (∃ x y, lh = [x, y] ∧ parseIntOrName x r.names = .ok start ∧
      parseIntOrName y r.names = .ok endv) := by
  unfold rangeEnds at h
  have hns : ¬ (lh.headD [] = ['*'] ∨ lh.headD [] = ['?']) := by
    intro hh; rcases hh with hh | hh
    · exact hstar hh
    · exact hq hh
  rw [if_neg hns] at h
  cases hp : parseIntOrName (lh.headD []) r.names with
  | error e => rw [hp] at h; cases h
  | ok st =>
    rw [hp] at h
    match lh, hp, h with
    | [], _, h => cases h
    | [x], hp, h =>
      simp only [Except.ok.injEq, Prod.mk.injEq] at h
      obtain ⟨h1, h2, _⟩ := h
      left
      exact ⟨x, rfl, by rw [← h1]; exact hp, by rw [← h1, ← h2]⟩
    | [x, y], hp, h =>
      simp only at h
      cases hy : parseIntOrName y r.names with
      | error e => rw [hy] at h; cases h
      | ok en =>
        rw [hy] at h
        simp only [Except.ok.injEq, Prod.mk.injEq] at h
        obtain ⟨h1, h2, _⟩ := h
        right
        exact ⟨x, y, rfl, by rw [← h1]; exact hp, by rw [← h2]; exact hy⟩
    | _ :: _ :: _ :: _, _, h => cases h

theorem rangeStep_ok (ras : List (List Char)) (single : Bool) (r : Bounds)
    (endv extra step endv' extra' : Nat)
    (h : rangeStep ras single r endv extra = .ok (step, endv', extra')) :
    endv' = endv ∨ (single = true ∧ endv' = r.max) := by
  unfold rangeStep at h
  match ras, h with
  | [], h => cases h
  | [_], h =>
    simp only [Except.ok.injEq, Prod.mk.injEq] at h
    exact Or.inl h.2.1.symm
  | [_, stepText], h =>
    simp only at h
    cases hs : mustParseInt stepText with
    | error e => rw [hs] at h; cases h
    | ok st =>
      rw [hs] at h
      simp only [Except.ok.injEq, Prod.mk.injEq] at h
      cases single with
      | true => exact Or.inr ⟨rfl, by simpa using h.2.1.symm⟩
      | false => exact Or.inl (by simpa using h.2.1.symm)
  | _ :: _ :: _ :: _, h => cases h

/-- When `getRange` accepts an item that does not start with `*` or `?`, each of its
endpoints parses to a value within the bounds. -/
theorem getRange_ok_endpoints (expr : List Char) (r : Bounds) (bits : Nat)
    (h : getRange expr r = .ok bits)
    (hstar : (endpoints expr).headD [] ≠ ['*']) (hq : (endpoints expr).headD [] ≠ ['?']) :
    ∀ ep ∈ endpoints expr, ∃ n, parseIntOrName ep r.names = .ok n ∧ r.min ≤ n ∧ n ≤ r.max := by
  unfold getRange at h
  simp only at h
  cases he : rangeEnds (GoStr.split '-' ((GoStr.split '/' expr).headD [])) r with
  | error e => rw [he] at h; cases h
  | ok t =>
    obtain ⟨start, endv, extra⟩ := t
    rw [he] at h
    simp only at h
    cases hs : rangeStep (GoStr.split '/' expr)
        ((GoStr.split '-' ((GoStr.split '/' expr).headD [])).length == 1) r endv extra with
    | error e => rw [hs] at h; cases h
    | ok u =>
      obtain ⟨step, endv', extra'⟩ := u
      rw [hs] at h
      simp only at h
      by_cases c1 : start < r.min
      · rw [if_pos c1] at h; cases h
      · rw [if_neg c1] at h
        by_cases c2 : endv' > r.max
        · rw [if_pos c2] at h; cases h
        · rw [if_neg c2] at h
          by_cases c3 : start > endv'
          · rw [if_pos c3] at h; cases h
          · rw [if_neg c3] at h
            have hends := rangeEnds_ok _ r start endv extra he hstar hq
            have hstep := rangeStep_ok _ _ r endv extra step endv' extra' hs
            intro ep hep
            unfold endpoints at hep
            rcases hends with ⟨x, hx, hpx, hse⟩ | ⟨x, y, hxy, hpx, hpy⟩
            · rw [hx] at hep
              simp only [List.mem_singleton] at hep
              subst hep
              exact ⟨start, hpx, by omega, by omega⟩
            · rw [hxy] at hep hstep
              simp only [List.mem_cons, List.mem_singleton, List.not_mem_nil, or_false] at hep
              have hend : endv' = endv := by
                rcases hstep with hstep | ⟨hsingle, _⟩
                · exact hstep
                · simp at hsingle
              rcases hep with hep | hep
              · subst hep
                exact ⟨start, hpx, by omega, by omega⟩
              · subst hep
                exact ⟨endv, hpy, by omega, by omega⟩

theorem getFieldLoop_ok (r : Bounds) (items : List (List Char)) (bits b : Nat)
    (h : getFieldLoop r items bits = .ok b) :
    ∀ item ∈ items, ∃ b', getRange item r = .ok b' := by
  induction items generalizing bits with
  | nil => intro item hitem; cases hitem
  | cons x rest ih =>
    unfold getFieldLoop at h
    cases hx : getRange x r with
    | error e => rw [hx] at h; cases h
    | ok bit =>
      rw [hx] at h
      intro item hitem
      rcases List.mem_cons.mp hitem with rfl | hmem
      · exact ⟨bit, hx⟩
      · exact ih _ h item hmem

/-- An item out of range makes `getField` fail, for a name table of letters. -/
theorem getField_of_outOfRange (field item : List Char) (r : Bounds)
    (hn : namesStartWithLetter r.names = true)
    (hitem : item ∈ GoStr.fieldsFunc (· = ',') field) (hout : OutOfRange item r) :
    ∃ e, getField field r = .error e := by
  cases hg : getField field r with
  | error e => exact ⟨e, rfl⟩
  | ok b =>
    exfalso
    obtain ⟨b', hb'⟩ := getFieldLoop_ok r _ 0 b hg item hitem
    obtain ⟨hstar, hq, ds, hds, v, ⟨hne, hval⟩, hv⟩ := hout
    obtain ⟨n, hparse, hmin, hmax⟩ := getRange_ok_endpoints item r b' hb' hstar hq ds hds
    cases ds with
    | nil => exact hne rfl
    | cons c cs =>
      have := parseIntOrName_of_digits r.names c cs v n hn hval hparse
      omega

theorem normalizeFields_standard (fs : List (List Char)) :
    normalizeFields fs standardOptions =
      if fs.length = 5 then .ok (['0'] :: fs) else .error (.fieldCount 5 5 fs.length) := by
  have hso : ¬ (standardOptions &&& SecondOptional > 0) := by decide
  have hdo : ¬ (standardOptions &&& DowOptional > 0) := by decide
  have hmax : (places.filter (fun place => decide (standardOptions &&& place > 0))).length = 5 := by
    decide
  unfold normalizeFields
  simp only [hso, hdo, decide_False, Bool.false_eq_true, if_false, hmax, add_zero,
    Nat.sub_zero, gt_iff_lt, Nat.lt_irrefl, false_and]
  by_cases h5 : fs.length = 5
  · have hc : ¬ (fs.length < 5 ∨ 5 < fs.length) := by omega
    rw [if_neg (by omega), if_neg hc, if_pos h5]
    match fs, h5 with
    | [a, b, c, d, e], _ => rfl
  · have hc : fs.length < 5 ∨ 5 < fs.length := by omega
    rw [if_neg (by omega), if_pos hc, if_neg h5]

theorem parseFields_ok (fs : List (List Char)) (loc : Location) (sch : Schedule)
    (h : parseFields fs loc = .ok sch) :
    (∃ b, getField (fs.getD 1 []) minutes = .ok b) ∧
    (∃ b, getField (fs.getD 2 []) hours = .ok b) ∧
    (∃ b, getField (fs.getD 3 []) dom = .ok b) ∧
    (∃ b, getField (fs.getD 4 []) months = .ok b) ∧
    (∃ b, getField (fs.getD 5 []) dow = .ok b) := by
  unfold parseFields at h
  simp only [bind, Except.bind] at h
  cases h0 : getField (fs.getD 0 []) seconds with
  | error e => rw [h0] at h; cases h
  | ok b0 =>
  rw [h0] at h
  simp only at h
  cases h1 : getField (fs.getD 1 []) minutes with
  | error e => rw [h1] at h; cases h
  | ok b1 =>
  rw [h1] at h
  simp only at h
  cases h2 : getField (fs.getD 2 []) hours with
  | error e => rw [h2] at h; cases h
  | ok b2 =>
  rw [h2] at h
  simp only at h
  cases h3 : getField (fs.getD 3 []) dom with
  | error e => rw [h3] at h; cases h
  | ok b3 =>
  rw [h3] at h
  simp only at h
  cases h4 : getField (fs.getD 4 []) months with
  | error e => rw [h4] at h; cases h
  | ok b4 =>
  rw [h4] at h
  simp only at h
  cases h5 : getField (fs.getD 5 []) dow with
  | error e => rw [h5] at h; cases h
  | ok b5 => exact ⟨⟨_, rfl⟩, ⟨_, rfl⟩, ⟨_, rfl⟩, ⟨_, rfl⟩, ⟨_, rfl⟩⟩

theorem standardBounds_names (i : Nat) :
    namesStartWithLetter (standardBounds i).names = true := by
  match i with
  | 0 => decide
  | 1 => decide
  | 2 => decide
  | 3 => decide
  | _ + 4 =>
    show namesStartWithLetter dow.names = true
    decide

theorem index_of_mem (c : Char) (s : List Char) (h : c ∈ s) :
    ∃ i, GoStr.index c s = some i := by
  induction s with
  | nil => cases h
  | cons d ds ih =>
    unfold GoStr.index
    by_cases hd : d = c
    · exact ⟨0, by rw [if_pos hd]⟩
    · rw [if_neg hd]
      rcases List.mem_cons.mp h with rfl | hmem
      · exact absurd rfl hd
      · obtain ⟨i, hi⟩ := ih hmem
        exact ⟨i + 1, by rw [hi]; rfl⟩

theorem index_eq_of_zone_prefix (spec : List Char)
    (h : GoStr.hasPrefix spec "TZ=".toList = true ∨ GoStr.hasPrefix spec "CRON_TZ=".toList = true) :
    ∃ eq, GoStr.index '=' spec = some eq := by
  apply index_of_mem
  rcases h with h | h
  · exact (List.isPrefixOf_iff_prefix.mp h).subset (by decide)
  · exact (List.isPrefixOf_iff_prefix.mp h).subset (by decide)

/-- What `ParseStandard` does on a list of fields: it fails on the empty spec or on the
zone of the prefix, or else checks the number of fields and parses them. -/
theorem ParseStandard_of_fields (host : Host) (spec : List Char) (fs : List (List Char))
    (h : FieldsOf spec fs) :
    ParseStandard host spec = .error .emptySpec ∨
    ParseStandard host spec = .error .badLocation ∨
    ∃ loc, ParseStandard host spec =
      match normalizeFields fs standardOptions with
      | .error e => .error e
      | .ok fs' => Result.ofExcept (parseFields fs' loc) := by
  obtain ⟨body, hbody, hat, hfs⟩ := h
  have hpb : ∀ loc, Result.ofExcept (parseBody host standardOptions body loc) =
      match normalizeFields fs standardOptions with
      | .error e => .error e
      | .ok fs' => Result.ofExcept (parseFields fs' loc) := by
    intro loc
    unfold parseBody
    simp only [hat, Bool.false_eq_true, if_false, hfs]
    cases normalizeFields fs standardOptions <;> rfl
  unfold ParseStandard Parse
  by_cases h0 : spec.length = 0
  · left
    rw [if_pos h0]
  · rw [if_neg h0]
    unfold specBody at hbody
    by_cases hz : GoStr.hasPrefix spec "TZ=".toList = true ∨
        GoStr.hasPrefix spec "CRON_TZ=".toList = true
    · rw [if_pos hz] at hbody ⊢
      obtain ⟨eq, heq⟩ := index_eq_of_zone_prefix spec hz
      cases hi : GoStr.index ' ' spec with
      | none => rw [hi] at hbody; cases hbody
      | some i =>
        rw [hi] at hbody
        simp only [Option.map_some', Option.some.injEq] at hbody
        rw [heq]
        simp only
        cases hl : host.loadLocation (List.drop (eq + 1) (List.take i spec)) with
        | none => right; left; rfl
        | some loc =>
          right; right
          refine ⟨loc, ?_⟩
          simp only
          rw [hbody]
          exact hpb loc
    · rw [if_neg hz] at hbody ⊢
      simp only [Option.some.injEq] at hbody
      right; right
      refine ⟨.Local, ?_⟩
      rw [hbody]
      exact hpb .Local

/-- On a list of fields the parser asks nothing of the host: the zone database and the
duration parser are reached only through a `TZ=`/`CRON_TZ=` prefix or a descriptor. -/
theorem Parse_plain_host_irrelevant (host host' : Host) (options : Nat) (spec : List Char)
    (hplain : PlainFields spec) : Parse host options spec = Parse host' options spec := by
  obtain ⟨h1, h2, h3⟩ := hplain
  unfold Parse parseBody
  simp only [h1, h2, h3, Bool.false_eq_true, or_self, if_false]

end Cron

namespace Scheduler

open Cron

/-- What `ValidateCronExpression` does reject: for an expression that is a list of
fields `fs` (not a `@` descriptor; a `TZ=`/`CRON_TZ=` prefix with a space after it may
precede the fields), it returns an error when the number of fields is not five, and
when a field has an item that does not start with `*` or `?` and has a numeral
endpoint below the least or above the greatest value of that field; and it returns
an error for "not a cron". -/
theorem validate_rejects_bad_expressions (host : Host) (expression : String)
    (fs : List (List Char)) (hfields : FieldsOf expression.toList fs) :
    (fs.length ≠ 5 → ∃ e, ValidateCronExpression host expression = .error e) ∧
    (∀ i, i < 5 → ∀ item ∈ GoStr.fieldsFunc (· = ',') (fs.getD i []),
      OutOfRange item (standardBounds i) →
      ∃ e, ValidateCronExpression host expression = .error e) ∧
    ValidateCronExpression host "not a cron" = .error (.fieldCount 5 5 3) := by
  have hshape := ParseStandard_of_fields host expression.toList fs hfields
  have hcount : fs.length ≠ 5 → ∃ e, ValidateCronExpression host expression = .error e := by
    intro hlen
    unfold ValidateCronExpression
    rcases hshape with h | h | ⟨loc, h⟩
    · exact ⟨_, by rw [h]⟩
    · exact ⟨_, by rw [h]⟩
    · rw [h, normalizeFields_standard, if_neg hlen]
      exact ⟨_, rfl⟩
  refine ⟨hcount, ?_, ?_⟩
  · intro i hi item hitem hout
    by_cases hlen : fs.length = 5
    · have hfield : ∃ e, getField (fs.getD i []) (standardBounds i) = .error e :=
        getField_of_outOfRange _ item _ (standardBounds_names i) hitem hout
      unfold ValidateCronExpression
      rcases hshape with h | h | ⟨loc, h⟩
      · exact ⟨_, by rw [h]⟩
      · exact ⟨_, by rw [h]⟩
      · rw [h, normalizeFields_standard, if_pos hlen]
        simp only
        cases hp : parseFields (['0'] :: fs) loc with
        | error e => exact ⟨e, rfl⟩
        | ok sch =>
          exfalso
          obtain ⟨e, he⟩ := hfield
          obtain ⟨⟨b0, m0⟩, ⟨b1, m1⟩, ⟨b2, m2⟩, ⟨b3, m3⟩, ⟨b4, m4⟩⟩ := parseFields_ok _ _ _ hp
          match i, hi with
          | 0, _ => exact absurd (he.symm.trans m0) (by simp)
          | 1, _ => exact absurd (he.symm.trans m1) (by simp)
          | 2, _ => exact absurd (he.symm.trans m2) (by simp)
          | 3, _ => exact absurd (he.symm.trans m3) (by simp)
          | 4, _ => exact absurd (he.symm.trans m4) (by simp)
    · exact hcount hlen
  · rfl

/-- The expression "60 * * * *" is rejected: minute 60 is above the greatest minute. -/
theorem validate_rejects_bad_expressions_witness :
    ∃ e, ValidateCronExpression exampleHost "60 * * * *" = .error e :=
  (validate_rejects_bad_expressions exampleHost "60 * * * *"
    (GoStr.fields "60 * * * *".toList)
    ⟨"60 * * * *".toList, by decide, by decide, rfl⟩).2.1 0 (by decide)
    "60".toList (by decide)
    ⟨by decide, by decide, "60".toList, by decide, 60, ⟨by decide, by decide⟩, Or.inr (by decide)⟩

end Scheduler

namespace Scheduler

open Cron

/-! ### The queries and Stop -/

theorem Registry.mem_keys_iff (m : Registry) (k : ObjectID) :
    k ∈ m.map Prod.fst ↔ (Registry.get m k).isSome = true := by
  induction m with
  | nil => simp [Registry.get]
  | cons p m ih =>
    obtain ⟨a, b⟩ := p
    simp only [Registry.get] at ih
    by_cases h : k = a
    · subst h
      simp [Registry.get, List.lookup]
    · have hk : (k == a) = false := by simpa using h
      simp only [List.map_cons, List.mem_cons, h, false_or, Registry.get, List.lookup, hk]
      exact ih

theorem Registry.not_mem_keys_delete (m : Registry) (k : ObjectID) :
    k ∉ (Registry.delete m k).map Prod.fst := by
  rw [Registry.mem_keys_iff, Registry.get_delete_self]
  simp

theorem Registry.wellFormed_delete (m : Registry) (k : ObjectID) (h : Registry.WellFormed m) :
    Registry.WellFormed (Registry.delete m k) := by
  unfold Registry.WellFormed Registry.delete at *
  exact (List.filter_sublist m).map Prod.fst |>.nodup h

theorem Registry.wellFormed_set (m : Registry) (k : ObjectID) (v : ScheduledTask)
    (h : Registry.WellFormed m) : Registry.WellFormed (Registry.set m k v) := by
  have hd := Registry.wellFormed_delete m k h
  have hn := Registry.not_mem_keys_delete m k
  unfold Registry.WellFormed at *
  simp only [Registry.set, List.map_cons, List.nodup_cons]
  exact ⟨hn, hd⟩

theorem Registry.wellFormed_map_update (m : Registry) (k : ObjectID)
    (g : ScheduledTask → ScheduledTask) (h : Registry.WellFormed m) :
    Registry.WellFormed (m.map (fun p => if p.1 = k then (p.1, g p.2) else p)) := by
  unfold Registry.WellFormed at *
  rw [List.map_map]
  have : (Prod.fst ∘ fun p : ObjectID × ScheduledTask => if p.1 = k then (p.1, g p.2) else p) =
      Prod.fst := by
    funext p
    by_cases hp : p.1 = k <;> simp [hp]
  rw [this]
  exact h

/-- In every reachable state the registry is a map. -/
theorem reachable_wellFormed (host : Host) (s : Scheduler) (heap : Heap)
    (h : Reachable host s heap) : Registry.WellFormed s.tasks := by
  induction h with
  | init heap => simp [New, Registry.WellFormed]
  | setExecutor _ ih => exact ih
  | @start s heap now _ ih =>
    unfold Start
    by_cases hr : s.running = true
    · simpa [hr] using ih
    · simpa [hr] using ih
  | @stop s heap _ ih =>
    unfold Stop
    by_cases hr : s.running = true
    · simpa [hr] using ih
    · simpa [hr] using ih
  | @addTask s heap now task _ ih =>
    cases hp : Parse host s.cron.parser (heap task).CronConfig.Expression.toList with
    | ok sch =>
      obtain ⟨e, nextRun, _, _, _, heq⟩ := AddTask_of_ok host now heap s task sch hp
      rw [heq]
      exact Registry.wellFormed_set _ _ _ ih
    | error err =>
      have hno : ∀ sch, Parse host s.cron.parser (heap task).CronConfig.Expression.toList ≠
          .ok sch := by intro sch; rw [hp]; simp
      rw [(AddTask_of_not_ok host now heap s task hno).1]
      exact ih
    | panic =>
      have hno : ∀ sch, Parse host s.cron.parser (heap task).CronConfig.Expression.toList ≠
          .ok sch := by intro sch; rw [hp]; simp
      rw [(AddTask_of_not_ok host now heap s task hno).1]
      exact ih
  | @removeTask s heap taskID _ ih =>
    unfold RemoveTask
    cases hg : Registry.get s.tasks taskID with
    | none =>
      have hg' : s.tasks.get taskID = none := hg
      simpa [hg'] using ih
    | some st =>
      have hg' : s.tasks.get taskID = some st := hg
      simp only [hg']
      exact Registry.wellFormed_delete _ _ ih
  | tick now _ ih => exact ih
  | @execute s heap clock execute task _ ih =>
    unfold executeTask
    simp only [executedTask_ID]
    cases hg : Registry.get s.tasks (heap task).ID with
    | none =>
      have hg' : s.tasks.get (heap task).ID = none := hg
      simpa [hg'] using ih
    | some st =>
      have hg' : s.tasks.get (heap task).ID = some st := hg
      simp only [hg']
      exact Registry.wellFormed_map_update s.tasks (heap task).ID
        (fun st' => { st' with NextRun := (s.cron.Entry st.EntryID).Next }) ih
  | write heap' _ _ ih => exact ih

/-- C13: in every reachable state and for every ID, `GetTaskNextRun` is nil exactly
when `IsTaskScheduled` is false, and otherwise it is the `NextRun` of the registry
entry of the ID; and `GetActiveJobCount` is the number of IDs for which
`IsTaskScheduled` is true: every list that names each such ID once has that length,
and the registry's keys are such a list. -/
theorem queries_read_the_registry (host : Host) (s : Scheduler) (heap : Heap)
    (taskID : ObjectID) (hreach : Reachable host s heap) :
    (s.GetTaskNextRun taskID = none ↔ s.IsTaskScheduled taskID = false) ∧
    (∀ st, Registry.get s.tasks taskID = some st →
      s.IsTaskScheduled taskID = true ∧ s.GetTaskNextRun taskID = some st.NextRun) ∧
    (∀ ids : List ObjectID, ids.Nodup → (∀ id, id ∈ ids ↔ s.IsTaskScheduled id = true) →
      ids.length = s.GetActiveJobCount) ∧
    ((s.tasks.map Prod.fst).Nodup ∧
      ∀ id, id ∈ s.tasks.map Prod.fst ↔ s.IsTaskScheduled id = true) := by
  have hwf := reachable_wellFormed host s heap hreach
  have hkeys : ∀ id, id ∈ s.tasks.map Prod.fst ↔ s.IsTaskScheduled id = true :=
    fun id => Registry.mem_keys_iff s.tasks id
  refine ⟨?_, ?_, ?_, hwf, hkeys⟩
  · unfold GetTaskNextRun IsTaskScheduled
    cases Registry.get s.tasks taskID <;> simp [Registry.get]
  · intro st hst
    have hst' : s.tasks.get taskID = some st := hst
    simp [GetTaskNextRun, IsTaskScheduled, hst']
  · intro ids hnd hids
    have hperm : ids.Perm (s.tasks.map Prod.fst) :=
      (List.perm_ext_iff_of_nodup hnd hwf).mpr (fun id => (hids id).trans (hkeys id).symm)
    rw [hperm.length_eq]
    simp [GetActiveJobCount]

/-- C13 at the example scheduler with one scheduled task. -/
theorem queries_read_the_registry_witness :
    [7].length = scheduledOnce.GetActiveJobCount :=
  (queries_read_the_registry exampleHost scheduledOnce exampleHeap 7
    (Reachable.addTask noon 1 (Reachable.start noon (Reachable.init exampleHeap)))).2.2.1 [7]
    (by decide) (by
      intro id
      have ht : scheduledOnce.tasks = [(7, ⟨1, 1, 63840916860000000000⟩)] := by decide
      by_cases h : id = 7
      · subst h; decide
      · have h' : (id == 7) = false := by simpa using h
        unfold IsTaskScheduled
        rw [ht]
        simp [h, Registry.get, List.lookup, h'])

/-- C14 (counterexample): the example scheduler is running with ID 7 scheduled; after
`Stop` it is reported as not running, and ID 7 is still scheduled. -/
theorem Stop_keeps_the_registry :
    scheduledOnce.IsRunning = true ∧ scheduledOnce.Stop.IsRunning = false ∧
    scheduledOnce.Stop.IsTaskScheduled 7 = true ∧ scheduledOnce.Stop.GetActiveJobCount = 1 := by
  decide

/-- C14 (amended): `Stop` stops the engine and leaves the registry and the engine's
entries as they are: afterwards the scheduler is reported as not running, and
`GetActiveJobCount` and `IsTaskScheduled` for every ID answer as before. -/
theorem Stop_stops_the_engine_only (s : Scheduler) :
    s.Stop.IsRunning = false ∧ s.Stop.tasks = s.tasks ∧
    s.Stop.cron.entries = s.cron.entries ∧
    s.Stop.GetActiveJobCount = s.GetActiveJobCount ∧
    ∀ taskID, s.Stop.IsTaskScheduled taskID = s.IsTaskScheduled taskID := by
  unfold Stop
  by_cases hr : s.running = true
  · simp [hr, IsRunning, GetActiveJobCount, IsTaskScheduled, Cron.Stop]
  · simp [hr, IsRunning, GetActiveJobCount, IsTaskScheduled]

end Scheduler

namespace Scheduler

open Cron

/-! ### The next run an execution stores -/

theorem Entry_of_first {J : Type} (c : Cron J) (id : Int) (pre post : List (Entry J))
    (e : Entry J) (hsplit : c.entries = pre ++ e :: post) (hid : e.ID = id)
    (hpre : ∀ x ∈ pre, x.ID ≠ id) : c.Entry id = e := by
  unfold Cron.Cron.Entry
  rw [hsplit, List.find?_append]
  have hnone : pre.find? (fun x => decide (id = x.ID)) = none := by
    rw [List.find?_eq_none]
    intro x hx
    simpa using fun h => hpre x hx h.symm
  rw [hnone]
  simp [hid]

theorem Entry_of_none {J : Type} (c : Cron J) (id : Int)
    (hnone : ∀ x ∈ c.entries, x.ID ≠ id) : c.Entry id = Entry.zero J := by
  unfold Cron.Cron.Entry
  have : c.entries.find? (fun x => decide (id = x.ID)) = none := by
    rw [List.find?_eq_none]
    intro x hx
    simpa using fun h => hnone x hx h.symm
  rw [this]
  rfl

/-- C11: after an execution of a task whose ID has a registry entry, whatever the
executor answered (and also with no executor set), the engine is as before, the
registry entry of the ID keeps its task and handle and stores the engine's `Next` for
that handle, `GetTaskNextRun` reports that value, and the task's `NextRun` is that
value.  The engine's `Next` for a handle is the `Next` of the engine's entry that bears
the handle (the first one in the engine's list, were there several): that is the value
stored; when no entry bears the handle, the zero time is stored. -/
theorem executeTask_stores_next_run (s : Scheduler) (heap : Heap) (clock : Clock)
    (execute : Context → Bool) (task : Ptr) (st : ScheduledTask)
    (hst : Registry.get s.tasks (heap task).ID = some st) :
    (s.executeTask heap clock execute task).sched.cron = s.cron ∧
    Registry.get (s.executeTask heap clock execute task).sched.tasks (heap task).ID =
      some ⟨st.Task, st.EntryID,
        ((s.executeTask heap clock execute task).sched.cron.Entry st.EntryID).Next⟩ ∧
    (s.executeTask heap clock execute task).sched.GetTaskNextRun (heap task).ID =
      some ((s.executeTask heap clock execute task).sched.cron.Entry st.EntryID).Next ∧
    ((s.executeTask heap clock execute task).heap task).NextRun =
      some ((s.executeTask heap clock execute task).sched.cron.Entry st.EntryID).Next ∧
    (∀ (pre post : List (Entry Ptr)) (e : Entry Ptr), s.cron.entries = pre ++ e :: post →
      e.ID = st.EntryID → (∀ x ∈ pre, x.ID ≠ st.EntryID) →
      Registry.get (s.executeTask heap clock execute task).sched.tasks (heap task).ID =
        some ⟨st.Task, st.EntryID, e.Next⟩ ∧
      (s.executeTask heap clock execute task).sched.GetTaskNextRun (heap task).ID =
        some e.Next ∧
      ((s.executeTask heap clock execute task).heap task).NextRun = some e.Next) ∧
    ((∀ x ∈ s.cron.entries, x.ID ≠ st.EntryID) →
      (s.executeTask heap clock execute task).sched.GetTaskNextRun (heap task).ID = some 0 ∧
      ((s.executeTask heap clock execute task).heap task).NextRun = some 0) := by
  have hst' : s.tasks.get (heap task).ID = some st := hst
  have hget := Registry.get_map_update s.tasks (heap task).ID (heap task).ID
    (fun st' => { st' with NextRun := (s.cron.Entry st.EntryID).Next })
  simp only [if_true, hst, Option.map_some'] at hget
  have h1 : (s.executeTask heap clock execute task).sched.cron = s.cron := by
    unfold executeTask
    simp only [executedTask_ID, hst']
  have h2 : Registry.get (s.executeTask heap clock execute task).sched.tasks (heap task).ID =
      some ⟨st.Task, st.EntryID, (s.cron.Entry st.EntryID).Next⟩ := by
    unfold executeTask
    simp only [executedTask_ID, hst']
    exact hget
  have h3 : (s.executeTask heap clock execute task).sched.GetTaskNextRun (heap task).ID =
      some (s.cron.Entry st.EntryID).Next := by
    unfold GetTaskNextRun
    show Option.map _ (Registry.get _ _) = _
    rw [h2]
    rfl
  have h4 : ((s.executeTask heap clock execute task).heap task).NextRun =
      some (s.cron.Entry st.EntryID).Next := by
    unfold executeTask
    simp [executedTask_ID, hst']
  rw [h1]
  refine ⟨rfl, h2, h3, h4, ?_, ?_⟩
  · intro pre post e hsplit hid hpre
    have he := Entry_of_first s.cron st.EntryID pre post e hsplit hid hpre
    rw [he] at h2 h3 h4
    exact ⟨h2, h3, h4⟩
  · intro hnone
    have he := Entry_of_none s.cron st.EntryID hnone
    rw [he] at h3 h4
    exact ⟨h3, h4⟩

/-- C11 at the example scheduler in which task 1 was added before `Start`: the engine's
entry with handle 1 has the next activation 12:01:00, the registry still holds the zero
time stored by `AddTask`, and after an execution `GetTaskNextRun` and the task record
report 12:01:00. -/
theorem executeTask_stores_next_run_witness :
    addedThenStarted.cron.entries.map (fun e => (e.ID, e.Next)) =
      [(1, date 2024 1 15 12 1 0 0 0)] ∧
    addedThenStarted.GetTaskNextRun 7 = some 0 ∧
    (addedThenStarted.executeTask exampleHeap exampleClock (fun _ => true) 1).sched.GetTaskNextRun
        (exampleHeap 1).ID = some (date 2024 1 15 12 1 0 0 0) ∧
    ((addedThenStarted.executeTask exampleHeap exampleClock (fun _ => true) 1).heap 1).NextRun =
      some (date 2024 1 15 12 1 0 0 0) :=
  have h := (executeTask_stores_next_run addedThenStarted exampleHeap exampleClock
    (fun _ => true) 1 ⟨1, 1, 0⟩ (by decide)).2.2.2.2.1 []  []
    ⟨1, addedThenStarted.cron.entries.head?.bind (fun e => e.Schedule),
      date 2024 1 15 12 1 0 0 0, 0, some 1⟩ (by decide) rfl (by simp)
  ⟨by decide, by decide, h.2.1, h.2.2⟩

end Scheduler

namespace Cron

/-! ### The calendar and the schedule of `0 * * * * *` -/

theorem yday_bounds (days d n100 d1 n4 d2 n1 d3 year : Int)
    (hd : d = days % 146097) (h100 : n100 = d / 36524 - d / 36524 / 4)
    (hd1 : d1 = d - 36524 * n100) (h4 : n4 = d1 / 1461) (hd2 : d2 = d1 - 1461 * n4)
    (h1 : n1 = d2 / 365 - d2 / 365 / 4) (hd3 : d3 = d2 - 365 * n1)
    (hy : year = 400 * (days / 146097) + 100 * n100 + 4 * n4 + n1 + 1) :
    0 ≤ d3 ∧ d3 ≤ 365 ∧ (d3 = 365 → year % 4 = 0 ∧ (year % 100 ≠ 0 ∨ year % 400 = 0)) := by
  have a1 : 0 ≤ d ∧ d < 146097 := by omega
  have a2 : 0 ≤ n100 ∧ n100 ≤ 3 := by omega
  have a3 : 0 ≤ d1 ∧ d1 ≤ 36524 ∧ (d1 = 36524 → n100 = 3) := by omega
  have a4 : 0 ≤ n4 ∧ n4 ≤ 24 := by omega
  have a5 : 0 ≤ d2 ∧ d2 ≤ 1460 ∧ (n4 = 24 → d2 = 1460 → d1 = 36524) := by omega
  have a6 : 0 ≤ n1 ∧ n1 ≤ 3 := by omega
  have a7 : 0 ≤ d3 ∧ d3 ≤ 365 ∧ (d3 = 365 → n1 = 3 ∧ d2 = 1460) := by omega
  refine ⟨a7.1, a7.2.1, ?_⟩
  intro h365
  obtain ⟨hn1, hd2'⟩ := a7.2.2 h365
  have hy4 : year = 400 * (days / 146097) + 100 * n100 + 4 * n4 + 4 := by omega
  refine ⟨by omega, ?_⟩
  by_cases h24 : n4 = 24
  · right
    have := a3.2.2 (a5.2.2 h24 hd2')
    omega
  · left
    omega

end Cron

namespace Cron

theorem month_of_yday (day : Int) (h0 : 0 ≤ day) (h1 : day ≤ 364) :
    (day ≥ daysBefore.getD (day / 31 + 1).toNat 0 →
      day / 31 + 2 ≤ 12 ∧ 1 ≤ day - daysBefore.getD (day / 31 + 1).toNat 0 + 1 ∧
      day - daysBefore.getD (day / 31 + 1).toNat 0 + 1 ≤ 31) ∧
    (¬ day ≥ daysBefore.getD (day / 31 + 1).toNat 0 →
      1 ≤ day - daysBefore.getD (day / 31).toNat 0 + 1 ∧
      day - daysBefore.getD (day / 31).toNat 0 + 1 ≤ 31) := by
  have hq0 : 0 ≤ day / 31 ∧ day / 31 ≤ 11 := by omega
  generalize hq : day / 31 = q at *
  obtain ⟨hq1, hq2⟩ := hq0
  interval_cases q <;> simp [daysBefore] <;> omega

theorem monthDay_bounds (year d : Int) (h0 : 0 ≤ d) (h1 : d ≤ 365)
    (hleap : d = 365 → isLeap year = true) :
    1 ≤ (if isLeap year ∧ d = 31 + 29 - 1 then (year, (2 : Int), (29 : Int))
      else
        if (if isLeap year ∧ d > 31 + 29 - 1 then d - 1 else d) ≥
            daysBefore.getD ((if isLeap year ∧ d > 31 + 29 - 1 then d - 1 else d) / 31 + 1).toNat 0
        then (year, (if isLeap year ∧ d > 31 + 29 - 1 then d - 1 else d) / 31 + 2,
          (if isLeap year ∧ d > 31 + 29 - 1 then d - 1 else d) -
            daysBefore.getD ((if isLeap year ∧ d > 31 + 29 - 1 then d - 1 else d) / 31 + 1).toNat 0
            + 1)
        else (year, (if isLeap year ∧ d > 31 + 29 - 1 then d - 1 else d) / 31 + 1,
          (if isLeap year ∧ d > 31 + 29 - 1 then d - 1 else d) -
            daysBefore.getD ((if isLeap year ∧ d > 31 + 29 - 1 then d - 1 else d) / 31).toNat 0
            + 1)).2.1 ∧
    (if isLeap year ∧ d = 31 + 29 - 1 then (year, (2 : Int), (29 : Int))
      else
        if (if isLeap year ∧ d > 31 + 29 - 1 then d - 1 else d) ≥
            daysBefore.getD ((if isLeap year ∧ d > 31 + 29 - 1 then d - 1 else d) / 31 + 1).toNat 0
        then (year, (if isLeap year ∧ d > 31 + 29 - 1 then d - 1 else d) / 31 + 2,
          (if isLeap year ∧ d > 31 + 29 - 1 then d - 1 else d) -
            daysBefore.getD ((if isLeap year ∧ d > 31 + 29 - 1 then d - 1 else d) / 31 + 1).toNat 0
            + 1)
        else (year, (if isLeap year ∧ d > 31 + 29 - 1 then d - 1 else d) / 31 + 1,
          (if isLeap year ∧ d > 31 + 29 - 1 then d - 1 else d) -
            daysBefore.getD ((if isLeap year ∧ d > 31 + 29 - 1 then d - 1 else d) / 31).toNat 0
            + 1)).2.1 ≤ 12 ∧
    1 ≤ (if isLeap year ∧ d = 31 + 29 - 1 then (year, (2 : Int), (29 : Int))
      else
        if (if isLeap year ∧ d > 31 + 29 - 1 then d - 1 else d) ≥
            daysBefore.getD ((if isLeap year ∧ d > 31 + 29 - 1 then d - 1 else d) / 31 + 1).toNat 0
        then (year, (if isLeap year ∧ d > 31 + 29 - 1 then d - 1 else d) / 31 + 2,
          (if isLeap year ∧ d > 31 + 29 - 1 then d - 1 else d) -
            daysBefore.getD ((if isLeap year ∧ d > 31 + 29 - 1 then d - 1 else d) / 31 + 1).toNat 0
            + 1)
        else (year, (if isLeap year ∧ d > 31 + 29 - 1 then d - 1 else d) / 31 + 1,
          (if isLeap year ∧ d > 31 + 29 - 1 then d - 1 else d) -
            daysBefore.getD ((if isLeap year ∧ d > 31 + 29 - 1 then d - 1 else d) / 31).toNat 0
            + 1)).2.2 ∧
    (if isLeap year ∧ d = 31 + 29 - 1 then (year, (2 : Int), (29 : Int))
      else
        if (if isLeap year ∧ d > 31 + 29 - 1 then d - 1 else d) ≥
            daysBefore.getD ((if isLeap year ∧ d > 31 + 29 - 1 then d - 1 else d) / 31 + 1).toNat 0
        then (year, (if isLeap year ∧ d > 31 + 29 - 1 then d - 1 else d) / 31 + 2,
          (if isLeap year ∧ d > 31 + 29 - 1 then d - 1 else d) -
            daysBefore.getD ((if isLeap year ∧ d > 31 + 29 - 1 then d - 1 else d) / 31 + 1).toNat 0
            + 1)
        else (year, (if isLeap year ∧ d > 31 + 29 - 1 then d - 1 else d) / 31 + 1,
          (if isLeap year ∧ d > 31 + 29 - 1 then d - 1 else d) -
            daysBefore.getD ((if isLeap year ∧ d > 31 + 29 - 1 then d - 1 else d) / 31).toNat 0
            + 1)).2.2 ≤ 31 := by
  have hday : 0 ≤ (if isLeap year ∧ d > 31 + 29 - 1 then d - 1 else d) ∧
      (if isLeap year ∧ d > 31 + 29 - 1 then d - 1 else d) ≤ 364 := by
    by_cases hl : isLeap year = true
    · by_cases hd : d > 31 + 29 - 1
      · rw [if_pos ⟨hl, hd⟩]; omega
      · rw [if_neg (fun h => hd h.2)]; omega
    · rw [if_neg (fun h => hl h.1)]
      have : d ≠ 365 := fun h => hl (hleap h)
      omega
  generalize (if isLeap year ∧ d > 31 + 29 - 1 then d - 1 else d) = day at hday ⊢
  obtain ⟨hm1, hm2⟩ := month_of_yday day hday.1 hday.2
  by_cases hfeb : isLeap year ∧ d = 31 + 29 - 1
  · rw [if_pos hfeb]
    simp
  · rw [if_neg hfeb]
    by_cases hge : day ≥ daysBefore.getD (day / 31 + 1).toNat 0
    · rw [if_pos hge]
      have := hm1 hge
      have hq : 0 ≤ day / 31 := by omega
      exact ⟨by show 1 ≤ day / 31 + 2; omega, this.1, this.2.1, this.2.2⟩
    · rw [if_neg hge]
      have := hm2 hge
      have hq : 0 ≤ day / 31 ∧ day / 31 ≤ 11 := by omega
      exact ⟨by show 1 ≤ day / 31 + 1; omega, by show day / 31 + 1 ≤ 12; omega, this.1, this.2⟩

theorem civil_bounds (days : Int) :
    1 ≤ (civil days).2.1 ∧ (civil days).2.1 ≤ 12 ∧
    1 ≤ (civil days).2.2 ∧ (civil days).2.2 ≤ 31 := by
  obtain ⟨hd0, hd1, hleap⟩ := yday_bounds days _ _ _ _ _ _ _ _ rfl rfl rfl rfl rfl rfl rfl rfl
  have hleap' := fun h => (by
    have := hleap h
    unfold isLeap
    simpa using this : isLeap _ = true)
  exact monthDay_bounds _ _ hd0 hd1 hleap'

end Cron

namespace Cron

theorem parse_everyMinute (host : Host) :
    Parse host withSecondsOptions "0 * * * * *".toList = .ok (.spec everyMinute) := by
  rw [Parse_plain_host_irrelevant host ⟨fun _ => none, fun _ => none, 0⟩ _ _
    ⟨by decide, by decide, by decide⟩]
  decide

theorem bitSet_minute (i : Int) (h0 : 0 ≤ i) (h1 : i ≤ 59) : bitSet i (all minutes) = true := by
  interval_cases i <;> decide

theorem bitSet_hour (i : Int) (h0 : 0 ≤ i) (h1 : i ≤ 23) : bitSet i (all hours) = true := by
  interval_cases i <;> decide

theorem bitSet_dom (i : Int) (h0 : 1 ≤ i) (h1 : i ≤ 31) : bitSet i (all dom) = true := by
  interval_cases i <;> decide

theorem bitSet_month (i : Int) (h0 : 1 ≤ i) (h1 : i ≤ 12) : bitSet i (all months) = true := by
  interval_cases i <;> decide

theorem bitSet_dow (i : Int) (h0 : 0 ≤ i) (h1 : i ≤ 6) : bitSet i (all dow) = true := by
  interval_cases i <;> decide

theorem bitSet_second_zero (i : Int) (h0 : 0 ≤ i) (h1 : i ≤ 59) :
    bitSet i 1 = decide (i = 0) := by
  interval_cases i <;> decide

end Cron

namespace Cron

theorem dayMatches_everyMinute (off : Int) (t : Time) : dayMatches everyMinute off t = true := by
  obtain ⟨_, _, hd1, hd2⟩ := civil_bounds (wallSeconds off t / 86400)
  have hdom : bitSet (dayOf off t) (all dom) = true := bitSet_dom _ hd1 hd2
  have hdow : bitSet (weekdayOf off t) (all dow) = true :=
    bitSet_dow _ (by unfold weekdayOf; omega) (by unfold weekdayOf; omega)
  have hstar : all dom &&& starBit > 0 := by decide
  unfold dayMatches
  simp only [everyMinute, hdom, hdow, hstar, true_or, if_true, Bool.and_self]

/-- From the label `WRAP`, a time within the year limit passes the month, day, hour and
minute loops of `0 * * * * *` untouched. -/
theorem nextLoop_everyMinute_to_second (off yearLimit : Int) (fuel : Nat) (t : Time)
    (added : Bool) (hy : yearOf off t ≤ yearLimit) :
    nextLoop everyMinute off yearLimit (fuel + 5) .wrap t added =
      nextLoop everyMinute off yearLimit fuel .second t added := by
  obtain ⟨hm1, hm2, _, _⟩ := civil_bounds (wallSeconds off t / 86400)
  have hmonth : bitSet (monthOf off t) everyMinute.Month = true := bitSet_month _ hm1 hm2
  have hday := dayMatches_everyMinute off t
  have hhour : bitSet (hourOf off t) everyMinute.Hour = true :=
    bitSet_hour _ (by unfold hourOf; omega) (by unfold hourOf; omega)
  have hmin : bitSet (minuteOf off t) everyMinute.Minute = true :=
    bitSet_minute _ (by unfold minuteOf; omega) (by unfold minuteOf; omega)
  have hy' : ¬ yearOf off t > yearLimit := by omega
  rw [show fuel + 5 = fuel + 1 + 1 + 1 + 1 + 1 from rfl]
  rw [nextLoop, if_neg hy', nextLoop, hmonth, nextLoop, hday, nextLoop, hhour, nextLoop, hmin]
  rfl

/-- One pass of the second loop of `0 * * * * *` at a whole second other than 0. -/
theorem nextLoop_everyMinute_second (off yearLimit : Int) (fuel : Nat) (t : Time)
    (added : Bool) (hns : t % nsPerSecond = 0) (hs : secondOf off t ≠ 0) :
    nextLoop everyMinute off yearLimit (fuel + 1) .second t added =
      if secondOf off (t + nsPerSecond) = 0 then
        nextLoop everyMinute off yearLimit fuel .wrap (t + nsPerSecond) true
      else nextLoop everyMinute off yearLimit fuel .second (t + nsPerSecond) true := by
  have hbit : bitSet (secondOf off t) everyMinute.Second = false := by
    have := bitSet_second_zero (secondOf off t) (by unfold secondOf; omega)
      (by unfold secondOf; omega)
    simpa [everyMinute, hs] using this
  rw [nextLoop, hbit]
  cases added <;> simp [hns]

/-- The second loop of `0 * * * * *` counts up to the next minute: from second `60 - n`
it takes `n` passes and returns to `WRAP` `n` seconds later. -/
theorem nextLoop_everyMinute_countdown (off yearLimit : Int) (fuel : Nat) :
    ∀ (n : Nat) (t : Time) (added : Bool), 1 ≤ n → n ≤ 59 → t % nsPerSecond = 0 →
      secondOf off t = 60 - (n : Int) →
      nextLoop everyMinute off yearLimit (fuel + n) .second t added =
        nextLoop everyMinute off yearLimit fuel .wrap (t + n * nsPerSecond) true := by
  intro n
  induction n with
  | zero => intro t added h; omega
  | succ n ih =>
    intro t added _ hn hns hs
    have hs0 : secondOf off t ≠ 0 := by omega
    have hns' : (t + nsPerSecond) % nsPerSecond = 0 := by
      simp only [Time, nsPerSecond] at *; omega
    have hsec : secondOf off (t + nsPerSecond) = (secondOf off t + 1) % 60 := by
      simp only [Time, secondOf, wallSeconds, nsPerSecond] at *; omega
    rw [show fuel + (n + 1) = fuel + n + 1 from rfl,
      nextLoop_everyMinute_second off yearLimit (fuel + n) t added hns hs0]
    by_cases hn0 : n = 0
    · subst hn0
      have : secondOf off (t + nsPerSecond) = 0 := by omega
      rw [if_pos this]
      simp
    · have hne : secondOf off (t + nsPerSecond) ≠ 0 := by omega
      rw [if_neg hne, ih (t + nsPerSecond) true (by omega) (by omega) hns' (by omega)]
      congr 1
      push_cast
      ring

/-- At second 0 the search of `0 * * * * *` stops. -/
theorem nextLoop_everyMinute_found (off yearLimit : Int) (fuel : Nat) (t : Time)
    (added : Bool) (hy : yearOf off t ≤ yearLimit) (hs : secondOf off t = 0) :
    nextLoop everyMinute off yearLimit (fuel + 6) .wrap t added = some t := by
  rw [show fuel + 6 = fuel + 1 + 5 from rfl, nextLoop_everyMinute_to_second _ _ _ _ _ hy,
    nextLoop]
  have : bitSet (secondOf off t) everyMinute.Second = true := by
    rw [hs]; decide
  simp [this]

end Cron

namespace Cron

/-- The next activation of `0 * * * * *` after a time before the last hour of its day:
the start of the next minute. -/
theorem Next_everyMinute (host : Host) (now : Time) (hh : hourOf host.localOffset now < 23) :
    everyMinute.Next host now =
      (now / nsPerSecond + (60 - secondOf host.localOffset now)) * nsPerSecond := by
  have hoff : zoneOffset host everyMinute.Location = host.localOffset := rfl
  have ht0 : now + (nsPerSecond - nanosecondOf now) = (now / nsPerSecond + 1) * nsPerSecond := by
    simp only [Time, nanosecondOf, nsPerSecond] at *; omega
  have hns : ((now / nsPerSecond + 1) * nsPerSecond) % nsPerSecond = 0 := by
    simp only [Time, nsPerSecond] at *; omega
  have hk : 0 ≤ secondOf host.localOffset now ∧ secondOf host.localOffset now ≤ 59 := by
    unfold secondOf; omega
  have hsec : secondOf host.localOffset ((now / nsPerSecond + 1) * nsPerSecond) =
      (secondOf host.localOffset now + 1) % 60 := by
    simp only [Time, secondOf, wallSeconds, nsPerSecond] at *; omega
  unfold SpecSchedule.Next
  simp only [hoff, ht0]
  by_cases h59 : secondOf host.localOffset now = 59
  · have hs0 : secondOf host.localOffset ((now / nsPerSecond + 1) * nsPerSecond) = 0 := by
      omega
    rw [show nextFuel = (nextFuel - 6) + 6 from by decide,
      nextLoop_everyMinute_found _ _ _ _ _ (by omega) hs0, h59]
    simp only [Option.getD_some]
    ring
  · obtain ⟨n, hn⟩ : ∃ n : Nat, (n : Int) = 59 - secondOf host.localOffset now :=
      ⟨(59 - secondOf host.localOffset now).toNat, by omega⟩
    have hday : wallSeconds host.localOffset
          ((now / nsPerSecond + 1) * nsPerSecond + n * nsPerSecond) / 86400 =
        wallSeconds host.localOffset ((now / nsPerSecond + 1) * nsPerSecond) / 86400 := by
      simp only [Time, hourOf, secondOf, wallSeconds, nsPerSecond] at *; omega
    have hs0 : secondOf host.localOffset
        ((now / nsPerSecond + 1) * nsPerSecond + n * nsPerSecond) = 0 := by
      simp only [Time, secondOf, wallSeconds, nsPerSecond] at *; omega
    have hfuel : nextFuel = (nextFuel - 11 - n) + 6 + n + 5 := by
      unfold nextFuel; omega
    rw [hfuel, nextLoop_everyMinute_to_second _ _ _ _ _ (by omega),
      nextLoop_everyMinute_countdown _ _ _ n _ _ (by omega) (by omega) hns (by omega),
      nextLoop_everyMinute_found _ _ _ _ _ (by unfold yearOf; rw [hday]; omega) hs0]
    simp only [Option.getD_some]
    have : (n : Int) = 59 - secondOf host.localOffset now := hn
    rw [this]
    ring

end Cron

namespace Scheduler

open Cron

/-- When the engine's next ID is fresh, `AddTask` stores for an expression that parses
the next run the engine computed: the schedule's next activation when the engine runs,
the zero time when it does not. -/
theorem AddTask_stores_engine_next (host : Host) (now : Time) (heap : Heap) (s : Scheduler)
    (task : Ptr) (sch : Schedule)
    (h : Parse host s.cron.parser (heap task).CronConfig.Expression.toList = .ok sch)
    (hfresh : FreshNextID s) :
    (s.AddTask host now heap task).2 = .ok () ∧
    GetTaskNextRun (s.AddTask host now heap task).1 (heap task).ID =
      some (if s.cron.running then sch.Next host now else 0) := by
  obtain ⟨hpar, hnext, hrun⟩ := removeExisting_fields s (heap task).ID
  have h' : Parse host (s.removeExisting (heap task).ID).parser
      (heap task).CronConfig.Expression.toList = .ok sch := by rw [hpar]; exact h
  have hadd := AddFunc_of_ok host now (s.removeExisting (heap task).ID)
    (heap task).CronConfig.Expression.toList task sch h'
  have hnone : (s.removeExisting (heap task).ID).entries.find?
      (fun e => wrapInt64 (s.cron.nextID + 1) = e.ID) = none := by
    rw [List.find?_eq_none]
    intro e he
    have := hfresh e (removeExisting_entries_subset s (heap task).ID e he)
    simpa using fun h => this h.symm
  unfold AddTask
  rw [hadd, hnext, hrun]
  refine ⟨rfl, ?_⟩
  unfold GetTaskNextRun
  simp only [Registry.get_set_self, Option.map_some', Cron.Cron.Entry, List.find?_append, hnone,
    Option.none_or, List.find?_cons_of_pos, decide_True, Option.getD_some, List.find?]

end Scheduler

namespace Scheduler

open Cron

/-! ### The next run AddTask stores -/

/-- C12 fails on a scheduler whose engine is not running: task 1
(`0 * * * * *`) is added to a new scheduler at 2024-01-15 12:00:30 UTC, and
`GetTaskNextRun` reports the zero time, not 12:01:00; starting the scheduler afterwards
leaves the stored value at the zero time. -/
theorem AddTask_on_stopped_engine_stores_zero_time :
    (exampleHeap 1).CronConfig.Expression = "0 * * * * *" ∧
    hourOf exampleHost.localOffset noon = 12 ∧ minuteOf exampleHost.localOffset noon = 0 ∧
    secondOf exampleHost.localOffset noon = 30 ∧
    (AddTask exampleHost noon exampleHeap New 1).2 = .ok () ∧
    GetTaskNextRun (AddTask exampleHost noon exampleHeap New 1).1 7 = some 0 ∧
    GetTaskNextRun addedThenStarted 7 = some 0 ∧
    (0 : Time) ≠ date 2024 1 15 12 1 0 0 0 := by
  decide

/-- On a reachable scheduler whose engine is running and whose next engine ID is
fresh, adding a task with the expression `0 * * * * *` when the local
clock reads 12:00:30 succeeds, and `GetTaskNextRun` then reports 12:01:00.000000000 of
the same day, an instant after the current time with no second 0 strictly between the
two. -/
theorem AddTask_next_run_on_running_engine (host : Host) (now : Time) (heap : Heap)
    (s : Scheduler) (task : Ptr) (hreach : Reachable host s heap)
    (hrun : s.cron.running = true) (hfresh : FreshNextID s)
    (hexpr : (heap task).CronConfig.Expression = "0 * * * * *")
    (hh : hourOf host.localOffset now = 12) (hm : minuteOf host.localOffset now = 0)
    (hs : secondOf host.localOffset now = 30) :
    ∃ r : Time,
      (s.AddTask host now heap task).2 = .ok () ∧
      GetTaskNextRun (s.AddTask host now heap task).1 (heap task).ID = some r ∧
      yearOf host.localOffset r = yearOf host.localOffset now ∧
      monthOf host.localOffset r = monthOf host.localOffset now ∧
      dayOf host.localOffset r = dayOf host.localOffset now ∧
      hourOf host.localOffset r = 12 ∧ minuteOf host.localOffset r = 1 ∧
      secondOf host.localOffset r = 0 ∧ nanosecondOf r = 0 ∧
      now < r ∧ ∀ u : Time, now < u → u < r → secondOf host.localOffset u ≠ 0 := by
  have hparse : Parse host s.cron.parser (heap task).CronConfig.Expression.toList =
      .ok (.spec everyMinute) := by
    rw [(reachable_invariant host s heap hreach).2, hexpr]
    exact parse_everyMinute host
  obtain ⟨hok, hget⟩ := AddTask_stores_engine_next host now heap s task _ hparse hfresh
  have hnext : (Schedule.spec everyMinute).Next host now =
      (now / nsPerSecond + 30) * nsPerSecond := by
    show everyMinute.Next host now = _
    rw [Next_everyMinute host now (by omega), hs]
    rfl
  rw [hrun, if_pos rfl, hnext] at hget
  have hday : wallSeconds host.localOffset ((now / nsPerSecond + 30) * nsPerSecond) / 86400 =
      wallSeconds host.localOffset now / 86400 := by
    simp only [Time, hourOf, minuteOf, secondOf, wallSeconds, nsPerSecond] at *; omega
  refine ⟨_, hok, hget, ?_, ?_, ?_, ?_, ?_, ?_, ?_, ?_, ?_⟩
  · unfold yearOf; rw [hday]
  · unfold monthOf; rw [hday]
  · unfold dayOf; rw [hday]
  · simp only [Time, hourOf, minuteOf, secondOf, wallSeconds, nsPerSecond] at *; omega
  · simp only [Time, hourOf, minuteOf, secondOf, wallSeconds, nsPerSecond] at *; omega
  · simp only [Time, hourOf, minuteOf, secondOf, wallSeconds, nsPerSecond] at *; omega
  · simp only [Time, nanosecondOf, nsPerSecond] at *; omega
  · simp only [Time, nsPerSecond] at *; omega
  · intro u hu1 hu2
    simp only [Time, hourOf, minuteOf, secondOf, wallSeconds, nsPerSecond] at *; omega

theorem AddTask_next_run_on_running_engine_witness :
    ∃ r : Time,
      (AddTask exampleHost noon exampleHeap (Start exampleHost noon New) 1).2 = .ok () ∧
      GetTaskNextRun (AddTask exampleHost noon exampleHeap (Start exampleHost noon New) 1).1
        (exampleHeap 1).ID = some r ∧
      yearOf exampleHost.localOffset r = yearOf exampleHost.localOffset noon ∧
      monthOf exampleHost.localOffset r = monthOf exampleHost.localOffset noon ∧
      dayOf exampleHost.localOffset r = dayOf exampleHost.localOffset noon ∧
      hourOf exampleHost.localOffset r = 12 ∧ minuteOf exampleHost.localOffset r = 1 ∧
      secondOf exampleHost.localOffset r = 0 ∧ nanosecondOf r = 0 ∧
      noon < r ∧ ∀ u : Time, noon < u → u < r → secondOf exampleHost.localOffset u ≠ 0 :=
  AddTask_next_run_on_running_engine exampleHost noon exampleHeap (Start exampleHost noon New) 1
    (Reachable.start noon (Reachable.init exampleHeap)) (by decide)
    (by intro e he; simp [Start, New, NewWithSeconds, Cron.Start] at he)
    (by decide) (by decide) (by decide) (by decide)

end Scheduler

namespace Websocket

open Cron

/-! ### Go maps with string keys -/

theorem mapGet_delete_self {β : Type} (m : List (String × β)) (k : String) :
    mapGet (mapDelete m k) k = none := by
  induction m with
  | nil => rfl
  | cons p m ih =>
    obtain ⟨a, b⟩ := p
    by_cases h : a = k
    · simpa [mapDelete, mapGet, List.filter, h] using ih
    · have hk : (k == a) = false := by simpa using fun h' => h h'.symm
      simpa [mapDelete, mapGet, List.filter, h, List.lookup, hk] using ih

theorem mapGet_delete_of_ne {β : Type} (m : List (String × β)) (k j : String) (h : j ≠ k) :
    mapGet (mapDelete m k) j = mapGet m j := by
  induction m with
  | nil => rfl
  | cons p m ih =>
    obtain ⟨a, b⟩ := p
    by_cases ha : a = k
    · subst ha
      have hj : (j == a) = false := by simpa using h
      simpa [mapDelete, mapGet, List.filter, List.lookup, hj] using ih
    · by_cases hja : j = a
      · simp [mapDelete, mapGet, List.filter, ha, List.lookup, hja]
      · have hj : (j == a) = false := by simpa using hja
        simpa [mapDelete, mapGet, List.filter, ha, List.lookup, hj] using ih

theorem mapGet_set_self {β : Type} (m : List (String × β)) (k : String) (v : β) :
    mapGet (mapSet m k v) k = some v := by
  simp [mapSet, mapGet, List.lookup]

theorem mapGet_set_of_ne {β : Type} (m : List (String × β)) (k j : String) (v : β)
    (h : j ≠ k) : mapGet (mapSet m k v) j = mapGet m j := by
  have hj : (j == k) = false := by simpa using h
  have := mapGet_delete_of_ne m k j h
  simpa [mapSet, mapGet, List.lookup, hj] using this

theorem mem_of_mapGet {β : Type} (m : List (String × β)) (k : String) (v : β)
    (h : mapGet m k = some v) : (k, v) ∈ m := by
  induction m with
  | nil => simp [mapGet] at h
  | cons p m ih =>
    obtain ⟨a, b⟩ := p
    by_cases hk : k = a
    · subst hk
      simp [mapGet, List.lookup] at h
      simp [h]
    · have hk' : (k == a) = false := by simpa using hk
      simp only [mapGet, List.lookup, hk'] at h
      exact List.mem_cons_of_mem _ (ih h)

theorem mapGet_of_mem {β : Type} (m : List (String × β)) (k : String) (v : β)
    (hnd : (m.map Prod.fst).Nodup) (h : (k, v) ∈ m) : mapGet m k = some v := by
  induction m with
  | nil => simp at h
  | cons p m ih =>
    obtain ⟨a, b⟩ := p
    simp only [List.map_cons, List.nodup_cons] at hnd
    rcases List.mem_cons.mp h with h1 | h2
    · cases h1
      simp [mapGet, List.lookup]
    · have hne : k ≠ a := by
        intro hka
        exact hnd.1 (List.mem_map.mpr ⟨(k, v), h2, hka⟩)
      have hk' : (k == a) = false := by simpa using hne
      simp only [mapGet, List.lookup, hk']
      exact ih hnd.2 h2

theorem nodup_mapDelete {β : Type} (m : List (String × β)) (k : String)
    (h : (m.map Prod.fst).Nodup) : ((mapDelete m k).map Prod.fst).Nodup := by
  unfold mapDelete
  exact (List.filter_sublist m).map Prod.fst |>.nodup h

theorem nodup_mapSet {β : Type} (m : List (String × β)) (k : String) (v : β)
    (h : (m.map Prod.fst).Nodup) : ((mapSet m k v).map Prod.fst).Nodup := by
  have hd := nodup_mapDelete m k h
  simp only [mapSet, List.map_cons, List.nodup_cons]
  refine ⟨?_, hd⟩
  intro hmem
  obtain ⟨⟨a, b⟩, hab, hk⟩ := List.mem_map.mp hmem
  simp only at hk
  subst hk
  have := mapGet_of_mem _ _ _ hd hab
  rw [mapGet_delete_self] at this
  cases this

end Websocket

namespace Websocket

open Cron

/-! ### The loops over the registry -/

theorem trySend_of_room (ch : Chan) (message : Message) (hopen : ch.closed = false)
    (hroom : ch.buf.length < sendCap) :
    ch.trySend message = .sent { ch with buf := ch.buf ++ [message] } := by
  simp [Chan.trySend, hopen, hroom]

theorem trySend_of_full (ch : Chan) (message : Message) (hopen : ch.closed = false)
    (hfull : ¬ ch.buf.length < sendCap) : ch.trySend message = .full := by
  simp [Chan.trySend, hopen, hfull]

/-- What `SendToTopic`'s loop does to the client objects, when the entries it visits
are distinct open clients: a subscribed client with room gets the message appended,
every other client object is as before. -/
theorem sendToTopicLoop_spec (topic : String) (message : Message) :
    ∀ (l : List (String × CPtr)) (heap : CPtr → Client),
      (l.map Prod.snd).Nodup → (∀ p ∈ l.map Prod.snd, (heap p).Send.closed = false) →
      ∃ heap2, Manager.sendToTopicLoop topic message l heap = some heap2 ∧
        ∀ p,
          (p ∈ l.map Prod.snd → subscribed (heap p) topic = true →
            (heap p).Send.buf.length < sendCap → heap2 p = enqueue message (heap p)) ∧
          (¬ (p ∈ l.map Prod.snd ∧ subscribed (heap p) topic = true ∧
              (heap p).Send.buf.length < sendCap) → heap2 p = heap p) := by
  intro l
  induction l with
  | nil =>
    intro heap _ _
    exact ⟨heap, rfl, fun p => ⟨fun h => by simp at h, fun _ => rfl⟩⟩
  | cons e rest ih =>
    obtain ⟨k, c⟩ := e
    intro heap hnd hopen
    simp only [List.map_cons, List.nodup_cons] at hnd
    have hc_open : (heap c).Send.closed = false := hopen c (by simp)
    have hrest_open : ∀ p ∈ rest.map Prod.snd, (heap p).Send.closed = false :=
      fun p hp => hopen p (by simp only [List.map_cons]; exact List.mem_cons_of_mem _ hp)
    by_cases hsub : subscribed (heap c) topic = true
    · by_cases hroom : (heap c).Send.buf.length < sendCap
      · have hne : ∀ p ∈ rest.map Prod.snd, p ≠ c := fun p hp hpc => hnd.1 (hpc ▸ hp)
        obtain ⟨heap2, hrun, hspec⟩ := ih
          (Function.update heap c
            { heap c with Send := { (heap c).Send with buf := (heap c).Send.buf ++ [message] } })
          hnd.2 (fun p hp => by
            rw [Function.update_noteq (hne p hp)]
            exact hrest_open p hp)
        refine ⟨heap2, ?_, ?_⟩
        · rw [Manager.sendToTopicLoop, if_pos hsub, trySend_of_room _ _ hc_open hroom]
          exact hrun
        · intro p
          by_cases hpc : p = c
          · subst hpc
            have h2 := (hspec p).2 (fun h => hnd.1 h.1)
            rw [Function.update_same] at h2
            exact ⟨fun _ _ _ => h2, fun h => absurd ⟨by simp, hsub, hroom⟩ h⟩
          · have hp := hspec p
            rw [Function.update_noteq hpc] at hp
            refine ⟨fun hmem => hp.1 ?_, fun h => hp.2 ?_⟩
            · simpa [hpc] using hmem
            · intro h'
              exact h ⟨by simp only [List.map_cons]; exact List.mem_cons_of_mem _ h'.1, h'.2⟩
      · obtain ⟨heap2, hrun, hspec⟩ := ih heap hnd.2 hrest_open
        refine ⟨heap2, ?_, ?_⟩
        · rw [Manager.sendToTopicLoop, if_pos hsub, trySend_of_full _ _ hc_open hroom]
          exact hrun
        · intro p
          have hp := hspec p
          by_cases hpc : p = c
          · subst hpc
            exact ⟨fun _ _ h => absurd h hroom, fun _ => hp.2 (fun h => hnd.1 h.1)⟩
          · refine ⟨fun hmem => hp.1 ?_, fun h => hp.2 ?_⟩
            · simpa [hpc] using hmem
            · intro h'
              exact h ⟨by simp only [List.map_cons]; exact List.mem_cons_of_mem _ h'.1, h'.2⟩
    · obtain ⟨heap2, hrun, hspec⟩ := ih heap hnd.2 hrest_open
      refine ⟨heap2, ?_, ?_⟩
      · rw [Manager.sendToTopicLoop, if_neg hsub]
        exact hrun
      · intro p
        have hp := hspec p
        by_cases hpc : p = c
        · subst hpc
          exact ⟨fun _ h _ => absurd h hsub, fun _ => hp.2 (fun h => hnd.1 h.1)⟩
        · refine ⟨fun hmem => hp.1 ?_, fun h => hp.2 ?_⟩
          · simpa [hpc] using hmem
          · intro h'
            exact h ⟨by simp only [List.map_cons]; exact List.mem_cons_of_mem _ h'.1, h'.2⟩

end Websocket

namespace Websocket

open Cron

theorem registered_iff_of_heap_eq (m m2 : Manager) (p : CPtr) (hc : m2.clients = m.clients)
    (hh : m2.heap p = m.heap p) : Registered m2 p ↔ Registered m p := by
  unfold Registered
  rw [hc, hh]

/-- Two registered clients with the same ID are the same client. -/
theorem registered_unique (m : Manager) (p q : CPtr) (hp : Registered m p)
    (hq : Registered m q) (hid : (m.heap p).ID = (m.heap q).ID) : p = q := by
  unfold Registered at hp hq
  rw [hid, hq] at hp
  exact (Option.some.inj hp).symm

/-- What the loop's `broadcast` case does from a well-formed state, for the keys it has
still to visit: every registered client whose key is among them gets the message when
its buffer has room and is deleted and closed otherwise; every other client object and
every other key of the registry is as before. -/
theorem broadcastLoop_spec (message : Message) :
    ∀ (ks : List String) (m : Manager), ks.Nodup → WellFormed m →
      ∃ m2, Manager.broadcastLoop message ks m = some m2 ∧ WellFormed m2 ∧
        m2.allocated = m.allocated ∧
        (∀ p, Registered m p → (m.heap p).ID ∈ ks → (m.heap p).Send.buf.length < sendCap →
          m2.heap p = enqueue message (m.heap p) ∧
          mapGet m2.clients (m.heap p).ID = some p) ∧
        (∀ p, Registered m p → (m.heap p).ID ∈ ks → ¬ (m.heap p).Send.buf.length < sendCap →
          m2.heap p = Manager.closeClient (m.heap p) ∧
          mapGet m2.clients (m.heap p).ID = none) ∧
        (∀ p, ¬ (Registered m p ∧ (m.heap p).ID ∈ ks) → m2.heap p = m.heap p) ∧
        (∀ k, k ∉ ks → mapGet m2.clients k = mapGet m.clients k) := by
  intro ks
  induction ks with
  | nil =>
    intro m _ hwf
    exact ⟨m, rfl, hwf, rfl, fun p _ h => by simp at h, fun p _ h => by simp at h,
      fun _ _ => rfl, fun _ _ => rfl⟩
  | cons k rest ih =>
    intro m hnd hwf
    simp only [List.nodup_cons] at hnd
    cases hget : mapGet m.clients k with
    | none =>
      obtain ⟨m2, hrun, hwf2, halloc, hroom, hfull, hother, hkeys⟩ := ih m hnd.2 hwf
      have hne : ∀ p, Registered m p → (m.heap p).ID ≠ k := by
        intro p hp hk
        unfold Registered at hp
        rw [hk, hget] at hp
        cases hp
      refine ⟨m2, ?_, hwf2, halloc, ?_, ?_, ?_, ?_⟩
      · rw [Manager.broadcastLoop, hget]
        exact hrun
      · intro p hp hmem
        exact hroom p hp (by simpa [hne p hp] using hmem)
      · intro p hp hmem
        exact hfull p hp (by simpa [hne p hp] using hmem)
      · intro p h
        exact hother p (fun h' => h ⟨h'.1, List.mem_cons_of_mem _ h'.2⟩)
      · intro j hj
        exact hkeys j (fun h' => hj (List.mem_cons_of_mem _ h'))
    | some c =>
      obtain ⟨hcid, hcopen, hcalloc⟩ := hwf.2 k c hget
      have hcreg : Registered m c := by
        unfold Registered
        rw [hcid]
        exact hget
      have hne : ∀ p, p ≠ c → Registered m p → (m.heap p).ID ≠ k := by
        intro p hpc hp hk
        exact hpc (registered_unique m p c hp hcreg (hk.trans hcid.symm))
      by_cases hcroom : (m.heap c).Send.buf.length < sendCap
      · have hwf1 : WellFormed
            (⟨m.clients, Function.update m.heap c (enqueue message (m.heap c)),
              m.allocated⟩ : Manager) := by
          refine ⟨hwf.1, ?_⟩
          intro j q hq
          obtain ⟨h1, h2, h3⟩ := hwf.2 j q hq
          by_cases hqc : q = c
          · subst hqc
            simp only [Function.update_same]
            exact ⟨h1, h2, h3⟩
          · simp only [Function.update_noteq hqc]
            exact ⟨h1, h2, h3⟩
        obtain ⟨m2, hrun, hwf2, halloc, hroom, hfull, hother, hkeys⟩ := ih _ hnd.2 hwf1
        have hc2 := hother c (fun h => hnd.1 (by
          have := h.2
          simp only [Function.update_same, enqueue] at this
          rw [hcid] at this
          exact this))
        simp only [Function.update_same] at hc2
        have hk2 := hkeys k hnd.1
        simp only at hk2
        refine ⟨m2, ?_, hwf2, halloc, ?_, ?_, ?_, ?_⟩
        · rw [Manager.broadcastLoop, hget]
          simp only [trySend_of_room _ _ hcopen hcroom]
          exact hrun
        · intro p hp hmem hr
          by_cases hpc : p = c
          · subst hpc
            refine ⟨hc2, ?_⟩
            rw [hcid, hk2]
            exact hget
          · have hp1 : Registered (⟨m.clients, Function.update m.heap c (enqueue message (m.heap c)),
              m.allocated⟩ : Manager) p := by
              unfold Registered
              simp only [Function.update_noteq hpc]
              exact hp
            have := hroom p hp1
            simp only [Function.update_noteq hpc] at this
            exact this (by simpa [hne p hpc hp] using hmem) hr
        · intro p hp hmem hr
          by_cases hpc : p = c
          · subst hpc
            exact absurd hcroom hr
          · have hp1 : Registered (⟨m.clients, Function.update m.heap c (enqueue message (m.heap c)),
              m.allocated⟩ : Manager) p := by
              unfold Registered
              simp only [Function.update_noteq hpc]
              exact hp
            have := hfull p hp1
            simp only [Function.update_noteq hpc] at this
            exact this (by simpa [hne p hpc hp] using hmem) hr
        · intro p h
          by_cases hpc : p = c
          · subst hpc
            exact absurd ⟨hcreg, by rw [hcid]; simp⟩ h
          · have := hother p
            simp only [Function.update_noteq hpc, Registered] at this
            exact this (fun h' => h ⟨h'.1, List.mem_cons_of_mem _ h'.2⟩)
        · intro j hj
          exact hkeys j (fun h' => hj (List.mem_cons_of_mem _ h'))
      · have hwf1 : WellFormed
            (⟨mapDelete m.clients (m.heap c).ID,
              Function.update m.heap c (Manager.closeClient (m.heap c)), m.allocated⟩ : Manager) := by
          refine ⟨nodup_mapDelete _ _ hwf.1, ?_⟩
          intro j q hq
          simp only at hq
          have hj : j ≠ (m.heap c).ID := by
            intro hj
            rw [hj, mapGet_delete_self] at hq
            cases hq
          rw [mapGet_delete_of_ne _ _ _ hj] at hq
          obtain ⟨h1, h2, h3⟩ := hwf.2 j q hq
          have hqc : q ≠ c := by
            intro hqc
            subst hqc
            exact hj h1.symm
          simp only [Function.update_noteq hqc]
          exact ⟨h1, h2, h3⟩
        obtain ⟨m2, hrun, hwf2, halloc, hroom, hfull, hother, hkeys⟩ := ih _ hnd.2 hwf1
        have hc2 := hother c (fun h => by
          have := h.1
          unfold Registered at this
          simp only [Function.update_same, Manager.closeClient] at this
          rw [mapGet_delete_self] at this
          cases this)
        simp only [Function.update_same] at hc2
        have hk2 := hkeys k hnd.1
        simp only at hk2
        rw [hcid, mapGet_delete_self] at hk2
        have hreg1 : ∀ p, p ≠ c → Registered m p →
            Registered (⟨mapDelete m.clients (m.heap c).ID,
              Function.update m.heap c (Manager.closeClient (m.heap c)), m.allocated⟩ : Manager) p := by
          intro p hpc hp
          unfold Registered
          simp only [Function.update_noteq hpc]
          rw [mapGet_delete_of_ne _ _ _ (by rw [hcid]; exact hne p hpc hp)]
          exact hp
        refine ⟨m2, ?_, hwf2, halloc, ?_, ?_, ?_, ?_⟩
        · rw [Manager.broadcastLoop, hget]
          simp only [trySend_of_full _ _ hcopen hcroom]
          exact hrun
        · intro p hp hmem hr
          by_cases hpc : p = c
          · subst hpc
            exact absurd hr hcroom
          · have := hroom p (hreg1 p hpc hp)
            simp only [Function.update_noteq hpc] at this
            exact this (by simpa [hne p hpc hp] using hmem) hr
        · intro p hp hmem hr
          by_cases hpc : p = c
          · subst hpc
            refine ⟨hc2, ?_⟩
            rw [hcid]
            exact hk2
          · have := hfull p (hreg1 p hpc hp)
            simp only [Function.update_noteq hpc] at this
            exact this (by simpa [hne p hpc hp] using hmem) hr
        · intro p h
          by_cases hpc : p = c
          · subst hpc
            exact absurd ⟨hcreg, by rw [hcid]; simp⟩ h
          · have := hother p
            simp only [Function.update_noteq hpc] at this
            refine this (fun h' => h ⟨?_, List.mem_cons_of_mem _ h'.2⟩)
            have h1 := h'.1
            unfold Registered at h1 ⊢
            simp only [Function.update_noteq hpc] at h1
            have hj : (m.heap p).ID ≠ (m.heap c).ID := by
              intro hj
              rw [hj, mapGet_delete_self] at h1
              cases h1
            rw [mapGet_delete_of_ne _ _ _ hj] at h1
            exact h1
        · intro j hj
          have hjk : j ≠ k := fun h' => hj (by rw [h']; simp)
          rw [hkeys j (fun h' => hj (List.mem_cons_of_mem _ h'))]
          simp only
          rw [hcid, mapGet_delete_of_ne _ _ _ hjk]

end Websocket

namespace Websocket

open Cron

/-! ### The states the hub reaches -/

theorem handleClientMessage_ID_Send (c : Client) (msg : Inbound) :
    (handleClientMessage c msg).ID = c.ID ∧ (handleClientMessage c msg).Send = c.Send ∧
    (handleClientMessage c msg).connClosed = c.connClosed := by
  unfold handleClientMessage
  repeat' split
  all_goals exact ⟨rfl, rfl, rfl⟩

/-- A change of client objects that keeps their IDs and leaves open channels open
keeps the state well-formed. -/
theorem wellFormed_of_heap (m : Manager) (heap2 : CPtr → Client) (hwf : WellFormed m)
    (h : ∀ p, (heap2 p).ID = (m.heap p).ID ∧ (heap2 p).Send.closed = (m.heap p).Send.closed) :
    WellFormed ⟨m.clients, heap2, m.allocated⟩ := by
  refine ⟨hwf.1, ?_⟩
  intro k c hkc
  obtain ⟨h1, h2, h3⟩ := hwf.2 k c hkc
  exact ⟨(h c).1.trans h1, (h c).2.trans h2, h3⟩

/-- In a well-formed state the registry's clients are distinct and open. -/
theorem wellFormed_entries (m : Manager) (hwf : WellFormed m) :
    (m.clients.map Prod.snd).Nodup ∧
    (∀ p ∈ m.clients.map Prod.snd, (m.heap p).Send.closed = false) ∧
    (∀ p, p ∈ m.clients.map Prod.snd ↔ Registered m p) := by
  have hmem : ∀ e ∈ m.clients, mapGet m.clients e.1 = some e.2 :=
    fun e he => mapGet_of_mem _ _ _ hwf.1 he
  refine ⟨?_, ?_, ?_⟩
  · refine List.Nodup.map_on ?_ (List.Nodup.of_map Prod.fst hwf.1)
    intro x hx y hy hxy
    have h1 := (hwf.2 _ _ (hmem x hx)).1
    have h2 := (hwf.2 _ _ (hmem y hy)).1
    rw [hxy] at h1
    exact Prod.ext (h1.symm.trans h2) hxy
  · intro p hp
    obtain ⟨e, he, rfl⟩ := List.mem_map.mp hp
    exact (hwf.2 _ _ (hmem e he)).2.1
  · intro p
    constructor
    · intro hp
      obtain ⟨e, he, rfl⟩ := List.mem_map.mp hp
      unfold Registered
      rw [(hwf.2 _ _ (hmem e he)).1]
      exact hmem e he
    · intro hp
      exact List.mem_map.mpr ⟨_, mem_of_mapGet _ _ _ hp, rfl⟩

/-- What `SendToTopic` does from a well-formed state. -/
theorem SendToTopic_spec (m : Manager) (hwf : WellFormed m) (unixNow : Int)
    (topic msgType : String) (data : Value) :
    ∃ m2, m.SendToTopic unixNow topic msgType data = some m2 ∧
      m2.clients = m.clients ∧ m2.allocated = m.allocated ∧
      ∀ p,
        (Registered m p → subscribed (m.heap p) topic = true →
          (m.heap p).Send.buf.length < sendCap →
          m2.heap p = enqueue ⟨msgType, getCurrentTimestamp unixNow, data⟩ (m.heap p)) ∧
        (¬ (Registered m p ∧ subscribed (m.heap p) topic = true ∧
            (m.heap p).Send.buf.length < sendCap) → m2.heap p = m.heap p) := by
  obtain ⟨hnd, hopen, hreg⟩ := wellFormed_entries m hwf
  obtain ⟨heap2, hrun, hspec⟩ := sendToTopicLoop_spec topic
    ⟨msgType, getCurrentTimestamp unixNow, data⟩ m.clients m.heap hnd hopen
  refine ⟨⟨m.clients, heap2, m.allocated⟩, ?_, rfl, rfl, ?_⟩
  · unfold Manager.SendToTopic
    rw [hrun]
    rfl
  · intro p
    refine ⟨fun h => (hspec p).1 ((hreg p).mpr h), fun h => (hspec p).2 ?_⟩
    intro h'
    exact h ⟨(hreg p).mp h'.1, h'.2⟩

/-- What `SendToClient` does from a well-formed state. -/
theorem SendToClient_spec (m : Manager) (hwf : WellFormed m) (unixNow : Int)
    (clientID msgType : String) (data : Value) :
    ∃ m2, m.SendToClient unixNow clientID msgType data = some m2 ∧
      m2.clients = m.clients ∧ m2.allocated = m.allocated ∧
      ∀ p,
        (Registered m p → (m.heap p).ID = clientID → (m.heap p).Send.buf.length < sendCap →
          m2.heap p = enqueue ⟨msgType, getCurrentTimestamp unixNow, data⟩ (m.heap p)) ∧
        (¬ (Registered m p ∧ (m.heap p).ID = clientID ∧
            (m.heap p).Send.buf.length < sendCap) → m2.heap p = m.heap p) := by
  unfold Manager.SendToClient
  cases hget : mapGet m.clients clientID with
  | none =>
    refine ⟨m, rfl, rfl, rfl, fun p => ⟨?_, fun _ => rfl⟩⟩
    intro hp hid
    unfold Registered at hp
    rw [hid, hget] at hp
    cases hp
  | some c =>
    obtain ⟨hcid, hcopen, _⟩ := hwf.2 clientID c hget
    have hc : ∀ p, Registered m p → (m.heap p).ID = clientID → p = c := by
      intro p hp hid
      unfold Registered at hp
      rw [hid, hget] at hp
      exact (Option.some.inj hp).symm
    have hcreg : Registered m c := by
      unfold Registered
      rw [hcid]
      exact hget
    by_cases hroom : (m.heap c).Send.buf.length < sendCap
    · simp only [trySend_of_room _ _ hcopen hroom]
      refine ⟨_, rfl, rfl, rfl, fun p => ⟨?_, ?_⟩⟩
      · intro hp hid _
        have := hc p hp hid
        subst this
        simp [enqueue]
      · intro h
        have hpc : p ≠ c := by
          intro hpc
          subst hpc
          exact h ⟨hcreg, hcid, hroom⟩
        simp [Function.update_noteq hpc]
    · simp only [trySend_of_full _ _ hcopen hroom]
      refine ⟨m, rfl, rfl, rfl, fun p => ⟨?_, fun _ => rfl⟩⟩
      intro hp hid hr
      have := hc p hp hid
      subst this
      exact absurd hr hroom

theorem enqueue_fields (message : Message) (c : Client) :
    (enqueue message c).ID = c.ID ∧ (enqueue message c).Send.closed = c.Send.closed ∧
    (enqueue message c).Topics = c.Topics ∧ (enqueue message c).connClosed = c.connClosed ∧
    (enqueue message c).Send.buf = c.Send.buf ++ [message] :=
  ⟨rfl, rfl, rfl, rfl, rfl⟩

/-- Every state the hub reaches is well-formed. -/
theorem reachable_hub_wellFormed (m : Manager) (h : Reachable m) : WellFormed m := by
  induction h with
  | init => exact ⟨by simp [NewManager], fun k c hkc => by simp [NewManager, mapGet] at hkc⟩
  | @connect m upgraded queryID off now _ ih =>
    unfold Manager.HandleConnection
    cases upgraded with
    | false => simpa using ih
    | true =>
      simp only [Bool.not_true, Bool.false_eq_true, if_false, Manager.register,
        Function.update_same, newClient]
      refine ⟨nodup_mapSet _ _ _ ih.1, ?_⟩
      intro k c hkc
      simp only at hkc ⊢
      by_cases hk : k = (if queryID = "" then generateClientID off now else queryID)
      · rw [hk, mapGet_set_self] at hkc
        cases hkc
        simp only [Function.update_same]
        exact ⟨hk.symm, trivial, Nat.lt_succ_self _⟩
      · rw [mapGet_set_of_ne _ _ _ _ hk] at hkc
        obtain ⟨h1, h2, h3⟩ := ih.2 k c hkc
        have hc : c ≠ m.allocated := Nat.ne_of_lt h3
        simp only [Function.update_noteq hc]
        exact ⟨h1, h2, Nat.lt_succ_of_lt h3⟩
  | @unregister m m2 client _ _ hrun ih =>
    unfold Manager.unregister at hrun
    cases hget : mapGet m.clients (m.heap client).ID with
    | none =>
      simp only [hget] at hrun
      cases hrun
      exact ih
    | some c =>
      simp only [hget] at hrun
      by_cases hcl : (m.heap client).Send.closed = true
      · simp [hcl] at hrun
      · simp only [hcl, Bool.false_eq_true, if_false, Option.some.injEq] at hrun
        subst hrun
        refine ⟨nodup_mapDelete _ _ ih.1, ?_⟩
        intro j q hq
        simp only at hq ⊢
        have hj : j ≠ (m.heap client).ID := by
          intro hj
          rw [hj, mapGet_delete_self] at hq
          cases hq
        rw [mapGet_delete_of_ne _ _ _ hj] at hq
        obtain ⟨h1, h2, h3⟩ := ih.2 j q hq
        have hqc : q ≠ client := by
          intro hqc
          subst hqc
          exact hj h1.symm
        simp only [Function.update_noteq hqc]
        exact ⟨h1, h2, h3⟩
  | @broadcast m m2 message _ hrun ih =>
    obtain ⟨m3, hrun3, hwf3, _⟩ := broadcastLoop_spec message (m.clients.map Prod.fst) m ih.1 ih
    unfold Manager.broadcast at hrun
    rw [hrun3] at hrun
    cases hrun
    exact hwf3
  | @sendToTopic m m2 unixNow topic msgType data _ hrun ih =>
    obtain ⟨m3, hrun3, hc, ha, hspec⟩ := SendToTopic_spec m ih unixNow topic msgType data
    rw [hrun3] at hrun
    cases hrun
    have := wellFormed_of_heap m m2.heap ih (fun p => by
      by_cases hp : Registered m p ∧ subscribed (m.heap p) topic = true ∧
          (m.heap p).Send.buf.length < sendCap
      · rw [(hspec p).1 hp.1 hp.2.1 hp.2.2]
        exact ⟨rfl, rfl⟩
      · rw [(hspec p).2 hp]
        exact ⟨rfl, rfl⟩)
    rw [← hc, ← ha] at this
    exact this
  | @sendToClient m m2 unixNow clientID msgType data _ hrun ih =>
    obtain ⟨m3, hrun3, hc, ha, hspec⟩ := SendToClient_spec m ih unixNow clientID msgType data
    rw [hrun3] at hrun
    cases hrun
    have := wellFormed_of_heap m m2.heap ih (fun p => by
      by_cases hp : Registered m p ∧ (m.heap p).ID = clientID ∧
          (m.heap p).Send.buf.length < sendCap
      · rw [(hspec p).1 hp.1 hp.2.1 hp.2.2]
        exact ⟨rfl, rfl⟩
      · rw [(hspec p).2 hp]
        exact ⟨rfl, rfl⟩)
    rw [← hc, ← ha] at this
    exact this
  | @clientMessage m client msg _ _ ih =>
    refine wellFormed_of_heap m _ ih (fun p => ?_)
    by_cases hp : p = client
    · subst hp
      simp only [Function.update_same]
      exact ⟨(handleClientMessage_ID_Send _ _).1, by rw [(handleClientMessage_ID_Send _ _).2.1]⟩
    · simp only [Function.update_noteq hp]
      exact ⟨trivial, trivial⟩
  | @write m client _ _ ih =>
    refine wellFormed_of_heap m _ ih (fun p => ?_)
    by_cases hp : p = client
    · subst hp
      simp only [Function.update_same]
      exact ⟨trivial, trivial⟩
    · simp only [Function.update_noteq hp]
      exact ⟨trivial, trivial⟩

end Websocket

namespace Websocket

open Cron

/-! ### Interest sets -/

theorem subscribed_mapSet (c : Client) (t topic : String) :
    subscribed { c with Topics := mapSet c.Topics t true } topic =
      if topic = t then true else subscribed c topic := by
  unfold subscribed
  by_cases h : topic = t
  · subst h
    simp [mapGet_set_self]
  · simp [mapGet_set_of_ne _ _ _ _ h, h]

theorem subscribed_mapDelete (c : Client) (t topic : String) :
    subscribed { c with Topics := mapDelete c.Topics t } topic =
      if topic = t then false else subscribed c topic := by
  unfold subscribed
  by_cases h : topic = t
  · subst h
    simp [mapGet_delete_self]
  · simp [mapGet_delete_of_ne _ _ _ h, h]

/-- What a control message does to a client's interest in a topic. -/
theorem subscribed_handleClientMessage (c : Client) (msg : Inbound) (topic : String) :
    (IsSubscribe msg topic → subscribed (handleClientMessage c msg) topic = true) ∧
    (IsUnsubscribe msg topic → subscribed (handleClientMessage c msg) topic = false) ∧
    (¬ IsSubscribe msg topic → ¬ IsUnsubscribe msg topic →
      subscribed (handleClientMessage c msg) topic = subscribed c topic) := by
  unfold IsSubscribe IsUnsubscribe handleClientMessage
  cases hty : asString (mapGet msg "type") with
  | none => simp
  | some ty =>
    cases htopic : asString (mapGet msg "topic") with
    | none =>
      by_cases h1 : ty = "subscribe"
      · simp [h1]
      · by_cases h2 : ty = "unsubscribe"
        · simp [h2]
        · simp [h1, h2]
    | some t =>
      by_cases h1 : ty = "subscribe"
      · subst h1
        simp only [if_true, subscribed_mapSet]
        by_cases ht : topic = t
        · simp [ht]
        · have ht' : t ≠ topic := fun h => ht h.symm
          simp [ht, ht']
      · by_cases h2 : ty = "unsubscribe"
        · subst h2
          simp only [h1, if_false, if_true]
          by_cases ht : topic = t
          · simp [ht, subscribed_mapDelete]
          · have ht' : t ≠ topic := fun h => ht h.symm
            simp [ht, ht', subscribed_mapDelete]
        · simp [h1, h2]

/-- A client not interested in a topic stays so under control messages none of which
subscribes to it. -/
theorem subscribed_foldl_of_no_subscribe (topic : String) :
    ∀ (msgs : List Inbound) (c : Client), subscribed c topic = false →
      (∀ msg ∈ msgs, ¬ IsSubscribe msg topic) →
      subscribed (msgs.foldl handleClientMessage c) topic = false := by
  intro msgs
  induction msgs with
  | nil => intro c h _; exact h
  | cons msg rest ih =>
    intro c h hno
    rw [List.foldl_cons]
    refine ih _ ?_ (fun x hx => hno x (List.mem_cons_of_mem _ hx))
    obtain ⟨_, h2, h3⟩ := subscribed_handleClientMessage c msg topic
    by_cases hu : IsUnsubscribe msg topic
    · exact h2 hu
    · rw [h3 (hno msg (List.mem_cons_self _ _)) hu]
      exact h

end Websocket

namespace Websocket

open Cron

set_option maxRecDepth 100000

/-! ### Publishing -/

/-- The example hub is well-formed. -/
theorem twoClients_wellFormed : WellFormed twoClients := by
  refine ⟨by decide, ?_⟩
  intro k c hkc
  by_cases ha : k = "a"
  · subst ha
    have : c = 0 := by
      have h : mapGet twoClients.clients "a" = some 0 := by decide
      rw [h] at hkc
      exact (Option.some.inj hkc).symm
    subst this
    decide
  · by_cases hb : k = "b"
    · subst hb
      have : c = 1 := by
        have h : mapGet twoClients.clients "b" = some 1 := by decide
        rw [h] at hkc
        exact (Option.some.inj hkc).symm
      subst this
      decide
    · have ha' : (k == "a") = false := by simpa using ha
      have hb' : (k == "b") = false := by simpa using hb
      simp [twoClients, mapGet, List.lookup, ha', hb'] at hkc

/-- C17: from every well-formed state of the hub (every state it reaches is one), for
every topic and event, `SendToTopic` returns, leaves the registry as it is, appends the
event once to the buffer of every registered client whose interest set holds the topic
and whose buffer has room, and leaves every client object whose interest set does not
hold the topic, and every client that is not registered, as it was.  The interest set
of a client does not hold the topic when it did not hold it and no control message
since subscribed to it (so for a new client that never subscribed), and when the client
unsubscribed from it and no later control message subscribed to it again. -/
theorem SendToTopic_reaches_only_subscribers (m : Manager) (hwf : WellFormed m)
    (unixNow : Int) (topic msgType : String) (data : Value) :
    ∃ m2, m.SendToTopic unixNow topic msgType data = some m2 ∧ m2.clients = m.clients ∧
      (∀ p, Registered m p → subscribed (m.heap p) topic = true →
        (m.heap p).Send.buf.length < sendCap →
        (m2.heap p).Send.buf =
          (m.heap p).Send.buf ++ [⟨msgType, getCurrentTimestamp unixNow, data⟩] ∧
        (m2.heap p).Send.closed = false ∧ (m2.heap p).Topics = (m.heap p).Topics) ∧
      (∀ p, subscribed (m.heap p) topic = false → m2.heap p = m.heap p) ∧
      (∀ p, ¬ Registered m p → m2.heap p = m.heap p) ∧
      (∀ (c : Client) (msgs : List Inbound), subscribed c topic = false →
        (∀ msg ∈ msgs, ¬ IsSubscribe msg topic) →
        subscribed (msgs.foldl handleClientMessage c) topic = false) ∧
      (∀ (c : Client) (pre post : List Inbound) (unsub : Inbound), IsUnsubscribe unsub topic →
        (∀ msg ∈ post, ¬ IsSubscribe msg topic) →
        subscribed ((pre ++ unsub :: post).foldl handleClientMessage c) topic = false) := by
  obtain ⟨m2, hrun, hc, _, hspec⟩ := SendToTopic_spec m hwf unixNow topic msgType data
  refine ⟨m2, hrun, hc, ?_, ?_, ?_, ?_, ?_⟩
  · intro p hreg hsub hroom
    rw [(hspec p).1 hreg hsub hroom]
    refine ⟨rfl, ?_, rfl⟩
    have hopen := (hwf.2 _ _ hreg).2.1
    exact hopen
  · intro p hsub
    exact (hspec p).2 (fun h => by rw [hsub] at h; exact Bool.noConfusion h.2.1)
  · intro p hreg
    exact (hspec p).2 (fun h => hreg h.1)
  · intro c msgs hc0 hno
    exact subscribed_foldl_of_no_subscribe topic msgs c hc0 hno
  · intro c pre post unsub hun hno
    rw [List.foldl_append, List.foldl_cons]
    exact subscribed_foldl_of_no_subscribe topic post _
      ((subscribed_handleClientMessage _ unsub topic).2.1 hun) hno

/-- C17 at the example hub: an event for the topic `logs` reaches client `b`, which
subscribed to it, and not client `a`. -/
theorem SendToTopic_reaches_only_subscribers_witness :
    ∃ m2, twoClients.SendToTopic 5 "logs" "log" .null = some m2 ∧
      (m2.heap 1).Send.buf = [⟨"log", 5000, .null⟩] ∧ m2.heap 0 = twoClients.heap 0 := by
  obtain ⟨m2, hrun, _, h1, h2, _⟩ :=
    SendToTopic_reaches_only_subscribers twoClients twoClients_wellFormed 5 "logs" "log" .null
  exact ⟨m2, hrun, (h1 1 (by decide) (by decide) (by decide)).1, h2 0 (by decide)⟩

/-- C19: from every well-formed state of the hub (every state it reaches is one), the
loop's `broadcast` case returns and appends the event once to the buffer of every
registered client whose buffer has room, whatever the client's interest set, which it
leaves as it is; the client stays registered, and the client objects that are not
registered are as before. -/
theorem broadcast_reaches_every_client_with_room (m : Manager) (hwf : WellFormed m)
    (message : Message) :
    ∃ m2, m.broadcast message = some m2 ∧
      (∀ p, Registered m p → (m.heap p).Send.buf.length < sendCap →
        (m2.heap p).Send.buf = (m.heap p).Send.buf ++ [message] ∧
        (m2.heap p).Send.closed = false ∧ (m2.heap p).Topics = (m.heap p).Topics ∧
        Registered m2 p) ∧
      (∀ p, ¬ Registered m p → m2.heap p = m.heap p) := by
  obtain ⟨m2, hrun, _, _, hroom, _, hother, _⟩ :=
    broadcastLoop_spec message (m.clients.map Prod.fst) m hwf.1 hwf
  have hkey : ∀ p, Registered m p → (m.heap p).ID ∈ m.clients.map Prod.fst :=
    fun p hp => List.mem_map.mpr ⟨_, mem_of_mapGet _ _ _ hp, rfl⟩
  refine ⟨m2, hrun, ?_, ?_⟩
  · intro p hreg hr
    obtain ⟨h1, h2⟩ := hroom p hreg (hkey p hreg) hr
    refine ⟨by rw [h1]; rfl, ?_, by rw [h1]; rfl, ?_⟩
    · rw [h1]
      exact (hwf.2 _ _ hreg).2.1
    · unfold Registered
      rw [h1]
      exact h2
  · intro p hreg
    exact hother p (fun h => hreg h.1)

/-- C19 at the example hub: a broadcast reaches client `b`, which is subscribed to
`logs` only. -/
theorem broadcast_reaches_every_client_with_room_witness :
    ∃ m2, twoClients.broadcast filler = some m2 ∧ (m2.heap 1).Send.buf = [filler] ∧
      mapGet m2.clients "b" = some 1 := by
  obtain ⟨m2, hrun, h1, _⟩ :=
    broadcast_reaches_every_client_with_room twoClients twoClients_wellFormed filler
  obtain ⟨hbuf, _, _, hreg⟩ := h1 1 (by decide) (by decide)
  refine ⟨m2, hrun, hbuf, ?_⟩
  have hid : (m2.heap 1).ID = "b" := by
    have := (broadcastLoop_spec filler (twoClients.clients.map Prod.fst) twoClients
      twoClients_wellFormed.1 twoClients_wellFormed)
    obtain ⟨m3, hrun3, _, _, hroom, _⟩ := this
    have e : m3 = m2 := Option.some.inj (hrun3.symm.trans hrun)
    subst e
    rw [(hroom 1 (by decide) (by decide) (by decide)).1]
    rfl
  unfold Registered at hreg
  rw [hid] at hreg
  exact hreg

/-- C18, as stated, fails for topic-scoped delivery: in the example hub client `a` is
registered, subscribed to `jobs`, and its buffer holds 256 messages; after
`SendToTopic` for `jobs` the client is still registered, its channel is open, its
connection has not been closed, and its buffer is as before. -/
theorem SendToTopic_full_queue_stays_connected :
    mapGet twoClients.clients "a" = some 0 ∧ subscribed (twoClients.heap 0) "jobs" = true ∧
    (twoClients.heap 0).Send.buf.length = sendCap ∧
    ∃ m2, twoClients.SendToTopic 5 "jobs" "log" .null = some m2 ∧
      mapGet m2.clients "a" = some 0 ∧ (m2.heap 0).Send.closed = false ∧
      (m2.heap 0).connClosed = false ∧ (m2.heap 0).Send.buf = (twoClients.heap 0).Send.buf := by
  refine ⟨by decide, by decide, by decide, _, rfl, ?_, ?_, ?_, ?_⟩ <;> decide

/-- C18, amended: from every well-formed state of the hub, for a registered client
whose buffer is full: the loop's `broadcast` case leaves the client's buffer as it is,
closes its channel and its connection and deletes it from the registry, and every
registered client with room still gets the event and stays registered; `SendToTopic`
and `SendToClient` leave the client object and the registry as they are, and
`SendToTopic` still delivers to every registered subscriber with room. -/
theorem full_queue_disconnects_on_broadcast_only (m : Manager) (hwf : WellFormed m)
    (p : CPtr) (hreg : Registered m p) (hfull : ¬ (m.heap p).Send.buf.length < sendCap)
    (message : Message) (unixNow : Int) (topic msgType : String) (data : Value) :
    (∃ m2, m.broadcast message = some m2 ∧
      (m2.heap p).Send.buf = (m.heap p).Send.buf ∧ (m2.heap p).Send.closed = true ∧
      (m2.heap p).connClosed = true ∧ mapGet m2.clients (m.heap p).ID = none ∧
      ¬ Registered m2 p ∧
      ∀ q, Registered m q → (m.heap q).Send.buf.length < sendCap →
        (m2.heap q).Send.buf = (m.heap q).Send.buf ++ [message] ∧ Registered m2 q) ∧
    (∃ m2, m.SendToTopic unixNow topic msgType data = some m2 ∧ m2.clients = m.clients ∧
      m2.heap p = m.heap p ∧ Registered m2 p ∧
      ∀ q, Registered m q → subscribed (m.heap q) topic = true →
        (m.heap q).Send.buf.length < sendCap →
        (m2.heap q).Send.buf =
          (m.heap q).Send.buf ++ [⟨msgType, getCurrentTimestamp unixNow, data⟩]) ∧
    (∃ m2, m.SendToClient unixNow (m.heap p).ID msgType data = some m2 ∧
      m2.clients = m.clients ∧ m2.heap p = m.heap p ∧ Registered m2 p) := by
  have hkey : ∀ q, Registered m q → (m.heap q).ID ∈ m.clients.map Prod.fst :=
    fun q hq => List.mem_map.mpr ⟨_, mem_of_mapGet _ _ _ hq, rfl⟩
  refine ⟨?_, ?_, ?_⟩
  · obtain ⟨m2, hrun, _, _, hroom, hfull2, _, _⟩ :=
      broadcastLoop_spec message (m.clients.map Prod.fst) m hwf.1 hwf
    obtain ⟨h1, h2⟩ := hfull2 p hreg (hkey p hreg) hfull
    refine ⟨m2, hrun, by rw [h1]; rfl, by rw [h1]; rfl, by rw [h1]; rfl, h2, ?_, ?_⟩
    · unfold Registered
      rw [h1]
      show ¬ mapGet m2.clients (m.heap p).ID = some p
      rw [h2]
      exact fun h => Option.noConfusion h
    · intro q hq hr
      obtain ⟨h3, h4⟩ := hroom q hq (hkey q hq) hr
      refine ⟨by rw [h3]; rfl, ?_⟩
      unfold Registered
      rw [h3]
      exact h4
  · obtain ⟨m2, hrun, hc, _, hspec⟩ := SendToTopic_spec m hwf unixNow topic msgType data
    have hp : m2.heap p = m.heap p := (hspec p).2 (fun h => hfull h.2.2)
    refine ⟨m2, hrun, hc, hp, (registered_iff_of_heap_eq m m2 p hc hp).mpr hreg, ?_⟩
    intro q hq hs hr
    rw [(hspec q).1 hq hs hr]
    rfl
  · obtain ⟨m2, hrun, hc, _, hspec⟩ :=
      SendToClient_spec m hwf unixNow (m.heap p).ID msgType data
    have hp : m2.heap p = m.heap p := (hspec p).2 (fun h => hfull h.2.2)
    exact ⟨m2, hrun, hc, hp, (registered_iff_of_heap_eq m m2 p hc hp).mpr hreg⟩

/-- C18, amended, at the example hub: a broadcast closes and deletes client `a`, whose
buffer is full, and reaches client `b`. -/
theorem full_queue_disconnects_on_broadcast_only_witness :
    ∃ m2, twoClients.broadcast filler = some m2 ∧ (m2.heap 0).Send.closed = true ∧
      mapGet m2.clients "a" = none ∧ (m2.heap 1).Send.buf = [filler] := by
  obtain ⟨⟨m2, hrun, _, hclosed, _, hgone, _, hothers⟩, _⟩ :=
    full_queue_disconnects_on_broadcast_only twoClients twoClients_wellFormed 0
      (by decide) (by decide) filler 5 "jobs" "log" .null
  exact ⟨m2, hrun, hclosed, hgone, (hothers 1 (by decide) (by decide)).1⟩

/-- The method `BroadcastMessage` returns in every state without changing the hub; the
submission channel has capacity 0; when the channel can take the event (the loop is
waiting to receive, or the buffer has room) the event is accepted as the message the
loop then processes, and otherwise the event is dropped. -/
theorem BroadcastMessage_never_blocks (m : Manager) (unixNow : Int) (buffered : Nat)
    (receiving : Bool) (msgType : String) (data : Value) :
    broadcastCap = 0 ∧
    (m.BroadcastMessage unixNow buffered receiving msgType data).1 = m ∧
    ((receiving = true ∨ buffered < broadcastCap) →
      (m.BroadcastMessage unixNow buffered receiving msgType data).2 =
        .accepted ⟨msgType, getCurrentTimestamp unixNow, data⟩) ∧
    (¬ (receiving = true ∨ buffered < broadcastCap) →
      (m.BroadcastMessage unixNow buffered receiving msgType data).2 = .dropped) ∧
    ((m.BroadcastMessage unixNow buffered receiving msgType data).2 = .dropped ↔
      receiving = false) := by
  unfold Manager.BroadcastMessage
  cases receiving <;> simp [broadcastCap]

end Websocket

namespace Interleaving

/-! ### Stop and the fires in flight -/

theorem mem_of_get?_eq {α : Type} (l : List α) (i : Nat) (a : α) (h : l.get? i = some a) :
    a ∈ l := by
  exact List.get?_mem h

theorem get?_set {α : Type} (l : List α) (i j : Nat) (a : α) :
    (l.set i a).get? j = if i = j then (l.get? j).map (fun _ => a) else l.get? j := by
  simp only [List.get?_eq_getElem?, List.getElem?_set]
  by_cases h : i = j
  · subst h
    by_cases hl : i < l.length
    · simp [hl]
    · simp [hl, List.getElem?_eq_none (Nat.le_of_not_lt hl)]
  · simp [h]

/-- Every step keeps the invariant. -/
theorem step_inv (σ σ2 : Threads) (a : Action) (hinv : Inv σ) (h : step σ a = some σ2) :
    Inv σ2 := by
  obtain ⟨i1, i2, i3, i4⟩ := hinv
  cases a with
  | start =>
    simp only [step] at h
    split at h
    · cases h
    · rename_i hm
      have hm' : σ.mutex = none := by simpa using hm
      have hnd : σ.stop ≠ .draining := fun hd => by
        have := (i3 hd).2.2
        rw [hm'] at this
        cases this
      split at h
      · cases h
        exact ⟨i1, i2, i3, i4⟩
      · cases h
        refine ⟨fun _ => rfl, ?_, fun hd => absurd hd hnd, i4⟩
        intro hc
        cases hc
  | fire =>
    simp only [step] at h
    split at h
    · rename_i hc
      cases h
      refine ⟨i1, fun hc2 => ?_, i3, ?_⟩
      · simp only at hc2
        rw [hc] at hc2
        cases hc2
      · intro i hi
        simp only at hi ⊢
        rw [List.get?_eq_getElem?] at hi
        by_cases hlt : i < σ.jobs.length
        · rw [List.getElem?_append_left hlt] at hi
          exact i4 i (by rw [List.get?_eq_getElem?]; exact hi)
        · rw [List.getElem?_append_right (Nat.le_of_not_lt hlt)] at hi
          by_cases h0 : i - σ.jobs.length = 0
          · simp [h0] at hi
          · have : (([JobPc.executing] : List JobPc))[i - σ.jobs.length]? = none :=
              List.getElem?_eq_none (by simp; omega)
            rw [this] at hi
            cases hi
    · cases h
  | executeReturns i =>
    simp only [step] at h
    split at h
    · rename_i hi
      cases h
      have hmem := mem_of_get?_eq _ _ _ hi
      refine ⟨i1, fun hc hd => ?_, i3, ?_⟩
      · have := i2 hc hd _ hmem
        cases this
      · intro j hj
        simp only at hj ⊢
        rw [get?_set] at hj
        by_cases hij : i = j
        · subst hij
          simp [hi] at hj
        · simp only [hij, if_false] at hj
          exact i4 j hj
    · cases h
  | jobLock i =>
    simp only [step] at h
    split at h
    · rename_i hi
      obtain ⟨hi, hm⟩ := hi
      cases h
      have hmem := mem_of_get?_eq _ _ _ hi
      have hnd : σ.stop ≠ .draining := fun hd => by
        have := (i3 hd).2.2
        rw [hm] at this
        cases this
      refine ⟨i1, fun hc hd => ?_, fun hd => absurd hd hnd, ?_⟩
      · have := i2 hc hd _ hmem
        cases this
      · intro j hj
        simp only at hj ⊢
        rw [get?_set] at hj
        by_cases hij : i = j
        · subst hij
          rfl
        · simp only [hij, if_false] at hj
          have := i4 j hj
          rw [hm] at this
          cases this
    · cases h
  | jobUnlock i =>
    simp only [step] at h
    split at h
    · rename_i hi
      cases h
      have hmem := mem_of_get?_eq _ _ _ hi
      have hm := i4 i hi
      have hnd : σ.stop ≠ .draining := fun hd => by
        have := (i3 hd).2.2
        rw [hm] at this
        cases this
      refine ⟨i1, fun hc hd => ?_, fun hd => absurd hd hnd, ?_⟩
      · have := i2 hc hd _ hmem
        cases this
      · intro j hj
        simp only at hj ⊢
        rw [get?_set] at hj
        by_cases hij : i = j
        · subst hij
          simp [hi] at hj
        · simp only [hij, if_false] at hj
          have := i4 j hj
          rw [hm] at this
          exact absurd (Holder.job.inj (Option.some.inj this)) hij
    · cases h
  | stopCall =>
    simp only [step] at h
    split at h
    · rename_i hs
      cases h
      have hnd : σ.stop ≠ .draining := by
        rcases hs with hs | hs <;> rw [hs] <;> exact fun h => StopPc.noConfusion h
      refine ⟨fun _ => i1 hnd, fun hc _ => i2 hc hnd, ?_, i4⟩
      intro hd
      cases hd
    · cases h
  | stopLock =>
    simp only [step] at h
    split at h
    · rename_i hs
      obtain ⟨hs, hm⟩ := hs
      have hnd : σ.stop ≠ .draining := by
        rw [hs]
        exact fun h => StopPc.noConfusion h
      split at h
      · cases h
        refine ⟨fun _ => i1 hnd, fun hc _ => i2 hc hnd, ?_, i4⟩
        intro hd
        cases hd
      · rename_i hr
        cases h
        refine ⟨fun hd => absurd rfl hd, fun _ hd => absurd rfl hd,
          fun _ => ⟨rfl, by simpa using hr, rfl⟩, ?_⟩
        intro j hj
        have := i4 j hj
        rw [hm] at this
        cases this
    · cases h
  | stopReturn =>
    simp only [step] at h
    split at h
    · rename_i hs
      obtain ⟨hs, hall⟩ := hs
      cases h
      obtain ⟨hc, _, hm⟩ := i3 hs
      refine ⟨fun _ => hc.symm, fun _ _ pc hpc => ?_, ?_, ?_⟩
      · have := List.all_eq_true.mp hall pc hpc
        simpa using this
      · intro hd
        cases hd
      · intro j hj
        have := i4 j hj
        rw [hm] at this
        cases this
    · cases h
  | lockedCall =>
    simp only [step] at h
    split at h
    · cases h
    · cases h
      exact ⟨i1, i2, i3, i4⟩

theorem run_inv : ∀ (acts : List Action) (σ σ2 : Threads), Inv σ → run σ acts = some σ2 →
    Inv σ2 := by
  intro acts
  induction acts with
  | nil =>
    intro σ σ2 hinv h
    cases h
    exact hinv
  | cons a rest ih =>
    intro σ σ2 hinv h
    simp only [run] at h
    cases hs : step σ a with
    | none => simp [hs] at h
    | some σ1 =>
      simp only [hs, Option.some_bind] at h
      exact ih σ1 σ2 (step_inv σ σ1 a hinv hs) h

theorem reachable_inv (σ : Threads) (h : Reachable σ) : Inv σ := by
  obtain ⟨acts, hrun⟩ := h
  refine run_inv acts init σ ?_ hrun
  refine ⟨fun _ => rfl, ?_, ?_, ?_⟩
  · intro _ _ pc hpc
    simp [init] at hpc
  · intro hd
    cases hd
  · intro i hi
    simp [init] at hi

/-- While the engine does not run, no fire starts unless `Start` is called. -/
theorem no_fire_without_start : ∀ (acts : List Action) (σ σ2 : Threads),
    σ.cronRunning = false → run σ acts = some σ2 → Action.start ∉ acts →
    Action.fire ∉ acts ∧ σ2.cronRunning = false ∧ σ2.jobs.length = σ.jobs.length := by
  intro acts
  induction acts with
  | nil =>
    intro σ σ2 hc h _
    cases h
    exact ⟨by simp, hc, rfl⟩
  | cons a rest ih =>
    intro σ σ2 hc h hns
    simp only [run] at h
    cases hs : step σ a with
    | none => simp [hs] at h
    | some σ1 =>
      simp only [hs, Option.some_bind] at h
      have hrest : Action.start ∉ rest := fun hm => hns (List.mem_cons_of_mem _ hm)
      have ha : a ≠ .start := fun hm => hns (by rw [hm]; exact List.mem_cons_self _ _)
      have key : a ≠ .fire ∧ σ1.cronRunning = false ∧ σ1.jobs.length = σ.jobs.length := by
        cases a with
        | start => exact absurd rfl ha
        | fire => simp [step, hc] at hs
        | executeReturns i =>
          simp only [step] at hs
          split at hs
          · cases hs; exact ⟨by simp, hc, by simp⟩
          · cases hs
        | jobLock i =>
          simp only [step] at hs
          split at hs
          · cases hs; exact ⟨by simp, hc, by simp⟩
          · cases hs
        | jobUnlock i =>
          simp only [step] at hs
          split at hs
          · cases hs; exact ⟨by simp, hc, by simp⟩
          · cases hs
        | stopCall =>
          simp only [step] at hs
          split at hs
          · cases hs; exact ⟨by simp, hc, rfl⟩
          · cases hs
        | stopLock =>
          simp only [step] at hs
          split at hs
          · split at hs
            · cases hs; exact ⟨by simp, hc, rfl⟩
            · cases hs; exact ⟨by simp, rfl, rfl⟩
          · cases hs
        | stopReturn =>
          simp only [step] at hs
          split at hs
          · cases hs; exact ⟨by simp, hc, rfl⟩
          · cases hs
        | lockedCall =>
          simp only [step] at hs
          split at hs
          · cases hs
          · cases hs; exact ⟨by simp, hc, rfl⟩
      obtain ⟨h1, h2, h3⟩ := ih σ1 σ2 key.2.1 h hrest
      refine ⟨?_, h2, h3.trans key.2.2⟩
      intro hm
      rcases List.mem_cons.mp hm with hm | hm
      · exact key.1 hm.symm
      · exact h1 hm

end Interleaving

namespace Interleaving

/-- C15: in every reachable state, when a step makes the call of `Stop` return, every
fire started so far has returned (so `Stop` has not returned before a fire that was
still executing), the engine does not run and the step `fire` is not enabled; and in
whatever the goroutines do from there without a call of `Start`, no fire starts. -/
theorem Stop_returns_after_the_fires (σ σ2 : Threads) (a : Action) (hreach : Reachable σ)
    (hstep : step σ a = some σ2) (hbefore : σ.stop ≠ .returned)
    (hafter : σ2.stop = .returned) :
    (∀ pc ∈ σ2.jobs, pc = .finished) ∧ σ2.cronRunning = false ∧ step σ2 .fire = none ∧
    ∀ acts σ3, run σ2 acts = some σ3 → Action.start ∉ acts →
      Action.fire ∉ acts ∧ σ3.cronRunning = false ∧ σ3.jobs.length = σ2.jobs.length := by
  have hinv := reachable_inv σ hreach
  obtain ⟨j1, j2, _, _⟩ := step_inv σ σ2 a hinv hstep
  have hnd : σ2.stop ≠ .draining := by
    rw [hafter]
    exact fun h => StopPc.noConfusion h
  have hrun : σ2.running = false := by
    cases a with
    | start =>
      simp only [step] at hstep
      split at hstep
      · cases hstep
      · split at hstep <;> cases hstep <;> exact absurd hafter hbefore
    | fire =>
      simp only [step] at hstep
      split at hstep
      · cases hstep; exact absurd hafter hbefore
      · cases hstep
    | executeReturns i =>
      simp only [step] at hstep
      split at hstep
      · cases hstep; exact absurd hafter hbefore
      · cases hstep
    | jobLock i =>
      simp only [step] at hstep
      split at hstep
      · cases hstep; exact absurd hafter hbefore
      · cases hstep
    | jobUnlock i =>
      simp only [step] at hstep
      split at hstep
      · cases hstep; exact absurd hafter hbefore
      · cases hstep
    | stopCall =>
      simp only [step] at hstep
      split at hstep
      · cases hstep; cases hafter
      · cases hstep
    | stopLock =>
      simp only [step] at hstep
      split at hstep
      · split at hstep
        · rename_i hr
          cases hstep
          simpa using hr
        · cases hstep; cases hafter
      · cases hstep
    | stopReturn =>
      simp only [step] at hstep
      split at hstep
      · cases hstep; rfl
      · cases hstep
    | lockedCall =>
      simp only [step] at hstep
      split at hstep
      · cases hstep
      · cases hstep; exact absurd hafter hbefore
  have hcron : σ2.cronRunning = false := by
    rw [← j1 hnd]
    exact hrun
  refine ⟨j2 hcron hnd, hcron, by simp [step, hcron], ?_⟩
  intro acts σ3 hacts hns
  exact no_fire_without_start acts σ2 σ3 hcron hacts hns

/-- C15 on a run in which `Stop` is called while a fire is in its locked section:
`Stop` takes the lock after the fire has released it, and when it returns the fire has
returned. -/
theorem Stop_returns_after_the_fires_witness :
    run init [.start, .fire, .executeReturns 0, .jobLock 0, .stopCall, .jobUnlock 0,
      .stopLock] = some ⟨some .stop, true, false, [.finished], .draining⟩ ∧
    step ⟨some .stop, true, false, [.finished], .draining⟩ .stopReturn =
      some ⟨none, false, false, [.finished], .returned⟩ ∧
    (∀ pc ∈ [JobPc.finished], pc = .finished) ∧
    step ⟨none, false, false, [.finished], .returned⟩ .fire = none :=
  ⟨by decide, by decide,
    (Stop_returns_after_the_fires ⟨some .stop, true, false, [.finished], .draining⟩
      ⟨none, false, false, [.finished], .returned⟩ .stopReturn
      ⟨[.start, .fire, .executeReturns 0, .jobLock 0, .stopCall, .jobUnlock 0, .stopLock],
        by decide⟩ (by decide) (by decide) (by decide)).1,
    by decide⟩

/-- C16 fails: after `Start`, a fire begins its `Execute` call; `Stop` is called and
takes the lock.  The lock is now held, by `Stop`, while the `Execute` call is running:
no call of `AddTask`, `RemoveTask` or a query can proceed, and `Stop` does not return.
When the `Execute` call has returned, the fire cannot take the lock either. -/
theorem Stop_holds_the_lock_during_Execute :
    run init [.start, .fire, .stopCall, .stopLock] =
      some ⟨some .stop, true, false, [.executing], .draining⟩ ∧
    step ⟨some .stop, true, false, [.executing], .draining⟩ .lockedCall = none ∧
    step ⟨some .stop, true, false, [.executing], .draining⟩ .stopReturn = none ∧
    step ⟨some .stop, true, false, [.executing], .draining⟩ (.executeReturns 0) =
      some ⟨some .stop, true, false, [.waitLock], .draining⟩ ∧
    step ⟨some .stop, true, false, [.waitLock], .draining⟩ (.jobLock 0) = none ∧
    step ⟨some .stop, true, false, [.waitLock], .draining⟩ .lockedCall = none ∧
    step ⟨some .stop, true, false, [.waitLock], .draining⟩ .stopReturn = none := by
  decide

end Interleaving

namespace Websocket

open Cron

/-! ### Runs of the hub -/

/-- A step from a reachable state reaches a state. -/
theorem step_reachable (m m2 : Manager) (e : Event) (hreach : Reachable m)
    (hstep : m.step e = some m2) : Reachable m2 := by
  cases e with
  | connect upgraded queryID off now =>
    simp only [Manager.step, Option.some.injEq] at hstep
    subst hstep
    exact Reachable.connect upgraded queryID off now hreach
  | unregister client =>
    simp only [Manager.step] at hstep
    split at hstep
    · rename_i hlt
      exact Reachable.unregister client hreach hlt hstep
    · cases hstep
  | broadcast message => exact Reachable.broadcast message hreach hstep
  | sendToTopic unixNow topic msgType data =>
    exact Reachable.sendToTopic unixNow topic msgType data hreach hstep
  | sendToClient unixNow clientID msgType data =>
    exact Reachable.sendToClient unixNow clientID msgType data hreach hstep
  | clientMessage client msg =>
    simp only [Manager.step] at hstep
    split at hstep
    · rename_i hlt
      cases hstep
      exact Reachable.clientMessage client msg hreach hlt
    · cases hstep
  | write client =>
    simp only [Manager.step] at hstep
    split at hstep
    · rename_i hlt
      cases hstep
      exact Reachable.write client hreach hlt
    · cases hstep

/-- What a step does to the buffer of a client and to the number of client objects: the
buffer stays, or gets the published message at its end when it has room, or loses its
oldest message to the client's writer, or is the empty buffer of the client object the
step makes. -/
theorem step_buffer (m m2 : Manager) (e : Event) (hwf : WellFormed m)
    (hstep : m.step e = some m2) (p : CPtr) :
    m.allocated ≤ m2.allocated ∧
    ((m2.heap p).Send.buf = (m.heap p).Send.buf ∧ writtenAt p m e = [] ∨
     (p < m.allocated ∧ (m.heap p).Send.buf.length < sendCap ∧ writtenAt p m e = [] ∧
       ∃ msg, publishedAt e = [msg] ∧ (m2.heap p).Send.buf = (m.heap p).Send.buf ++ [msg]) ∨
     (writtenAt p m e ++ (m2.heap p).Send.buf = (m.heap p).Send.buf ∧
       (m2.heap p).Send.buf = (m.heap p).Send.buf.tail) ∨
     (m.allocated ≤ p ∧ (m2.heap p).Send.buf = [] ∧ writtenAt p m e = [])) := by
  cases e with
  | connect upgraded queryID off now =>
    simp only [Manager.step, Option.some.injEq] at hstep
    subst hstep
    unfold Manager.HandleConnection
    cases upgraded with
    | false => exact ⟨Nat.le_refl _, Or.inl ⟨rfl, rfl⟩⟩
    | true =>
      simp only [Bool.not_true, Bool.false_eq_true, if_false, Manager.register]
      refine ⟨Nat.le_succ _, ?_⟩
      by_cases hp : p = m.allocated
      · subst hp
        exact Or.inr (Or.inr (Or.inr ⟨Nat.le_refl _, by simp [newClient], rfl⟩))
      · exact Or.inl ⟨by simp [Function.update_noteq hp], rfl⟩
  | unregister client =>
    simp only [Manager.step] at hstep
    split at hstep
    · unfold Manager.unregister at hstep
      split at hstep
      · split at hstep
        · cases hstep
        · cases hstep
          refine ⟨Nat.le_refl _, Or.inl ⟨?_, rfl⟩⟩
          by_cases hp : p = client
          · subst hp
            simp [Manager.closeClient]
          · simp [Function.update_noteq hp]
      · cases hstep
        exact ⟨Nat.le_refl _, Or.inl ⟨rfl, rfl⟩⟩
    · cases hstep
  | broadcast message =>
    obtain ⟨m3, hrun, _, halloc, hroom, hfull, hother, _⟩ :=
      broadcastLoop_spec message (m.clients.map Prod.fst) m hwf.1 hwf
    have e3 : m3 = m2 := Option.some.inj (hrun.symm.trans hstep)
    subst e3
    refine ⟨Nat.le_of_eq halloc.symm, ?_⟩
    by_cases hreg : Registered m p
    · have hkey : (m.heap p).ID ∈ m.clients.map Prod.fst :=
        List.mem_map.mpr ⟨_, mem_of_mapGet _ _ _ hreg, rfl⟩
      by_cases hr : (m.heap p).Send.buf.length < sendCap
      · refine Or.inr (Or.inl ⟨(hwf.2 _ _ hreg).2.2, hr, rfl, message, rfl, ?_⟩)
        rw [(hroom p hreg hkey hr).1]
        rfl
      · refine Or.inl ⟨?_, rfl⟩
        rw [(hfull p hreg hkey hr).1]
        rfl
    · refine Or.inl ⟨?_, rfl⟩
      rw [hother p (fun h => hreg h.1)]
  | sendToTopic unixNow topic msgType data =>
    obtain ⟨m3, hrun, _, halloc, hspec⟩ := SendToTopic_spec m hwf unixNow topic msgType data
    have e3 : m3 = m2 := Option.some.inj (hrun.symm.trans hstep)
    subst e3
    refine ⟨Nat.le_of_eq halloc.symm, ?_⟩
    by_cases hp : Registered m p ∧ subscribed (m.heap p) topic = true ∧
        (m.heap p).Send.buf.length < sendCap
    · refine Or.inr (Or.inl ⟨(hwf.2 _ _ hp.1).2.2, hp.2.2, rfl, _, rfl, ?_⟩)
      rw [(hspec p).1 hp.1 hp.2.1 hp.2.2]
      rfl
    · refine Or.inl ⟨?_, rfl⟩
      rw [(hspec p).2 hp]
  | sendToClient unixNow clientID msgType data =>
    obtain ⟨m3, hrun, _, halloc, hspec⟩ :=
      SendToClient_spec m hwf unixNow clientID msgType data
    have e3 : m3 = m2 := Option.some.inj (hrun.symm.trans hstep)
    subst e3
    refine ⟨Nat.le_of_eq halloc.symm, ?_⟩
    by_cases hp : Registered m p ∧ (m.heap p).ID = clientID ∧
        (m.heap p).Send.buf.length < sendCap
    · refine Or.inr (Or.inl ⟨(hwf.2 _ _ hp.1).2.2, hp.2.2, rfl, _, rfl, ?_⟩)
      rw [(hspec p).1 hp.1 hp.2.1 hp.2.2]
      rfl
    · refine Or.inl ⟨?_, rfl⟩
      rw [(hspec p).2 hp]
  | clientMessage client msg =>
    simp only [Manager.step] at hstep
    split at hstep
    · cases hstep
      refine ⟨Nat.le_refl _, Or.inl ⟨?_, rfl⟩⟩
      by_cases hp : p = client
      · subst hp
        simp [Manager.handleClientMessage, (handleClientMessage_ID_Send _ _).2.1]
      · simp [Manager.handleClientMessage, Function.update_noteq hp]
    · cases hstep
  | write client =>
    simp only [Manager.step] at hstep
    split at hstep
    · cases hstep
      refine ⟨Nat.le_refl _, ?_⟩
      by_cases hp : client = p
      · subst hp
        refine Or.inr (Or.inr (Or.inl ⟨?_, ?_⟩))
        · simp only [writtenAt, if_true, Manager.received, Manager.write, Function.update_same]
          cases (m.heap client).Send.buf <;> simp
        · simp [Manager.write]
      · refine Or.inl ⟨?_, ?_⟩
        · simp [Manager.write, Function.update_noteq (fun h => hp h.symm)]
        · simp [writtenAt, hp]
    · cases hstep

/-- In every state the hub reaches, no buffer holds more than 256 messages, and the
client objects not yet made have empty buffers. -/
theorem reachable_buffer_bound (m : Manager) (hreach : Reachable m) (p : CPtr) :
    (m.heap p).Send.buf.length ≤ sendCap ∧ (m.allocated ≤ p → (m.heap p).Send.buf = []) := by
  have key : ∀ (m m2 : Manager) (e : Event), Reachable m → m.step e = some m2 →
      ((m.heap p).Send.buf.length ≤ sendCap ∧ (m.allocated ≤ p → (m.heap p).Send.buf = [])) →
      ((m2.heap p).Send.buf.length ≤ sendCap ∧
        (m2.allocated ≤ p → (m2.heap p).Send.buf = [])) := by
    intro m m2 e hr hstep ih
    obtain ⟨hal, h⟩ := step_buffer m m2 e (reachable_hub_wellFormed m hr) hstep p
    rcases h with h | h | h | h
    · rw [h.1]
      exact ⟨ih.1, fun hp => ih.2 (Nat.le_trans hal hp)⟩
    · obtain ⟨hlt, hroom, _, msg, _, hbuf⟩ := h
      rw [hbuf]
      refine ⟨by simp; omega, fun hp => ?_⟩
      exact absurd (Nat.lt_of_lt_of_le hlt (Nat.le_trans hal hp)) (Nat.lt_irrefl _)
    · rw [h.2]
      refine ⟨Nat.le_trans (by simp) ih.1, fun hp => ?_⟩
      rw [ih.2 (Nat.le_trans hal hp)]
      rfl
    · exact ⟨by rw [h.2.1]; simp, fun _ => h.2.1⟩
  induction hreach with
  | init => exact ⟨by simp [NewManager, newClient], fun _ => rfl⟩
  | @connect m upgraded queryID off now hr ih =>
    exact key m _ (.connect upgraded queryID off now) hr rfl ih
  | @unregister m m2 client hr hlt hrun ih =>
    exact key m m2 (.unregister client) hr (by simp [Manager.step, hlt, hrun]) ih
  | @broadcast m m2 message hr hrun ih => exact key m m2 (.broadcast message) hr hrun ih
  | @sendToTopic m m2 unixNow topic msgType data hr hrun ih =>
    exact key m m2 (.sendToTopic unixNow topic msgType data) hr hrun ih
  | @sendToClient m m2 unixNow clientID msgType data hr hrun ih =>
    exact key m m2 (.sendToClient unixNow clientID msgType data) hr hrun ih
  | @clientMessage m client msg hr hlt ih =>
    exact key m _ (.clientMessage client msg) hr (by simp [Manager.step, hlt]) ih
  | @write m client hr hlt ih =>
    exact key m _ (.write client) hr (by simp [Manager.step, hlt]) ih

end Websocket

namespace Websocket

open Cron

/-- C21: from every state the hub reaches and for every client, no buffer holds more
than 256 messages, before and after any run of events; and over the run, the messages
the client's writer has taken from the buffer (and written to the connection), followed
by those still buffered, are the messages buffered at the start followed by messages
published during the run, in the order of their publication.  So the writer writes an
event enqueued before another one before that other one. -/
theorem events_delivered_in_publish_order (m : Manager) (hreach : Reachable m) (p : CPtr)
    (events : List Event) (m2 : Manager) (hrun : m.run events = some m2) :
    (m.heap p).Send.buf.length ≤ sendCap ∧ (m2.heap p).Send.buf.length ≤ sendCap ∧
    ∃ enq, written p m events ++ (m2.heap p).Send.buf = (m.heap p).Send.buf ++ enq ∧
      enq.Sublist (published events) := by
  have hfifo : ∀ (events : List Event) (m m2 : Manager), Reachable m →
      m.run events = some m2 →
      Reachable m2 ∧
      ∃ enq, written p m events ++ (m2.heap p).Send.buf = (m.heap p).Send.buf ++ enq ∧
        enq.Sublist (published events) := by
    intro events
    induction events with
    | nil =>
      intro m m2 hr hrun
      cases hrun
      exact ⟨hr, [], by simp [written], by simp [published]⟩
    | cons e rest ih =>
      intro m m2 hr hrun
      simp only [Manager.run] at hrun
      cases hs : m.step e with
      | none => simp [hs] at hrun
      | some m1 =>
        simp only [hs, Option.some_bind] at hrun
        have hr1 := step_reachable m m1 e hr hs
        obtain ⟨hr2, enq, heq, hsub⟩ := ih m1 m2 hr1 hrun
        refine ⟨hr2, ?_⟩
        have hw : written p m (e :: rest) = writtenAt p m e ++ written p m1 rest := by
          simp only [written, hs]
        have hpub : published (e :: rest) = publishedAt e ++ published rest := rfl
        rw [hw, hpub]
        obtain ⟨_, h⟩ := step_buffer m m1 e (reachable_hub_wellFormed m hr) hs p
        rcases h with h | h | h | h
        · refine ⟨enq, ?_, List.sublist_append_of_sublist_right hsub⟩
          rw [h.2, List.nil_append, heq, h.1]
        · obtain ⟨_, _, hwr, msg, hpubl, hbuf⟩ := h
          refine ⟨msg :: enq, ?_, ?_⟩
          · rw [hwr, List.nil_append, heq, hbuf]
            simp
          · rw [hpubl]
            exact List.Sublist.cons₂ msg hsub
        · refine ⟨enq, ?_, List.sublist_append_of_sublist_right hsub⟩
          rw [List.append_assoc, heq, ← List.append_assoc, h.1]
        · refine ⟨enq, ?_, List.sublist_append_of_sublist_right hsub⟩
          rw [h.2.2, List.nil_append, heq, h.2.1, (reachable_buffer_bound m hr p).2 h.1]
  obtain ⟨hr2, h⟩ := hfifo events m m2 hreach hrun
  exact ⟨(reachable_buffer_bound m hreach p).1, (reachable_buffer_bound m2 hr2 p).1, h⟩

/-- C21 on a run from a hub with one connection: two events are published, and the
writer takes two messages. -/
theorem events_delivered_in_publish_order_witness :
    ∃ m2, (NewManager.HandleConnection true "a" 0 0).1.run
        [.broadcast filler, .sendToClient 5 "a" "log" .null, .write 0, .write 0] = some m2 ∧
      written 0 (NewManager.HandleConnection true "a" 0 0).1
        [.broadcast filler, .sendToClient 5 "a" "log" .null, .write 0, .write 0] =
        [filler, ⟨"log", 5000, .null⟩] ∧
      (m2.heap 0).Send.buf.length ≤ sendCap ∧
      ∃ enq, written 0 (NewManager.HandleConnection true "a" 0 0).1
          [.broadcast filler, .sendToClient 5 "a" "log" .null, .write 0, .write 0] ++
          (m2.heap 0).Send.buf =
          ((NewManager.HandleConnection true "a" 0 0).1.heap 0).Send.buf ++ enq ∧
        enq.Sublist (published
          [.broadcast filler, .sendToClient 5 "a" "log" .null, .write 0, .write 0]) := by
  have h : ∃ m2, (NewManager.HandleConnection true "a" 0 0).1.run
      [.broadcast filler, .sendToClient 5 "a" "log" .null, .write 0, .write 0] = some m2 :=
    ⟨_, rfl⟩
  obtain ⟨m2, hrun⟩ := h
  exact ⟨m2, hrun, by decide, (events_delivered_in_publish_order _
    (Reachable.connect true "a" 0 0 Reachable.init) 0 _ m2 hrun).2⟩

end Websocket

namespace Websocket

open Cron

/-! ### Unregistering -/

/-- For every hub state and client for which the loop's `unregister` case returns
(it does when the client's channel is open or its ID is not in the registry),
processing the same message again returns the same state: the registry is as after the
first processing, and no client object changes, so nothing is closed. -/
theorem unregister_twice_is_unregister_once (m : Manager) (client : CPtr)
    (h : (m.heap client).Send.closed = false ∨ mapGet m.clients (m.heap client).ID = none) :
    ∃ m1, m.unregister client = some m1 ∧ m1.unregister client = some m1 ∧
      mapGet m1.clients (m.heap client).ID = none ∧
      (mapGet m.clients (m.heap client).ID ≠ none → (m1.heap client).Send.closed = true) := by
  unfold Manager.unregister
  cases hget : mapGet m.clients (m.heap client).ID with
  | none =>
    refine ⟨m, rfl, ?_, hget, fun hne => absurd rfl hne⟩
    simp only [hget]
  | some c =>
    have hopen : (m.heap client).Send.closed = false := by
      rcases h with h | h
      · exact h
      · rw [hget] at h
        cases h
    simp only [hopen, Bool.false_eq_true, if_false]
    refine ⟨_, rfl, ?_, ?_, ?_⟩
    · simp only [Function.update_same, Manager.closeClient, mapGet_delete_self]
    · exact mapGet_delete_self _ _
    · intro _
      simp [Manager.closeClient]

/-- Client `b` of the example hub is unregistered twice. -/
theorem unregister_twice_is_unregister_once_witness :
    ∃ m1, twoClients.unregister 1 = some m1 ∧ m1.unregister 1 = some m1 ∧
      mapGet m1.clients "b" = none ∧
      (mapGet twoClients.clients "b" ≠ none → (m1.heap 1).Send.closed = true) :=
  unregister_twice_is_unregister_once twoClients 1 (Or.inl (by decide))

/-! ### Control messages -/

/-- C23: a subscribe message for a topic puts that topic into the client's interest set
and an unsubscribe message takes it out; either leaves every other topic, and the
client's ID, channel and connection, as they were.  So a subscribe for a topic already
in the set, and an unsubscribe for a topic not in it, leave the interest set as it
was. -/
theorem subscribe_and_unsubscribe_change_one_topic (c : Client) (msg : Inbound)
    (topic : String) (h : IsSubscribe msg topic ∨ IsUnsubscribe msg topic) :
    (IsSubscribe msg topic → subscribed (handleClientMessage c msg) topic = true) ∧
    (IsUnsubscribe msg topic → subscribed (handleClientMessage c msg) topic = false) ∧
    (∀ other, other ≠ topic →
      subscribed (handleClientMessage c msg) other = subscribed c other) ∧
    (IsSubscribe msg topic → subscribed c topic = true →
      ∀ t, subscribed (handleClientMessage c msg) t = subscribed c t) ∧
    (IsUnsubscribe msg topic → subscribed c topic = false →
      ∀ t, subscribed (handleClientMessage c msg) t = subscribed c t) ∧
    (handleClientMessage c msg).ID = c.ID ∧ (handleClientMessage c msg).Send = c.Send ∧
    (handleClientMessage c msg).connClosed = c.connClosed := by
  obtain ⟨h1, h2, _⟩ := subscribed_handleClientMessage c msg topic
  have hother : ∀ other, other ≠ topic →
      subscribed (handleClientMessage c msg) other = subscribed c other := by
    intro other hne
    refine (subscribed_handleClientMessage c msg other).2.2 ?_ ?_
    · intro hs
      rcases h with h | h
      · exact hne (Option.some.inj (hs.2.symm.trans h.2))
      · exact hne (Option.some.inj (hs.2.symm.trans h.2))
    · intro hu
      rcases h with h | h
      · exact hne (Option.some.inj (hu.2.symm.trans h.2))
      · exact hne (Option.some.inj (hu.2.symm.trans h.2))
  refine ⟨h1, h2, hother, ?_, ?_, handleClientMessage_ID_Send c msg⟩
  · intro hs hin t
    by_cases ht : t = topic
    · rw [ht, h1 hs, hin]
    · exact hother t ht
  · intro hu hin t
    by_cases ht : t = topic
    · rw [ht, h2 hu, hin]
    · exact hother t ht

/-- C23 on client `a` of the example hub, which unsubscribes from `jobs`. -/
theorem subscribe_and_unsubscribe_change_one_topic_witness :
    subscribed (twoClients.heap 0) "jobs" = true ∧
    subscribed (handleClientMessage (twoClients.heap 0)
      [("type", .str "unsubscribe"), ("topic", .str "jobs")]) "jobs" = false :=
  ⟨by decide,
    (subscribe_and_unsubscribe_change_one_topic (twoClients.heap 0)
      [("type", .str "unsubscribe"), ("topic", .str "jobs")] "jobs"
      (Or.inr ⟨by decide, by decide⟩)).2.1 ⟨by decide, by decide⟩⟩

/-- C24: a control message is not a subscribe or unsubscribe message for any topic
exactly when its `type` is missing or not a string, or its `topic` is missing or not a
string, or its `type` is a string other than `subscribe` and `unsubscribe`; and
`handleClientMessage` returns the client as it was, interest set included, for every
such message. -/
theorem other_control_messages_are_ignored (c : Client) (msg : Inbound) :
    ((∀ topic, ¬ IsSubscribe msg topic ∧ ¬ IsUnsubscribe msg topic) ↔
      (asString (mapGet msg "type") = none ∨ asString (mapGet msg "topic") = none ∨
        ∃ ty, asString (mapGet msg "type") = some ty ∧ ty ≠ "subscribe" ∧
          ty ≠ "unsubscribe")) ∧
    ((∀ topic, ¬ IsSubscribe msg topic ∧ ¬ IsUnsubscribe msg topic) →
      handleClientMessage c msg = c) := by
  have key : (∀ topic, ¬ IsSubscribe msg topic ∧ ¬ IsUnsubscribe msg topic) →
      handleClientMessage c msg = c := by
    intro h
    unfold handleClientMessage
    cases hty : asString (mapGet msg "type") with
    | none => rfl
    | some ty =>
      cases htopic : asString (mapGet msg "topic") with
      | none =>
        simp only
        split_ifs <;> rfl
      | some t =>
        simp only
        by_cases h1 : ty = "subscribe"
        · exact absurd ⟨by rw [hty, h1], htopic⟩ (h t).1
        · by_cases h2 : ty = "unsubscribe"
          · exact absurd ⟨by rw [hty, h2], htopic⟩ (h t).2
          · simp [h1, h2]
  refine ⟨⟨?_, ?_⟩, key⟩
  · intro h
    cases hty : asString (mapGet msg "type") with
    | none => exact Or.inl rfl
    | some ty =>
      cases htopic : asString (mapGet msg "topic") with
      | none => exact Or.inr (Or.inl rfl)
      | some t =>
        refine Or.inr (Or.inr ⟨ty, rfl, ?_, ?_⟩)
        · intro h1
          exact (h t).1 ⟨by rw [hty, h1], htopic⟩
        · intro h2
          exact (h t).2 ⟨by rw [hty, h2], htopic⟩
  · intro h topic
    unfold IsSubscribe IsUnsubscribe
    rcases h with h | h | ⟨ty, hty, h1, h2⟩
    · rw [h]
      exact ⟨fun x => Option.noConfusion x.1, fun x => Option.noConfusion x.1⟩
    · rw [h]
      exact ⟨fun x => Option.noConfusion x.2, fun x => Option.noConfusion x.2⟩
    · rw [hty]
      exact ⟨fun x => h1 (Option.some.inj x.1), fun x => h2 (Option.some.inj x.1)⟩

end Websocket

namespace Websocket

open Cron

set_option maxRecDepth 100000

/-! ### Timestamps -/

/-- C25 fails: at 1970-01-01 00:00:01.5 UTC, 1500 milliseconds after the
Unix epoch, the timestamp of the event `BroadcastMessage` builds is 1000. -/
theorem timestamp_drops_the_milliseconds :
    unixMilli epochPlusOneAndAHalf = 1500 ∧
    getCurrentTimestamp (unixSeconds epochPlusOneAndAHalf) = 1000 ∧
    (twoClients.BroadcastMessage (unixSeconds epochPlusOneAndAHalf) 0 true "log" .null).2 =
      .accepted ⟨"log", 1000, .null⟩ := by
  decide

/-- What the timestamp is: at every instant whose Unix time in milliseconds fits
`int64`, the timestamp of the events built by `BroadcastMessage`, `SendToClient` and `SendToTopic`
is the whole seconds elapsed since the Unix epoch, times 1000: a multiple of 1000, at
most the instant's milliseconds since the epoch and less than 1000 below them, and
equal to them exactly when the instant's millisecond count is a multiple of 1000. -/
theorem timestamp_is_whole_seconds_in_milliseconds (now : Time)
    (hlo : -2 ^ 63 ≤ unixSeconds now * 1000) (hhi : unixSeconds now * 1000 < 2 ^ 63)
    (m : Manager) (hwf : WellFormed m) (p : CPtr) (hreg : Registered m p)
    (hroom : (m.heap p).Send.buf.length < sendCap) (topic msgType : String) (data : Value)
    (hsub : subscribed (m.heap p) topic = true) :
    getCurrentTimestamp (unixSeconds now) = unixSeconds now * 1000 ∧
    getCurrentTimestamp (unixSeconds now) % 1000 = 0 ∧
    getCurrentTimestamp (unixSeconds now) ≤ unixMilli now ∧
    unixMilli now < getCurrentTimestamp (unixSeconds now) + 1000 ∧
    (getCurrentTimestamp (unixSeconds now) = unixMilli now ↔ unixMilli now % 1000 = 0) ∧
    (m.BroadcastMessage (unixSeconds now) 0 true msgType data).2 =
      .accepted ⟨msgType, unixSeconds now * 1000, data⟩ ∧
    (∃ m2, m.SendToClient (unixSeconds now) (m.heap p).ID msgType data = some m2 ∧
      (m2.heap p).Send.buf =
        (m.heap p).Send.buf ++ [⟨msgType, unixSeconds now * 1000, data⟩]) ∧
    (∃ m2, m.SendToTopic (unixSeconds now) topic msgType data = some m2 ∧
      (m2.heap p).Send.buf =
        (m.heap p).Send.buf ++ [⟨msgType, unixSeconds now * 1000, data⟩]) := by
  have hts : getCurrentTimestamp (unixSeconds now) = unixSeconds now * 1000 := by
    unfold getCurrentTimestamp
    exact Scheduler.wrapInt64_of_inRange _ hlo hhi
  have hsec : unixSeconds now = now / 1000000000 - 62135596800 := rfl
  have hms : unixMilli now = now / 1000000 - 62135596800 * 1000 := rfl
  rw [hts]
  refine ⟨rfl, ?_, ?_, ?_, ?_, ?_, ?_, ?_⟩
  · omega
  · rw [hsec, hms]
    simp only [Time] at *
    omega
  · rw [hsec, hms]
    simp only [Time] at *
    omega
  · rw [hsec, hms]
    simp only [Time] at *
    omega
  · simp [Manager.BroadcastMessage, hts]
  · obtain ⟨m2, hrun, _, _, hspec⟩ :=
      SendToClient_spec m hwf (unixSeconds now) (m.heap p).ID msgType data
    refine ⟨m2, hrun, ?_⟩
    rw [(hspec p).1 hreg rfl hroom, hts]
    rfl
  · obtain ⟨m2, hrun, _, _, hspec⟩ :=
      SendToTopic_spec m hwf (unixSeconds now) topic msgType data
    refine ⟨m2, hrun, ?_⟩
    rw [(hspec p).1 hreg hsub hroom, hts]
    rfl

/-- The timestamp at 1970-01-01 00:00:01.5 UTC, for client `b` of the example hub. -/
theorem timestamp_is_whole_seconds_in_milliseconds_witness :
    getCurrentTimestamp (unixSeconds epochPlusOneAndAHalf) =
      unixSeconds epochPlusOneAndAHalf * 1000 ∧
    unixMilli epochPlusOneAndAHalf < getCurrentTimestamp (unixSeconds epochPlusOneAndAHalf) +
      1000 :=
  have h := timestamp_is_whole_seconds_in_milliseconds epochPlusOneAndAHalf (by decide)
    (by decide) twoClients twoClients_wellFormed 1 (by decide) (by decide) "logs" "log" .null
    (by decide)
  ⟨h.1, h.2.2.2.1⟩

end Websocket

namespace Websocket

open Cron

set_option maxRecDepth 100000

/-! ### Who writes the registry -/

theorem mem_keys_iff_mapGet {β : Type} (m : List (String × β)) (k : String) :
    k ∈ m.map Prod.fst ↔ ∃ v, mapGet m k = some v := by
  constructor
  · intro h
    induction m with
    | nil => simp at h
    | cons e rest ih =>
      obtain ⟨a, b⟩ := e
      by_cases hk : k = a
      · subst hk
        exact ⟨b, by simp [mapGet, List.lookup]⟩
      · have hk' : (k == a) = false := by simpa using hk
        simp only [List.map_cons, List.mem_cons, hk, false_or] at h
        obtain ⟨v, hv⟩ := ih h
        exact ⟨v, by simpa [mapGet, List.lookup, hk'] using hv⟩
  · intro ⟨v, hv⟩
    exact List.mem_map.mpr ⟨_, mem_of_mapGet _ _ _ hv, rfl⟩

/-- C26: from every well-formed state of the hub (every state it reaches is one),
`SendToTopic` and `SendToClient` return and leave the registry as it is, and so do
`BroadcastMessage` and `handleClientMessage`; `GetConnectedClients` is the length of
`GetClientList`, which names no ID twice and names exactly the IDs the registry holds,
among them the ID of every registered client. -/
theorem only_the_loop_writes_the_registry (m : Manager) (hwf : WellFormed m) (unixNow : Int)
    (topic clientID msgType : String) (data : Value) (buffered : Nat) (receiving : Bool)
    (client : CPtr) (msg : Inbound) :
    (∃ m2, m.SendToTopic unixNow topic msgType data = some m2 ∧ m2.clients = m.clients) ∧
    (∃ m2, m.SendToClient unixNow clientID msgType data = some m2 ∧ m2.clients = m.clients) ∧
    (m.BroadcastMessage unixNow buffered receiving msgType data).1.clients = m.clients ∧
    (m.handleClientMessage client msg).clients = m.clients ∧
    m.GetConnectedClients = m.GetClientList.length ∧ m.GetClientList.Nodup ∧
    (∀ id, id ∈ m.GetClientList ↔ ∃ c, mapGet m.clients id = some c) ∧
    (∀ p, Registered m p → (m.heap p).ID ∈ m.GetClientList) := by
  obtain ⟨m2, h2, hc2, _⟩ := SendToTopic_spec m hwf unixNow topic msgType data
  obtain ⟨m3, h3, hc3, _⟩ := SendToClient_spec m hwf unixNow clientID msgType data
  refine ⟨⟨m2, h2, hc2⟩, ⟨m3, h3, hc3⟩, ?_, rfl, ?_, hwf.1, ?_, ?_⟩
  · unfold Manager.BroadcastMessage
    split_ifs <;> rfl
  · simp [Manager.GetConnectedClients, Manager.GetClientList]
  · intro id
    exact mem_keys_iff_mapGet m.clients id
  · intro p hp
    exact (mem_keys_iff_mapGet m.clients _).mpr ⟨p, hp⟩

/-- C26 at the example hub. -/
theorem only_the_loop_writes_the_registry_witness :
    twoClients.GetConnectedClients = twoClients.GetClientList.length ∧
    twoClients.GetClientList.Nodup :=
  have h := only_the_loop_writes_the_registry twoClients twoClients_wellFormed 5 "logs" "a"
    "log" .null 0 true 0 []
  ⟨h.2.2.2.2.1, h.2.2.2.2.2.1⟩

/-! ### Two connections under one ID -/

/-- The states a run from a reachable state passes are reachable. -/
theorem run_reachable : ∀ (events : List Event) (m m2 : Manager), Reachable m →
    m.run events = some m2 → Reachable m2 := by
  intro events
  induction events with
  | nil =>
    intro m m2 hr hrun
    cases hrun
    exact hr
  | cons e rest ih =>
    intro m m2 hr hrun
    simp only [Manager.run] at hrun
    cases hs : m.step e with
    | none => simp [hs] at hrun
    | some m1 =>
      simp only [hs, Option.some_bind] at hrun
      exact ih m1 m2 (step_reachable m m1 e hr hs) hrun

/-- Two connections made without `client_id` within one second get the same ID. -/
theorem generateClientID_same_second (off : Int) (now later : Time)
    (h : now / nsPerSecond = later / nsPerSecond) :
    generateClientID off now = generateClientID off later := by
  have hw : wallSeconds off now = wallSeconds off later := by
    unfold wallSeconds
    rw [h]
  simp only [generateClientID, yearOf, monthOf, dayOf, hourOf, minuteOf, secondOf, hw]

/-- C29 fails when two connections bear the same client ID.  First run: two
connections are made under the ID `x`; the registry then holds the second client, and
processing `unregister` for the first one deletes the second from the registry, with
its channel still open.  Second run: a connection is made under `x`, `unregister` is
processed for it, a second connection is made under `x`; processing the first client's
other `unregister` message then finds the ID in the registry and closes the closed
channel again, which panics.  Two connections without a `client_id` made in the same
second get the same generated ID. -/
theorem unregister_with_shared_ID_hits_the_other_connection :
    (∃ m2, NewManager.run [.connect true "x" 0 0, .connect true "x" 0 0] = some m2 ∧
      Reachable m2 ∧ Registered m2 1 ∧ (m2.heap 1).Send.closed = false ∧
      ∃ m3, m2.unregister 0 = some m3 ∧ ¬ Registered m3 1 ∧ m3.GetClientList = [] ∧
        (m3.heap 1).Send.closed = false ∧ (m3.heap 1).connClosed = false ∧
        (m3.heap 0).Send.closed = true) ∧
    (∃ m2, NewManager.run [.connect true "x" 0 0, .unregister 0, .connect true "x" 0 0] =
        some m2 ∧
      Reachable m2 ∧ (m2.heap 0).Send.closed = true ∧ Registered m2 1 ∧
      m2.unregister 0 = none) ∧
    generateClientID 0 Scheduler.noon = generateClientID 0 (Scheduler.noon + 1) := by
  refine ⟨?_, ?_, ?_⟩
  · have h : ∃ m2, NewManager.run [.connect true "x" 0 0, .connect true "x" 0 0] = some m2 :=
      ⟨_, rfl⟩
    obtain ⟨m2, hrun⟩ := h
    refine ⟨m2, hrun, run_reachable _ _ _ Reachable.init hrun, ?_⟩
    cases hrun
    refine ⟨by decide, by decide, _, rfl, by decide, by decide, by decide, by decide, by decide⟩
  · have h : ∃ m2, NewManager.run
        [.connect true "x" 0 0, .unregister 0, .connect true "x" 0 0] = some m2 := ⟨_, rfl⟩
    obtain ⟨m2, hrun⟩ := h
    refine ⟨m2, hrun, run_reachable _ _ _ Reachable.init hrun, ?_⟩
    cases hrun
    exact ⟨by decide, by decide, rfl⟩
  · exact generateClientID_same_second 0 _ _ (by decide)

end Websocket

namespace Scheduler

open Cron

/-! ### The registry and the engine's entries -/

/-- C27 fails: from `New`, `AddTask` of task 1 (ID 7, `0 * * * * *`) succeeds, and
`AddTask` of task 2 (the same ID, `* * * * *`) is refused by the engine's parser after
the entry of task 1 has been removed.  ID 7 is still scheduled, under handle 1, and the
engine has no entry: `GetStats` reports one scheduled task and no cron entry. -/
theorem failed_AddTask_leaves_a_handle_without_entry :
    (AddTask exampleHost noon exampleHeap New 1).2 = .ok () ∧
    (AddTask exampleHost noon exampleHeap (AddTask exampleHost noon exampleHeap New 1).1 2).2 =
      .error (.fieldCount 6 6 5) ∧
    IsTaskScheduled
      (AddTask exampleHost noon exampleHeap (AddTask exampleHost noon exampleHeap New 1).1 2).1
      7 = true ∧
    (AddTask exampleHost noon exampleHeap
      (AddTask exampleHost noon exampleHeap New 1).1 2).1.tasks.map (fun p => p.2.EntryID) =
      [1] ∧
    (AddTask exampleHost noon exampleHeap
      (AddTask exampleHost noon exampleHeap New 1).1 2).1.cron.entries = [] ∧
    (GetStats
      (AddTask exampleHost noon exampleHeap (AddTask exampleHost noon exampleHeap New 1).1 2).1
      exampleHeap).1 = 1 ∧
    (GetStats
      (AddTask exampleHost noon exampleHeap (AddTask exampleHost noon exampleHeap New 1).1 2).1
      exampleHeap).2.2.2 = 0 := by
  decide

end Scheduler

namespace Interleaving

/-! ### Stop against a fire that waits for the lock -/

/-- C28 fails: after `Start`, a fire runs its `Execute` call; `Stop` is called and
takes the lock, and the `Execute` call returns (in either order).  The state reached
has `Stop` holding the lock and waiting for the fire, and the fire waiting for the
lock; no action is enabled in it, so neither ever returns. -/
theorem Stop_deadlocks_with_a_fire :
    run init [.start, .fire, .stopCall, .stopLock, .executeReturns 0] =
      some ⟨some .stop, true, false, [.waitLock], .draining⟩ ∧
    run init [.start, .fire, .executeReturns 0, .stopCall, .stopLock] =
      some ⟨some .stop, true, false, [.waitLock], .draining⟩ ∧
    Reachable ⟨some .stop, true, false, [.waitLock], .draining⟩ ∧
    ∀ a, step ⟨some .stop, true, false, [.waitLock], .draining⟩ a = none := by
  refine ⟨by decide, by decide,
    ⟨[.start, .fire, .stopCall, .stopLock, .executeReturns 0], by decide⟩, ?_⟩
  intro a
  cases a with
  | start => decide
  | fire => decide
  | executeReturns i => cases i <;> simp [step]
  | jobLock i => cases i <;> simp [step]
  | jobUnlock i => cases i <;> simp [step]
  | stopCall => decide
  | stopLock => decide
  | stopReturn => decide
  | lockedCall => decide

end Interleaving

namespace Handlers

open Cron

/-! ### Page and limit -/

/-- C30 fails: for every parsed `page` and `limit`, the three handlers work with a page
of 1 or more and a limit from 1 to 100 (a page below 1 becomes 1, a limit out of range
the default, values in range are kept), report these values, and skip
`(page - 1) * limit` documents whenever that product fits `int64`.  No bound is put on
the page: for the page 92233720368547760, which `strconv.Atoi` parses, and the limit
100, the product wraps around and the skip passed to the database is negative. -/
theorem page_without_bound_overflows_the_skip (page limit : Int) :
    (1 ≤ (effective 10 page limit).1 ∧ 1 ≤ (effective 10 page limit).2 ∧
      (effective 10 page limit).2 ≤ 100 ∧ 1 ≤ (effective 20 page limit).2 ∧
      (effective 20 page limit).2 ≤ 100) ∧
    (1 ≤ page → (effective 10 page limit).1 = page) ∧
    (1 ≤ limit → limit ≤ 100 →
      (effective 10 page limit).2 = limit ∧ (effective 20 page limit).2 = limit) ∧
    ((GetTasks page limit).pagination =
        ⟨(effective 10 page limit).1, (effective 10 page limit).2⟩ ∧
      (GetTasks page limit).limit = (effective 10 page limit).2 ∧
      GetWorkflows page limit = GetTasks page limit ∧
      (GetExecutionLogs page limit).pagination =
        ⟨(effective 20 page limit).1, (effective 20 page limit).2⟩ ∧
      (GetExecutionLogs page limit).limit = (effective 20 page limit).2) ∧
    (((effective 10 page limit).1 - 1) * (effective 10 page limit).2 < 2 ^ 63 →
      (GetTasks page limit).skip =
        ((effective 10 page limit).1 - 1) * (effective 10 page limit).2 ∧
      0 ≤ (GetTasks page limit).skip) ∧
    (((effective 20 page limit).1 - 1) * (effective 20 page limit).2 < 2 ^ 63 →
      (GetExecutionLogs page limit).skip =
        ((effective 20 page limit).1 - 1) * (effective 20 page limit).2 ∧
      0 ≤ (GetExecutionLogs page limit).skip) ∧
    GoStr.atoi "92233720368547760".toList = some 92233720368547760 ∧
    (GetTasks 92233720368547760 100).pagination = ⟨92233720368547760, 100⟩ ∧
    (GetTasks 92233720368547760 100).skip = -9223372036854775716 ∧
    (GetWorkflows 92233720368547760 100).skip = -9223372036854775716 ∧
    (GetExecutionLogs 92233720368547760 100).skip = -9223372036854775716 := by
  have hp : 1 ≤ (if page < 1 then 1 else page) := by split_ifs <;> omega
  have hl10 : 1 ≤ (if limit < 1 ∨ limit > 100 then (10 : Int) else limit) ∧
      (if limit < 1 ∨ limit > 100 then (10 : Int) else limit) ≤ 100 := by
    split_ifs <;> omega
  have hl20 : 1 ≤ (if limit < 1 ∨ limit > 100 then (20 : Int) else limit) ∧
      (if limit < 1 ∨ limit > 100 then (20 : Int) else limit) ≤ 100 := by
    split_ifs <;> omega
  have hskip : ∀ d : Int, 1 ≤ d → d ≤ 100 → ∀ q : Int, 1 ≤ q → (q - 1) * d < 2 ^ 63 →
      wrapInt64 ((q - 1) * d) = (q - 1) * d ∧ 0 ≤ wrapInt64 ((q - 1) * d) := by
    intro d hd1 hd2 q hq hlt
    have h0 : 0 ≤ (q - 1) * d := Int.mul_nonneg (by omega) (by omega)
    have := Scheduler.wrapInt64_of_inRange ((q - 1) * d) (by omega) hlt
    rw [this]
    exact ⟨rfl, h0⟩
  refine ⟨⟨hp, hl10.1, hl10.2, hl20.1, hl20.2⟩, ?_, ?_, ⟨rfl, rfl, rfl, rfl, rfl⟩, ?_, ?_,
    by decide, by decide, by decide, by decide, by decide⟩
  · intro h
    simp only [effective]
    rw [if_neg (by omega)]
  · intro h1 h2
    simp only [effective]
    rw [if_neg (by omega), if_neg (by omega)]
    exact ⟨rfl, rfl⟩
  · intro h
    exact hskip _ hl10.1 hl10.2 _ hp h
  · intro h
    exact hskip _ hl20.1 hl20.2 _ hp h

end Handlers

namespace Websocket

open Cron

/-! ### BroadcastMessage and the loop -/

/-- What a call of `BroadcastMessage` does to the hub and its loop. -/
theorem step_BroadcastMessage (σ : System) (unixNow : Int) (msgType : String) (data : Value) :
    (σ.loop = .selecting →
      σ.step (.BroadcastMessage unixNow msgType data) =
        some ⟨σ.manager, .handling (.broadcast ⟨msgType, getCurrentTimestamp unixNow, data⟩)⟩ ∧
      acceptedAt σ (.BroadcastMessage unixNow msgType data) =
        [⟨msgType, getCurrentTimestamp unixNow, data⟩]) ∧
    (σ.loop ≠ .selecting →
      σ.step (.BroadcastMessage unixNow msgType data) = some σ ∧
      acceptedAt σ (.BroadcastMessage unixNow msgType data) = []) := by
  constructor
  · intro h
    simp [System.step, acceptedAt, Manager.BroadcastMessage, h]
  · intro h
    simp [System.step, acceptedAt, Manager.BroadcastMessage, h, broadcastCap]

/-- Over one step, the broadcast messages handled and the one pending afterwards are
the one pending before and the ones accepted. -/
theorem step_conserves (σ σ2 : System) (c : Call) (h : σ.step c = some σ2) :
    handledAt σ c ++ σ2.pending = σ.pending ++ acceptedAt σ c := by
  cases c with
  | BroadcastMessage unixNow msgType data =>
    obtain ⟨h1, h2⟩ := step_BroadcastMessage σ unixNow msgType data
    by_cases hl : σ.loop = .selecting
    · obtain ⟨hs, ha⟩ := h1 hl
      rw [hs] at h
      cases h
      rw [ha]
      simp [handledAt, System.pending, hl]
    · obtain ⟨hs, ha⟩ := h2 hl
      rw [hs] at h
      cases h
      rw [ha]
      simp [handledAt]
  | HandleConnection queryID off now =>
    simp only [System.step] at h
    split at h
    · rename_i hl
      cases h
      simp [handledAt, acceptedAt, System.pending, hl]
    · cases h
  | unregisterSend client =>
    simp only [System.step] at h
    split at h
    · rename_i hl
      cases h
      simp [handledAt, acceptedAt, System.pending, hl.1]
    · cases h
  | loopFinish =>
    cases hl : σ.loop with
    | selecting => simp [System.step, hl] at h
    | handling r =>
      cases r with
      | register client =>
        simp only [System.step, hl, Option.some.injEq] at h
        subst h
        simp [handledAt, acceptedAt, System.pending, hl]
      | unregister client =>
        simp only [System.step, hl] at h
        cases hu : σ.manager.unregister client with
        | none => simp [hu] at h
        | some m =>
          simp only [hu, Option.map_some', Option.some.injEq] at h
          subst h
          simp [handledAt, acceptedAt, System.pending, hl]
      | broadcast message =>
        simp only [System.step, hl] at h
        cases hu : σ.manager.broadcast message with
        | none => simp [hu] at h
        | some m =>
          simp only [hu, Option.map_some', Option.some.injEq] at h
          subst h
          simp [handledAt, acceptedAt, System.pending, hl]

/-- Over a run, the broadcast messages the loop has handled, followed by the one it
still holds, are the one it held at the start followed by the accepted ones, in
order: no accepted message is lost, handled twice or overtaken. -/
theorem run_conserves : ∀ (calls : List Call) (σ σ2 : System), σ.run calls = some σ2 →
    handledIn σ calls ++ σ2.pending = σ.pending ++ acceptedIn σ calls := by
  intro calls
  induction calls with
  | nil =>
    intro σ σ2 h
    cases h
    simp [handledIn, acceptedIn]
  | cons c rest ih =>
    intro σ σ2 h
    simp only [System.run] at h
    cases hs : σ.step c with
    | none => simp [hs] at h
    | some σ1 =>
      simp only [hs, Option.some_bind] at h
      have h1 := step_conserves σ σ1 c hs
      have h2 := ih σ1 σ2 h
      simp only [handledIn, acceptedIn, hs]
      rw [List.append_assoc, h2, ← List.append_assoc, h1, List.append_assoc]

/-- C20: in every state of the hub and its loop a call of `BroadcastMessage` returns
(while a plain send, as in `HandleConnection`, cannot complete unless the loop is in
its `select`), and it leaves the registry and every client as they are.  The channel
`broadcast` has capacity 0.  When the loop is not in its `select` the channel cannot
take the event: the event is dropped and the state is as before.  When the loop is in
its `select` the event is not dropped: the loop receives it, and from a well-formed hub
its `broadcast` case then runs on it.  Over every run, the events the loop has handled
followed by the one it holds are the one it held at the start followed by the accepted
events, in order. -/
theorem BroadcastMessage_returns_and_accepted_events_are_handled (σ : System)
    (unixNow : Int) (msgType : String) (data : Value) :
    broadcastCap = 0 ∧
    (∃ σ2, σ.step (.BroadcastMessage unixNow msgType data) = some σ2 ∧
      σ2.manager.clients = σ.manager.clients ∧ σ2.manager.heap = σ.manager.heap) ∧
    (σ.loop ≠ .selecting →
      σ.step (.BroadcastMessage unixNow msgType data) = some σ ∧
      acceptedAt σ (.BroadcastMessage unixNow msgType data) = [] ∧
      ∀ queryID off now, σ.step (.HandleConnection queryID off now) = none) ∧
    (σ.loop = .selecting →
      acceptedAt σ (.BroadcastMessage unixNow msgType data) =
        [⟨msgType, getCurrentTimestamp unixNow, data⟩] ∧
      ∃ σ2, σ.step (.BroadcastMessage unixNow msgType data) = some σ2 ∧
        σ2.pending = [⟨msgType, getCurrentTimestamp unixNow, data⟩] ∧
        (WellFormed σ.manager →
          ∃ σ3, σ2.step .loopFinish = some σ3 ∧ σ3.loop = .selecting ∧
            σ.manager.broadcast ⟨msgType, getCurrentTimestamp unixNow, data⟩ =
              some σ3.manager)) ∧
    (∀ calls σ2, σ.run calls = some σ2 →
      handledIn σ calls ++ σ2.pending = σ.pending ++ acceptedIn σ calls) := by
  obtain ⟨h1, h2⟩ := step_BroadcastMessage σ unixNow msgType data
  refine ⟨rfl, ?_, ?_, ?_, fun calls σ2 h => run_conserves calls σ σ2 h⟩
  · by_cases hl : σ.loop = .selecting
    · exact ⟨_, (h1 hl).1, rfl, rfl⟩
    · exact ⟨_, (h2 hl).1, rfl, rfl⟩
  · intro hl
    refine ⟨(h2 hl).1, (h2 hl).2, ?_⟩
    intro queryID off now
    simp [System.step, hl]
  · intro hl
    refine ⟨(h1 hl).2, _, (h1 hl).1, rfl, ?_⟩
    intro hwf
    obtain ⟨m2, hrun, _⟩ := broadcastLoop_spec ⟨msgType, getCurrentTimestamp unixNow, data⟩
      (σ.manager.clients.map Prod.fst) σ.manager hwf.1 hwf
    have hb : σ.manager.broadcast ⟨msgType, getCurrentTimestamp unixNow, data⟩ = some m2 :=
      hrun
    exact ⟨⟨m2, .selecting⟩, by simp [System.step, hb], rfl, hb⟩

end Websocket

namespace Scheduler

open Cron

/-- C5 fails: the expression `TZ=UTC` has no field at all, and `ValidateCronExpression`
panics on it instead of returning an error (the parser slices the expression from the
`=` to a space that is not there); so does `CRON_TZ=UTC`.  The expression
`*-70 * * * *` has the value 70 in its minute field, above the greatest minute 59, and
`ValidateCronExpression` accepts it (a range that starts with `*` is read as `*`, what
follows the hyphen is not looked at), while it rejects `0-70 * * * *`. -/
theorem validate_panics_or_accepts_bad_expressions :
    ValidateCronExpression exampleHost "TZ=UTC" = .panic ∧
    ValidateCronExpression exampleHost "CRON_TZ=UTC" = .panic ∧
    ValidateCronExpression exampleHost "*-70 * * * *" = .ok () ∧
    ValidateCronExpression exampleHost "0-70 * * * *" = .error .aboveMaximum := by
  decide

end Scheduler

namespace Websocket

open Cron

/-- C22 fails: a connection is made under the ID `x` and the loop processes the first
`unregister` message for its client: the registry is empty and the client's channel is
closed.  Processed again at once, the message changes nothing.  But a second connection
is made under `x` before the client's other goroutine sends its `unregister` message:
processing that second message finds the ID in the registry, which now holds the second
client, and closes the closed channel again, which panics. -/
theorem second_unregister_after_reconnect_panics :
    ∃ m1, NewManager.run [.connect true "x" 0 0, .unregister 0] = some m1 ∧
      m1.GetClientList = [] ∧ (m1.heap 0).Send.closed = true ∧
      m1.unregister 0 = some m1 ∧
      ∃ m2, m1.step (.connect true "x" 0 0) = some m2 ∧ Reachable m2 ∧
        m2.GetClientList = ["x"] ∧ mapGet m2.clients "x" = some 1 ∧
        (m2.heap 0).ID = "x" ∧ (m2.heap 0).Send.closed = true ∧
        m2.step (.unregister 0) = none ∧ m2.unregister 0 = none := by
  have h : ∃ m1, NewManager.run [.connect true "x" 0 0, .unregister 0] = some m1 := ⟨_, rfl⟩
  obtain ⟨m1, hrun⟩ := h
  have hr1 := run_reachable _ _ _ Reachable.init hrun
  refine ⟨m1, hrun, ?_⟩
  cases hrun
  refine ⟨by decide, by decide, rfl, _, rfl,
    step_reachable _ _ (.connect true "x" 0 0) hr1 rfl, by decide, by decide, by decide,
    by decide, rfl, rfl⟩

end Websocket
